import Mathlib

/-!
# A verification development for the three-tier memory pool (version 2.0)

Shallow embedding of `Common.hpp`, `MemoryPool.hpp`, `ThreadCache.cpp`,
`CentralCache.cpp` and `PageCache.cpp`, followed by the theorems about it.

* `size_t` values are natural numbers; arithmetic that can wrap is reduced
  modulo `2^64` explicitly.
* Pointers are natural numbers, `0` is `nullptr`.
* Memory is a map from byte addresses to the pointer-sized word stored there;
  the free lists are intrusive, so the only words the allocator reads or
  writes are the first words of blocks.
* Dereferencing `nullptr` is a fault: the operation returns `none`.
* The operating system is an oracle: the state carries the answers of the
  `mmap` calls still to come and a log of the mappings handed out.
* One thread runs: there is one thread cache, and the spin locks and the
  mutex are not modelled.
* Loops are recursive functions on the number of iterations left.
-/

namespace MyMemoryPool

/-! ## Common.hpp -/

/-- The modulus of `size_t` arithmetic (64-bit target). -/
def SIZE_MOD : Nat := 2 ^ 64

/-- The alignment, which is also the smallest block size. -/
def ALIGNMENT : Nat := 8

/-- The largest request served by the three tiers (256 KiB). -/
def MAX_BYTES : Nat := 256 * 1024

/-- The number of size classes. -/
def FREE_LIST_SIZE : Nat := MAX_BYTES / ALIGNMENT

/-- The counter value above which the thread cache returns blocks. -/
def THREAD_MAX_SIZE : Nat := 64

/-- Bitwise complement of a 64-bit `size_t` value (`~x`). -/
def notSize (x : Nat) : Nat := SIZE_MOD - 1 - x % SIZE_MOD

namespace SizeClass

/-- The function `SizeClass::roundUp`: `(bytes + ALIGNMENT - 1) & ~(ALIGNMENT - 1)`. -/
def roundUp (bytes : Nat) : Nat :=
  ((bytes + ALIGNMENT - 1) % SIZE_MOD) &&& notSize (ALIGNMENT - 1)

/-- The function `SizeClass::getIndex`: `bytes = max(bytes, ALIGNMENT)`,
then `(bytes + ALIGNMENT - 1) / ALIGNMENT - 1`. -/
def getIndex (bytes : Nat) : Nat :=
  let bytes := max bytes ALIGNMENT
  ((bytes + ALIGNMENT - 1) % SIZE_MOD) / ALIGNMENT - 1

end SizeClass


/-! ## Memory, the operating system, and the allocator state -/

/-- Memory: the pointer-sized word stored at each byte address. -/
abbrev Mem := Nat → Nat

/-- Writes the word `v` at address `a` (`*reinterpret_cast<void **>(a) = v`). -/
def store (m : Mem) (a v : Nat) : Mem := fun x => if x = a then v else m x

/-- Assignment to one element of a `std::array`, seen as a function of the index. -/
def setAt (f : Nat → Nat) (i v : Nat) : Nat → Nat := fun j => if j = i then v else f j

/-- The operating system as the allocator sees it. `pending` lists the results
of the `mmap` calls still to come (`0` stands for `MAP_FAILED`; an exhausted
list fails too), `mapped` records the mappings handed out so far as
`(address, length in bytes)`, `mallocs` lists the results of the `malloc`
calls still to come. -/
structure OsState where
  pending : List Nat
  mapped : List (Nat × Nat)
  mallocs : List Nat

/-- Modelled from the spec: `PageCache::PAGE_SIZE` is declared in `PageCache.hpp`,
which is not among the sources; the spec gives 4 KiB. -/
def PAGE_SIZE : Nat := 4096

/-- Modelled from the spec: the span record of `PageCache.hpp` (not among the
sources), with the three fields `PageCache.cpp` uses: start address, page
count, and the `next` pointer of the free list the record is on. -/
structure Span where
  pageAddr : Nat
  numPages : Nat
  next : Nat

/-- The page cache. `freeSpans` is `std::map<size_t, Span*> freeSpans_` as a list
of `(key, value)` sorted by key, `spanMap` is `std::map<void*, Span*> spanMap_`
likewise; `spans` holds the span records by record address and `nextSpan` is the
address the next `new Span` returns. -/
structure PageCache where
  freeSpans : List (Nat × Nat)
  spanMap : List (Nat × Nat)
  spans : Nat → Span
  nextSpan : Nat

/-- The central cache: `centralFreeList_`, one list head per size class. -/
structure CentralCache where
  centralFreeList : Nat → Nat

/-- The thread cache: `freeList_` and `freeListSize_`. -/
structure ThreadCache where
  freeList : Nat → Nat
  freeListSize : Nat → Nat

/-- The whole allocator seen from one thread, with the memory and the operating
system it runs on; `out` collects the lines written to `std::cout`. -/
structure State where
  mem : Mem
  os : OsState
  pc : PageCache
  cc : CentralCache
  tc : ThreadCache
  out : List String

/-! ## `std::map` as a sorted association list -/

/-- The function `std::map::find`: the value under key `k`, if present. -/
def mapFind : List (Nat × Nat) → Nat → Option Nat
  | [], _ => none
  | (k', v) :: rest, k => if k' = k then some v else mapFind rest k

/-- Insert-or-assign (`m[k] = v`), keeping the keys sorted. -/
def mapSet : List (Nat × Nat) → Nat → Nat → List (Nat × Nat)
  | [], k, v => [(k, v)]
  | (k', v') :: rest, k, v =>
    if k' = k then (k, v) :: rest
    else if k < k' then (k, v) :: (k', v') :: rest
    else (k', v') :: mapSet rest k v

/-- The function `std::map::erase` by key. -/
def mapErase : List (Nat × Nat) → Nat → List (Nat × Nat)
  | [], _ => []
  | (k', v') :: rest, k => if k' = k then rest else (k', v') :: mapErase rest k

/-- The function `std::map::lower_bound`: the first entry whose key is at least `k`. -/
def mapLowerBound : List (Nat × Nat) → Nat → Option (Nat × Nat)
  | [], _ => none
  | (k', v') :: rest, k => if k ≤ k' then some (k', v') else mapLowerBound rest k

/-- The map after evaluating `m[k]`: `operator[]` inserts a null entry when the
key is absent. -/
def mapTouch (m : List (Nat × Nat)) (k : Nat) : List (Nat × Nat) :=
  match mapFind m k with
  | some _ => m
  | none => mapSet m k 0

/-- The value `m[k]` refers to (null when the key was absent). -/
def mapGet (m : List (Nat × Nat)) (k : Nat) : Nat := (mapFind m k).getD 0


/-! ## PageCache.cpp -/

/-- Assignment to the span record at address `p`. -/
def setSpan (spans : Nat → Span) (p : Nat) (v : Span) : Nat → Span :=
  fun q => if q = p then v else spans q

namespace PageCache

/-- The function `PageCache::systemAlloc`: one `mmap` of `numPages * PAGE_SIZE` bytes, zeroed
by `memset`; null when the mapping fails. -/
def systemAlloc (s : State) (numPages : Nat) : Nat × State :=
  let size := (numPages * PAGE_SIZE) % SIZE_MOD
  match s.os.pending with
  | [] => (0, s)
  | ptr :: rest =>
    if ptr = 0 then (0, { s with os := { s.os with pending := rest } })
    else
      (ptr, { s with
        os := { s.os with pending := rest, mapped := (ptr, size) :: s.os.mapped },
        mem := fun a => if ptr ≤ a ∧ a < ptr + size then 0 else s.mem a })

/-- The function `PageCache::allocateSpan`. The result is `none` when the code dereferences a
null span pointer (a `lower_bound` hit on an entry whose list head is null). -/
def allocateSpan (s : State) (numPages : Nat) : Option (Nat × State) :=
  match mapLowerBound s.pc.freeSpans numPages with
  | some (key, span) =>
    if span = 0 then none
    else
      let sp := s.pc.spans span
      let fs1 :=
        if sp.next ≠ 0 then mapSet s.pc.freeSpans key sp.next
        else mapErase s.pc.freeSpans key
      if sp.numPages > numPages then
        let newSpan := s.pc.nextSpan
        let newAddr := sp.pageAddr + (numPages * PAGE_SIZE) % SIZE_MOD
        let newPages := sp.numPages - numPages
        let list := mapGet fs1 newPages
        let fs2 := mapSet fs1 newPages newSpan
        let spans1 := setSpan s.pc.spans newSpan ⟨newAddr, newPages, list⟩
        let spans2 := setSpan spans1 span { sp with numPages := numPages }
        some (sp.pageAddr,
          { s with pc := { freeSpans := fs2, spanMap := s.pc.spanMap,
                           spans := spans2, nextSpan := newSpan + 1 } })
      else
        some (sp.pageAddr,
          { s with pc := { s.pc with freeSpans := fs1,
                                     spanMap := mapSet s.pc.spanMap sp.pageAddr span } })
  | none =>
    let r := systemAlloc s numPages
    let memory := r.1
    let s1 := r.2
    if memory = 0 then some (0, s1)
    else
      let span := s1.pc.nextSpan
      some (memory,
        { s1 with pc := { freeSpans := s1.pc.freeSpans,
                          spanMap := mapSet s1.pc.spanMap memory span,
                          spans := setSpan s1.pc.spans span ⟨memory, numPages, 0⟩,
                          nextSpan := span + 1 } })

/-- The search of `deallocateSpan` for `nextSpan` behind the head of its free
list: `while (prev->next)`, unlinking `nextSpan` when it is found. The result is
the span records and `found`; `none` when the walk does not end within `fuel`
records. -/
def unlinkLoop (nextSpan : Nat) : Nat → (Nat → Span) → Nat → Option ((Nat → Span) × Bool)
  | 0, _, _ => none
  | fuel + 1, spans, prev =>
    let pn := (spans prev).next
    if pn = 0 then some (spans, false)
    else if pn = nextSpan then
      some (setSpan spans prev { spans prev with next := (spans nextSpan).next }, true)
    else unlinkLoop nextSpan fuel spans pn

/-- The function `PageCache::deallocateSpan`. The result is `none` when a null span pointer is
dereferenced or the free-list walk does not end. -/
def deallocateSpan (s : State) (ptr numPages : Nat) : Option State :=
  match mapFind s.pc.spanMap ptr with
  | none => some s
  | some span =>
    let nextAddr := ptr + (numPages * PAGE_SIZE) % SIZE_MOD
    match mapFind s.pc.spanMap nextAddr with
    | none => some s
    | some nextSpan =>
      if span = 0 ∨ nextSpan = 0 then none
      else
        let key := (s.pc.spans nextSpan).numPages
        let nextList := mapGet s.pc.freeSpans key
        let fs0 := mapTouch s.pc.freeSpans key
        let searched : Option (List (Nat × Nat) × (Nat → Span) × Bool) :=
          if nextList = nextSpan then
            some (mapSet fs0 key (s.pc.spans nextSpan).next, s.pc.spans, true)
          else if nextList ≠ 0 then
            (unlinkLoop nextSpan (s.pc.nextSpan + 1) s.pc.spans nextList).map
              (fun r => (fs0, r.1, r.2))
          else some (fs0, s.pc.spans, false)
        match searched with
        | none => none
        | some (fs1, spans1, found) =>
          let spans2 :=
            if found then
              setSpan spans1 span
                { spans1 span with
                  numPages := ((spans1 span).numPages + (spans1 nextSpan).numPages) % SIZE_MOD }
            else spans1
          let spanMap1 :=
            if found then mapErase s.pc.spanMap (spans1 nextSpan).pageAddr else s.pc.spanMap
          let key2 := (spans2 span).numPages
          let list := mapGet fs1 key2
          let spans3 := setSpan spans2 span { spans2 span with next := list }
          some { s with pc := { freeSpans := mapSet fs1 key2 span, spanMap := spanMap1,
                                spans := spans3, nextSpan := s.pc.nextSpan } }

end PageCache

/-! ## CentralCache.cpp -/

/-- The number of pages of the spans the central cache requests by default. -/
def SPAN_PAGES : Nat := 8

namespace CentralCache

/-- The function `CentralCache::fetchFromPageCache`. -/
def fetchFromPageCache (s : State) (size : Nat) : Option (Nat × State) :=
  let numPages := ((size + PAGE_SIZE - 1) % SIZE_MOD) / PAGE_SIZE
  if size ≤ SPAN_PAGES * PAGE_SIZE then PageCache.allocateSpan s SPAN_PAGES
  else PageCache.allocateSpan s numPages

/-- The two chain-building loops of `fetchRange`:
`for (i = ...; i < stop; ++i) *(start + (i-1)*size) = start + i*size`,
with `fuel` the number of iterations left (`stop - i`). -/
def linkLoop (start size : Nat) : Nat → Nat → Mem → Mem
  | 0, _, m => m
  | fuel + 1, i, m =>
    linkLoop start size fuel (i + 1) (store m (start + (i - 1) * size) (start + i * size))

/-- The walk of `fetchRange` over an existing list:
`while (current && count < batchNum) { prev = current; current = *current; count++; }`,
with `fuel = batchNum - count`. The result is `(prev, current)`. -/
def walkLoop (m : Mem) : Nat → Nat → Nat → Nat × Nat
  | 0, prev, current => (prev, current)
  | fuel + 1, prev, current =>
    if current ≠ 0 then walkLoop m fuel current (m current) else (prev, current)

/-- The function `CentralCache::fetchRange` (the spin lock is taken and released around the
body and does not show in a single-threaded run). -/
def fetchRange (s : State) (index batchNum : Nat) : Option (Nat × State) :=
  if index ≥ FREE_LIST_SIZE ∨ batchNum = 0 then some (0, s)
  else
    let result := s.cc.centralFreeList index
    if result = 0 then
      let size := (index + 1) * ALIGNMENT
      match fetchFromPageCache s size with
      | none => none
      | some (result, s1) =>
        if result = 0 then some (0, s1)
        else
          let start := result
          let totalBlocks := (SPAN_PAGES * PAGE_SIZE) / size
          let allocBlocks := min batchNum totalBlocks
          let mem1 :=
            if allocBlocks > 1 then
              store (linkLoop start size (allocBlocks - 1) 1 s1.mem)
                (start + (allocBlocks - 1) * size) 0
            else s1.mem
          if totalBlocks > allocBlocks then
            let remainStart := start + allocBlocks * size
            let mem2 :=
              store (linkLoop start size (totalBlocks - (allocBlocks + 1)) (allocBlocks + 1) mem1)
                (start + (totalBlocks - 1) * size) 0
            some (result,
              { s1 with
                mem := mem2,
                cc := { centralFreeList := setAt s1.cc.centralFreeList index remainStart } })
          else some (result, { s1 with mem := mem1 })
    else
      let w := walkLoop s.mem batchNum 0 result
      let prev := w.1
      let current := w.2
      let mem1 := if prev ≠ 0 then store s.mem prev 0 else s.mem
      some (result,
        { s with
          mem := mem1,
          cc := { centralFreeList := setAt s.cc.centralFreeList index current } })

/-- The tail search of `returnRange`:
`while (*end && count < blockNum) { end = *end; count++; }`,
with `fuel = blockNum - count`. The result is `(end, count)`. -/
def tailLoop (m : Mem) : Nat → Nat → Nat → Nat × Nat
  | 0, e, count => (e, count)
  | fuel + 1, e, count =>
    if m e ≠ 0 then tailLoop m fuel (m e) (count + 1) else (e, count)

/-- The function `CentralCache::returnRange`. -/
def returnRange (s : State) (start blockNum index : Nat) : State :=
  if start = 0 ∨ index ≥ FREE_LIST_SIZE ∨ blockNum = 0 then s
  else
    let t := tailLoop s.mem (blockNum - 1) start 1
    let e := t.1
    let count := t.2
    let out1 :=
      if count > blockNum then s.out ++ ["returnRange error: count > blockNum"] else s.out
    let current := s.cc.centralFreeList index
    { s with
      mem := store s.mem e current,
      cc := { centralFreeList := setAt s.cc.centralFreeList index start },
      out := out1 }

end CentralCache


/-! ## ThreadCache.cpp -/

namespace ThreadCache

/-- The function `ThreadCache::getBatchNum`. The callers pass `size ≥ ALIGNMENT`; the division
by `size` is the truncating division of `size_t`. -/
def getBatchNum (size : Nat) : Nat :=
  let MAX_BATCH_SIZE := 4 * 1024
  let baseNum :=
    if size ≤ 32 then 64
    else if size ≤ 64 then 32
    else if size ≤ 128 then 16
    else if size ≤ 256 then 8
    else if size ≤ 512 then 4
    else if size ≤ 1024 then 2
    else 1
  let maxNum := max 1 (MAX_BATCH_SIZE / size)
  max 1 (min maxNum baseNum)

/-- The function `ThreadCache::shouldReturnToCentralCache`. -/
def shouldReturnToCentralCache (s : State) (index : Nat) : Bool :=
  decide (s.tc.freeListSize index > THREAD_MAX_SIZE)

/-- The function `ThreadCache::fetchFromCentralCache`. -/
def fetchFromCentralCache (s : State) (index : Nat) : Option (Nat × State) :=
  let size := (index + 1) * ALIGNMENT
  let batchNum := getBatchNum size
  match CentralCache.fetchRange s index batchNum with
  | none => none
  | some (start, s1) =>
    if start = 0 then some (0, s1)
    else
      let s2 : State :=
        { s1 with tc := { s1.tc with
            freeListSize :=
              setAt s1.tc.freeListSize index ((s1.tc.freeListSize index + batchNum) % SIZE_MOD) } }
      let result := start
      if batchNum > 1 then
        some (result,
          { s2 with tc := { s2.tc with freeList := setAt s2.tc.freeList index (s2.mem start) } })
      else some (result, s2)

/-- The search of `returnToCentralCache` for the split point:
`for (i = 0; i < keepNum - 1; ++i)`, with `fuel` the number of iterations left.
The result is `(splitNode, keepNum, returnNum)`; `none` when `splitNode` is
dereferenced while null. -/
def splitLoop (m : Mem) (batchNum : Nat) : Nat → Nat → Nat → Nat → Nat → Option (Nat × Nat × Nat)
  | 0, _, splitNode, keepNum, returnNum => some (splitNode, keepNum, returnNum)
  | fuel + 1, i, splitNode, keepNum, returnNum =>
    if splitNode = 0 then none
    else
      let next := m splitNode
      if next = 0 then some (0, i + 1, batchNum - (i + 1))
      else splitLoop m batchNum fuel (i + 1) next keepNum returnNum

/-- The function `ThreadCache::returnToCentralCache`. -/
def returnToCentralCache (s : State) (start size : Nat) : Option State :=
  let index := SizeClass.getIndex size
  let batchNum := s.tc.freeListSize index
  if batchNum ≤ 1 then some s
  else
    let keepNum := max (batchNum / 4) 1
    let returnNum := batchNum - keepNum
    match splitLoop s.mem batchNum (keepNum - 1) 0 start keepNum returnNum with
    | none => none
    | some (splitNode, keepNum, returnNum) =>
      if splitNode ≠ 0 then
        let nextNode := s.mem splitNode
        let s1 : State :=
          { s with
            mem := store s.mem splitNode 0,
            tc := { freeList := setAt s.tc.freeList index start,
                    freeListSize := setAt s.tc.freeListSize index keepNum } }
        if returnNum > 0 ∧ nextNode ≠ 0 then
          some (CentralCache.returnRange s1 nextNode returnNum index)
        else some s1
      else some s

/-- The function `ThreadCache::allocate`. Requests above `MAX_BYTES` go to `malloc`, whose
result is the next entry of `os.mallocs` (null when exhausted). -/
def allocate (s : State) (size : Nat) : Option (Nat × State) :=
  let size := if size = 0 then ALIGNMENT else size
  if size > MAX_BYTES then
    some (s.os.mallocs.headD 0, { s with os := { s.os with mallocs := s.os.mallocs.tail } })
  else
    let index := SizeClass.getIndex size
    let s1 : State :=
      { s with tc := { s.tc with
          freeListSize :=
            setAt s.tc.freeListSize index
              ((s.tc.freeListSize index + SIZE_MOD - 1) % SIZE_MOD) } }
    let ptr := s1.tc.freeList index
    if ptr ≠ 0 then
      some (ptr, { s1 with tc := { s1.tc with freeList := setAt s1.tc.freeList index (s1.mem ptr) } })
    else fetchFromCentralCache s1 index

/-- The function `ThreadCache::deallocate`. The result is `none` when `ptr` is null and is
written through; `free` of a large block leaves the modelled state unchanged. -/
def deallocate (s : State) (ptr size : Nat) : Option State :=
  if size > MAX_BYTES then some s
  else
    let index := SizeClass.getIndex size
    if ptr = 0 then none
    else
      let s1 : State :=
        { s with
          mem := store s.mem ptr (s.tc.freeList index),
          tc := { freeList := setAt s.tc.freeList index ptr,
                  freeListSize :=
                    setAt s.tc.freeListSize index ((s.tc.freeListSize index + 1) % SIZE_MOD) } }
      if shouldReturnToCentralCache s1 index then
        returnToCentralCache s1 (s1.tc.freeList index) size
      else some s1

end ThreadCache

/-! ## MemoryPool.hpp -/

namespace MemoryPool

/-- The function `MemoryPool::allocate`. -/
def allocate (s : State) (size : Nat) : Option (Nat × State) := ThreadCache.allocate s size

/-- The function `MemoryPool::deallocate`. -/
def deallocate (s : State) (ptr size : Nat) : Option State := ThreadCache.deallocate s ptr size

end MemoryPool

/-! ## Fresh state and runs -/

/-- The state before the first call: zero-initialised thread cache, central cache
with every head null, empty page cache, untouched memory `m`, and an operating
system that will answer the `mmap` calls with `pending`. -/
def fresh (m : Mem) (pending : List Nat) : State :=
  { mem := m
    os := { pending := pending, mapped := [], mallocs := [] }
    pc := { freeSpans := [], spanMap := [], spans := fun _ => ⟨0, 0, 0⟩, nextSpan := 1 }
    cc := { centralFreeList := fun _ => 0 }
    tc := { freeList := fun _ => 0, freeListSize := fun _ => 0 }
    out := [] }

/-! ## Intrusive lists as seen in memory -/

/-- The predicate `IsSeg m h xs t`: starting at pointer `h` and following the next-words stored
in the blocks, one meets exactly the blocks `xs`, in order, and the next-word of
the last one is `t` (`h = t` for no block at all). -/
def IsSeg (m : Mem) : Nat → List Nat → Nat → Prop
  | h, [], t => h = t
  | h, x :: xs, t => h = x ∧ x ≠ 0 ∧ IsSeg m (m x) xs t

/-- The predicate `IsChain m h xs`: the list with head pointer `h` is the null-terminated chain
of the blocks `xs`, in order. -/
def IsChain (m : Mem) (h : Nat) (xs : List Nat) : Prop := IsSeg m h xs 0

/-- Whether a given list of blocks is the segment between two pointers can be computed. -/
def decIsSeg (m : Mem) : (h : Nat) → (xs : List Nat) → (t : Nat) → Decidable (IsSeg m h xs t)
  | h, [], t => inferInstanceAs (Decidable (h = t))
  | h, x :: xs, t =>
    have := decIsSeg m (m x) xs t
    inferInstanceAs (Decidable (h = x ∧ x ≠ 0 ∧ IsSeg m (m x) xs t))

instance (m : Mem) (h : Nat) (xs : List Nat) (t : Nat) : Decidable (IsSeg m h xs t) :=
  decIsSeg m h xs t

instance (m : Mem) (h : Nat) (xs : List Nat) : Decidable (IsChain m h xs) :=
  decIsSeg m h xs 0

/-- The blocks `start + j * size` for `j = i, ..., i + n - 1`, in that order. -/
def blocks (start size i n : Nat) : List Nat :=
  (List.range' i n).map (fun j => start + j * size)

/-- The blocks met from `p` on, following next-words until null, at most `fuel` of them. -/
def chainList (m : Mem) : Nat → Nat → List Nat
  | 0, _ => []
  | fuel + 1, p => if p = 0 then [] else p :: chainList m fuel (m p)

/-- A page-cache state with a recycled span: a client takes two 8-page spans
(the operating system maps them back to back at `0x10000` and `0x18000`), writes
the word `7` at the start of the first and gives that span back with
`deallocateSpan`. -/
def recycledSpanState : Option State :=
  match PageCache.allocateSpan (fresh (fun _ => 0) [0x10000, 0x18000]) 8 with
  | none => none
  | some (a, s1) =>
    match PageCache.allocateSpan s1 8 with
    | none => none
    | some (_, s2) => PageCache.deallocateSpan { s2 with mem := store s2.mem a 7 } a 8

/-! ## Runs -/

/-- The thread cache right after `deallocate` has pushed `ptr` onto its class list
and incremented the counter, before the return-to-central test. -/
def pushBlock (s : State) (ptr size : Nat) : State :=
  { s with
    mem := store s.mem ptr (s.tc.freeList (SizeClass.getIndex size)),
    tc := { freeList := setAt s.tc.freeList (SizeClass.getIndex size) ptr,
            freeListSize :=
              setAt s.tc.freeListSize (SizeClass.getIndex size)
                ((s.tc.freeListSize (SizeClass.getIndex size) + 1) % SIZE_MOD) } }

/-- Whether `deallocate(ptr, size)` calls `returnToCentralCache`. -/
def returnTriggered (s : State) (ptr size : Nat) : Bool :=
  decide (size ≤ MAX_BYTES) && decide (ptr ≠ 0) &&
    ThreadCache.shouldReturnToCentralCache (pushBlock s ptr size) (SizeClass.getIndex size)

/-- The run of `k` calls `allocate(size)` in a row; the result lists the returned pointers in order. -/
def allocMany (size : Nat) : Nat → State → Option (List Nat × State)
  | 0, s => some ([], s)
  | k + 1, s =>
    match MemoryPool.allocate s size with
    | none => none
    | some (p, s1) =>
      match allocMany size k s1 with
      | none => none
      | some (ps, s2) => some (p :: ps, s2)

/-- The calls `deallocate(p, size)` for the pointers of a list, in order; the result
lists for each call whether it triggered return-to-central. -/
def deallocMany (size : Nat) : List Nat → State → Option (List Bool × State)
  | [], s => some ([], s)
  | p :: ps, s =>
    match MemoryPool.deallocate s p size with
    | none => none
    | some s1 =>
      match deallocMany size ps s1 with
      | none => none
      | some (fs, s2) => some (returnTriggered s p size :: fs, s2)

/-- The boundary scenario on a concrete machine: 65 calls `allocate(64)` from the
fresh state (the operating system maps the span at `0x10000`), then the 65
blocks are freed in the order they were allocated. The result is the trigger
flags of the 65 frees and the final state. -/
def scenario65 : Option (List Bool × State) :=
  match allocMany 64 65 (fresh (fun _ => 0) [0x10000]) with
  | none => none
  | some (ps, s) => deallocMany 64 ps s

/-! ## The lists after one call, as lists of blocks -/

/-- The number of blocks `returnToCentralCache` keeps for a counter value `cnt`. -/
def keepOf (cnt : Nat) : Nat := max (cnt / 4) 1

/-- The thread-cache list, the central list and the counter after `deallocate`,
given the thread-cache list `L` right after the push, the central list `C` and
the incremented counter `cnt`: when the counter exceeds `THREAD_MAX_SIZE` and
`L` has at least `keepOf cnt` blocks, the first `keepOf cnt` stay and the first
`cnt - keepOf cnt` of the others go in front of `C`. -/
def afterReturn (L C : List Nat) (cnt : Nat) : List Nat × List Nat × Nat :=
  if THREAD_MAX_SIZE < cnt ∧ keepOf cnt ≤ L.length then
    (L.take (keepOf cnt), (L.drop (keepOf cnt)).take (cnt - keepOf cnt) ++ C, keepOf cnt)
  else (L, C, cnt)

/-! ## The blocks the allocator owns, and reachable states -/

/-- The size of the blocks of class `i`. -/
def blockSize (i : Nat) : Nat := (i + 1) * ALIGNMENT

/-- Two blocks, given as `(address, class)`, occupy disjoint byte ranges. -/
def BlockDisj (x y : Nat × Nat) : Prop :=
  x.1 + blockSize x.2 ≤ y.1 ∨ y.1 + blockSize y.2 ≤ x.1

/-- The block `x = (address, class)` lies inside the mapping `r = (address, length)`. -/
def InRegion (x r : Nat × Nat) : Prop := r.1 ≤ x.1 ∧ x.1 + blockSize x.2 ≤ r.1 + r.2

/-- The mappings the operating system has handed out are pairwise disjoint. -/
def OsDisjoint (mapped : List (Nat × Nat)) : Prop :=
  mapped.Pairwise (fun r r' => r.1 + r.2 ≤ r'.1 ∨ r'.1 + r'.2 ≤ r.1)

/-- The free blocks of class `i`: those of the thread-cache list `T i`, then those
of the central list `C i`. -/
def classBlocks (T C : Nat → List Nat) (i : Nat) : List (Nat × Nat) :=
  (T i ++ C i).map (fun a => (a, i))

/-- The free blocks of all classes. -/
def allFree (T C : Nat → List Nat) : List (Nat × Nat) :=
  (List.range FREE_LIST_SIZE).flatMap (classBlocks T C)

/-- The free blocks of all classes but `i`. -/
def restFree (T C : Nat → List Nat) (i : Nat) : List (Nat × Nat) :=
  ((List.range FREE_LIST_SIZE).erase i).flatMap (classBlocks T C)

/-- The live blocks, each `(pointer, requested size)`, as `(address, class)`. -/
def liveBlocks (live : List (Nat × Nat)) : List (Nat × Nat) :=
  live.map (fun x => (x.1, SizeClass.getIndex x.2))

/-- The invariant of single-threaded runs: the page cache has no free span; every
thread-cache list is the chain `T i` and every central list the chain `C i`; the
live blocks and the blocks on the lists are pairwise disjoint, non-null, and each
lies inside a mapping obtained from the operating system. -/
structure Inv (s : State) (live : List (Nat × Nat)) (T C : Nat → List Nat) : Prop where
  noFree : s.pc.freeSpans = []
  tchain : ∀ i, IsChain s.mem (s.tc.freeList i) (T i)
  cchain : ∀ i, IsChain s.mem (s.cc.centralFreeList i) (C i)
  high : ∀ i, FREE_LIST_SIZE ≤ i → T i = [] ∧ C i = []
  small : ∀ x ∈ live, x.2 ≤ MAX_BYTES
  sep : (liveBlocks live ++ allFree T C).Pairwise BlockDisj
  inside : ∀ b ∈ liveBlocks live ++ allFree T C, b.1 ≠ 0 ∧ ∃ r ∈ s.os.mapped, InRegion b r

/-- The states a single thread reaches from the fresh state (initial memory `m0`,
future `mmap` answers `pending`), together with the live blocks as
`(pointer, requested size)`: by `allocate(n)` with `n ≤ MAX_BYTES` (a null result
adds no live block), by `deallocate(p, n)` of a live block with the size it was
requested with, and by the client writing a word inside a live block. -/
inductive Reachable (m0 : Mem) (pending : List Nat) : State → List (Nat × Nat) → Prop
  | init : Reachable m0 pending (fresh m0 pending) []
  | alloc {s s' : State} {live : List (Nat × Nat)} {n p : Nat} :
      Reachable m0 pending s live → n ≤ MAX_BYTES →
      MemoryPool.allocate s n = some (p, s') → p ≠ 0 →
      Reachable m0 pending s' ((p, n) :: live)
  | allocNull {s s' : State} {live : List (Nat × Nat)} {n : Nat} :
      Reachable m0 pending s live → n ≤ MAX_BYTES →
      MemoryPool.allocate s n = some (0, s') →
      Reachable m0 pending s' live
  | dealloc {s s' : State} {live : List (Nat × Nat)} {n p : Nat} :
      Reachable m0 pending s live → (p, n) ∈ live →
      MemoryPool.deallocate s p n = some s' →
      Reachable m0 pending s' (live.erase (p, n))
  | write {s : State} {live : List (Nat × Nat)} {n p a v : Nat} :
      Reachable m0 pending s live → (p, n) ∈ live →
      p ≤ a → a < p + blockSize (SizeClass.getIndex n) →
      Reachable m0 pending { s with mem := store s.mem a v } live

/-! ## The lengths of the lists of one class -/

/-- The numbers that describe one size class: the lengths of its thread-cache
list and of its central list, and the counter `freeListSize_`. -/
structure Counts where
  tcLen : Nat
  ccLen : Nat
  counter : Nat
deriving DecidableEq

/-- The numbers of a class after a successful `allocate`, for batch size `b` and
`total` blocks per span: a pop when the thread-cache list is non-empty, else a
batch from the central list when that is non-empty, else a batch from a new span. -/
def absAlloc (b total : Nat) (x : Counts) : Counts :=
  if 0 < x.tcLen then
    ⟨x.tcLen - 1, x.ccLen, (x.counter + SIZE_MOD - 1) % SIZE_MOD⟩
  else if 0 < x.ccLen then
    ⟨min b x.ccLen - 1, x.ccLen - min b x.ccLen,
      ((x.counter + SIZE_MOD - 1) % SIZE_MOD + b) % SIZE_MOD⟩
  else
    ⟨min b total - 1, total - min b total,
      ((x.counter + SIZE_MOD - 1) % SIZE_MOD + b) % SIZE_MOD⟩

/-- The numbers of a class after `deallocate`. -/
def absDealloc (x : Counts) : Counts :=
  ⟨(afterReturn (List.replicate (x.tcLen + 1) 0) (List.replicate x.ccLen 0)
      ((x.counter + 1) % SIZE_MOD)).1.length,
   (afterReturn (List.replicate (x.tcLen + 1) 0) (List.replicate x.ccLen 0)
      ((x.counter + 1) % SIZE_MOD)).2.1.length,
   (afterReturn (List.replicate (x.tcLen + 1) 0) (List.replicate x.ccLen 0)
      ((x.counter + 1) % SIZE_MOD)).2.2⟩

/-- What one `allocate(n)` with result `(p, s')` does to a state satisfying the
invariant with lists `T`, `C`: at most one mapping is added, and only when both
lists of the class are empty; the result is non-null
when a list of the class is non-empty or the operating system grants the next
mapping; and, if the mappings are still disjoint, the invariant holds again with
only the lists of the class of `n` changed, their lengths following `absAlloc`. -/
def AllocPost (s : State) (live : List (Nat × Nat)) (T C : Nat → List Nat) (n p : Nat)
    (s' : State) : Prop :=
  (s'.os.mapped = s.os.mapped ∨
    (T (SizeClass.getIndex n) = [] ∧ C (SizeClass.getIndex n) = [] ∧
      ∃ reg, s'.os.mapped = reg :: s.os.mapped)) ∧
  ((T (SizeClass.getIndex n) ≠ [] ∨ C (SizeClass.getIndex n) ≠ [] ∨
      ∃ r rest, s.os.pending = r :: rest ∧ r ≠ 0) → p ≠ 0) ∧
  (OsDisjoint s'.os.mapped →
    ∃ Ti Ci,
      Inv s' (if p = 0 then live else (p, n) :: live)
        (Function.update T (SizeClass.getIndex n) Ti)
        (Function.update C (SizeClass.getIndex n) Ci) ∧
      (∀ j, j ≠ SizeClass.getIndex n → s'.tc.freeListSize j = s.tc.freeListSize j) ∧
      (p ≠ 0 →
        Counts.mk Ti.length Ci.length (s'.tc.freeListSize (SizeClass.getIndex n))
          = absAlloc (ThreadCache.getBatchNum ((SizeClass.getIndex n + 1) * ALIGNMENT))
              (SPAN_PAGES * PAGE_SIZE / ((SizeClass.getIndex n + 1) * ALIGNMENT))
              ⟨(T (SizeClass.getIndex n)).length, (C (SizeClass.getIndex n)).length,
                s.tc.freeListSize (SizeClass.getIndex n)⟩))

/-- The state after `allocate(20000)` from the fresh state, the operating system
answering with mappings at `0x10000` and `0x20000`. -/
def demoState1 : State :=
  ((MemoryPool.allocate (fresh (fun _ => 0) [0x10000, 0x20000]) 20000).getD
    (0, fresh (fun _ => 0) [])).2

/-- The state after a second `allocate(20000)`. -/
def demoState2 : State :=
  ((MemoryPool.allocate demoState1 20000).getD (0, fresh (fun _ => 0) [])).2

/-! ## Runs of the numbers of one class -/

/-- The numbers after `k` successful `allocate` calls, none of which needs a new
span (`none` as soon as one would). -/
def absAllocRun (b total : Nat) : Nat → Counts → Option Counts
  | 0, x => some x
  | k + 1, x =>
    if 0 < x.tcLen ∨ 0 < x.ccLen then absAllocRun b total k (absAlloc b total x) else none

/-- The numbers after `k` calls of `deallocate`, with the list of the calls that
trigger return-to-central. -/
def absDeallocRun : Nat → Counts → List Bool × Counts
  | 0, x => ([], x)
  | k + 1, x =>
    (decide (THREAD_MAX_SIZE < (x.counter + 1) % SIZE_MOD) :: (absDeallocRun k (absDealloc x)).1,
      (absDeallocRun k (absDealloc x)).2)

/-- The state `s` with live blocks `live` satisfies the invariant, the mappings
are disjoint, and the numbers of class `i` are `x`. -/
def Sim (i : Nat) (s : State) (live : List (Nat × Nat)) (x : Counts) : Prop :=
  OsDisjoint s.os.mapped ∧
  ∃ T C, Inv s live T C ∧ Counts.mk (T i).length (C i).length (s.tc.freeListSize i) = x


/-! ## Repeated allocate / deallocate, and the page count of a refill -/

/-- The page count `fetchFromPageCache(size)` asks the page cache for. -/
def spanRequest (size : Nat) : Nat :=
  if size ≤ SPAN_PAGES * PAGE_SIZE then SPAN_PAGES
  else ((size + PAGE_SIZE - 1) % SIZE_MOD) / PAGE_SIZE

/-- The run `p := allocate(n); deallocate(p, n)` repeated `k` times: the
pointers returned and the final state (`none` when a call faults). -/
def allocFreeCycles (n : Nat) : Nat → State → Option (List Nat × State)
  | 0, s => some ([], s)
  | k + 1, s =>
    match MemoryPool.allocate s n with
    | none => none
    | some (p, s1) =>
      match MemoryPool.deallocate s1 p n with
      | none => none
      | some s2 => (allocFreeCycles n k s2).map (fun r => (p :: r.1, r.2))

/-! ## Runs of the page cache -/

/-- One call made by a client of the page cache. -/
inductive PcCall where
  | alloc (numPages : Nat)
  | free (ptr numPages : Nat)

/-- Runs the calls in order from the state `s`: the addresses returned by the
`allocateSpan` calls, in order, and the final state (`none` when a call faults). -/
def pcRun : List PcCall → State → Option (List Nat × State)
  | [], s => some ([], s)
  | PcCall.alloc n :: rest, s =>
    match PageCache.allocateSpan s n with
    | none => none
    | some (a, s1) => (pcRun rest s1).map (fun r => (a :: r.1, r.2))
  | PcCall.free p n :: rest, s =>
    match PageCache.deallocateSpan s p n with
    | none => none
    | some s1 => pcRun rest s1

/-- The `next` pointers of the span records, seen as a memory of record addresses. -/
def nextOf (spans : Nat → Span) : Mem := fun r => (spans r).next

/-- The span records on the free list of the key `k`, from the head on. -/
def freeListOf (s : State) (k : Nat) : List Nat :=
  chainList (nextOf s.pc.spans) s.pc.nextSpan (mapGet s.pc.freeSpans k)

/-- The span records created so far, each as `[record, pageAddr, numPages, next]`. -/
def spanTable (s : State) : List (List Nat) :=
  (List.range' 1 (s.pc.nextSpan - 1)).map
    (fun r => [r, (s.pc.spans r).pageAddr, (s.pc.spans r).numPages, (s.pc.spans r).next])

/-! ## The spans the page cache owns, and its reachable states -/

/-- The keys of the association list are strictly increasing, as in a `std::map`. -/
def MapSorted (m : List (Nat × Nat)) : Prop := m.Pairwise (fun a b => a.1 < b.1)

/-- The span record `r` is on a free list of the state `s`. -/
def OnFreeList (s : State) (r : Nat) : Prop := ∃ k, r ∈ freeListOf s k

/-- The byte ranges of two span records are disjoint. -/
def SpanDisj (a b : Span) : Prop :=
  a.pageAddr + a.numPages * PAGE_SIZE ≤ b.pageAddr ∨
  b.pageAddr + b.numPages * PAGE_SIZE ≤ a.pageAddr

/-- Every byte of `[a, a + len)` lies in a mapping obtained from the operating system. -/
def Covered (mapped : List (Nat × Nat)) (a len : Nat) : Prop :=
  ∀ x, a ≤ x → x < a + len → ∃ reg ∈ mapped, reg.1 ≤ x ∧ x < reg.1 + reg.2

/-- The mappings handed out by the operating system are pairwise disjoint and lie
inside the 64-bit address space. -/
def OsFits (mapped : List (Nat × Nat)) : Prop :=
  OsDisjoint mapped ∧ ∀ reg ∈ mapped, reg.1 + reg.2 ≤ SIZE_MOD

/-- The record whose start address `allocateSpan(numPages)` returns: the head of
the list the lookup hits, or else the record `new Span` creates. -/
def takenSpan (s : State) (numPages : Nat) : Nat :=
  match mapLowerBound s.pc.freeSpans numPages with
  | some (_, span) => span
  | none => s.pc.nextSpan

/-- The record `r` is in use: held by a client (or leaked), or on the free list `F k`
of some key. -/
def Owned (F : Nat → List Nat) (H : List Nat) (r : Nat) : Prop := r ∈ H ∨ ∃ k, r ∈ F k

/-- The invariant of the page cache. The free list of every key `k` is the chain
`F k` of records of `k` pages; `H` lists the records that are in use and on no
free list; `al` lists the spans the clients hold as `(address, pages)`. The
records in use are non-null, were created by `new Span`, describe non-empty
ranges of mapped memory that are pairwise disjoint; every entry of the span map
leads to a record in use that starts at the key; every span a client holds has
its record in `H`. -/
structure PcInv (s : State) (al : List (Nat × Nat)) (F : Nat → List Nat) (H : List Nat) :
    Prop where
  sortedF : MapSorted s.pc.freeSpans
  sortedM : MapSorted s.pc.spanMap
  posNext : 0 < s.pc.nextSpan
  chains : ∀ k, IsChain (nextOf s.pc.spans) (mapGet s.pc.freeSpans k) (F k)
  pages : ∀ k, ∀ r ∈ F k, (s.pc.spans r).numPages = k
  heldNodup : H.Nodup
  heldFree : ∀ r ∈ H, ∀ k, r ∉ F k
  ids : ∀ r, Owned F H r → r ≠ 0 ∧ r < s.pc.nextSpan
  shape : ∀ r, Owned F H r →
    1 ≤ (s.pc.spans r).numPages ∧ (s.pc.spans r).pageAddr ≠ 0 ∧
    (s.pc.spans r).pageAddr + (s.pc.spans r).numPages * PAGE_SIZE ≤ SIZE_MOD ∧
    Covered s.os.mapped (s.pc.spans r).pageAddr ((s.pc.spans r).numPages * PAGE_SIZE)
  geom : ∀ r r', Owned F H r → Owned F H r' → r ≠ r' →
    SpanDisj (s.pc.spans r) (s.pc.spans r')
  reg : ∀ x r, mapFind s.pc.spanMap x = some r → Owned F H r ∧ (s.pc.spans r).pageAddr = x
  allocNodup : al.Nodup
  allocHeld : ∀ e ∈ al, ∃ r ∈ H, (s.pc.spans r).pageAddr = e.1 ∧ (s.pc.spans r).numPages = e.2

/-- The states of the page cache reached from the fresh state (initial memory
`m0`, future `mmap` answers `pending`), with the spans the clients hold as
`(address, pages)`: by `allocateSpan(n)` for a page count `n ≥ 1` whose byte size
fits `size_t` (a null result adds no span), by `deallocateSpan(a, n)` of a span a
client holds, with the page count it was requested with, and by the clients
writing to memory. -/
inductive PcReachable (m0 : Mem) (pending : List Nat) : State → List (Nat × Nat) → Prop
  | init : PcReachable m0 pending (fresh m0 pending) []
  | alloc {s s' : State} {al : List (Nat × Nat)} {n a : Nat} :
      PcReachable m0 pending s al → 1 ≤ n → n * PAGE_SIZE < SIZE_MOD →
      PageCache.allocateSpan s n = some (a, s') → a ≠ 0 →
      PcReachable m0 pending s' ((a, n) :: al)
  | allocNull {s s' : State} {al : List (Nat × Nat)} {n : Nat} :
      PcReachable m0 pending s al → 1 ≤ n → n * PAGE_SIZE < SIZE_MOD →
      PageCache.allocateSpan s n = some (0, s') →
      PcReachable m0 pending s' al
  | free {s s' : State} {al : List (Nat × Nat)} {n a : Nat} :
      PcReachable m0 pending s al → (a, n) ∈ al →
      PageCache.deallocateSpan s a n = some s' →
      PcReachable m0 pending s' (al.erase (a, n))
  | write {s : State} {al : List (Nat × Nat)} {m : Mem} :
      PcReachable m0 pending s al → PcReachable m0 pending { s with mem := m } al

/-- The search `deallocateSpan` makes for `nextSpan` on the free list of its page
count: the free-spans map, the span records and `found` afterwards (`none` when
the walk does not end). -/
def searchNext (s : State) (nextSpan : Nat) :
    Option (List (Nat × Nat) × (Nat → Span) × Bool) :=
  let key := (s.pc.spans nextSpan).numPages
  let nextList := mapGet s.pc.freeSpans key
  let fs0 := mapTouch s.pc.freeSpans key
  if nextList = nextSpan then
    some (mapSet fs0 key (s.pc.spans nextSpan).next, s.pc.spans, true)
  else if nextList ≠ 0 then
    (PageCache.unlinkLoop nextSpan (s.pc.nextSpan + 1) s.pc.spans nextList).map
      (fun r => (fs0, r.1, r.2))
  else some (fs0, s.pc.spans, false)

/-- The rest of `deallocateSpan` after the search: the merge when `nextSpan` was
found, then the insertion of `span` at the head of the list of its page count. -/
def finishFree (s : State) (span nextSpan : Nat)
    (r : List (Nat × Nat) × (Nat → Span) × Bool) : State :=
  let spans2 :=
    if r.2.2 then
      setSpan r.2.1 span
        { r.2.1 span with
          numPages := ((r.2.1 span).numPages + (r.2.1 nextSpan).numPages) % SIZE_MOD }
    else r.2.1
  let spanMap1 :=
    if r.2.2 then mapErase s.pc.spanMap (r.2.1 nextSpan).pageAddr else s.pc.spanMap
  let key2 := (spans2 span).numPages
  let list := mapGet r.1 key2
  let spans3 := setSpan spans2 span { spans2 span with next := list }
  { s with pc := { freeSpans := mapSet r.1 key2 span, spanMap := spanMap1,
                   spans := spans3, nextSpan := s.pc.nextSpan } }

/-- The page cache after a client took two 8-page spans from a fresh state whose
operating system maps them back to back at `0x10000` and `0x18000`. -/
def pcTwoSpans : State :=
  ((pcRun [PcCall.alloc 8, PcCall.alloc 8] (fresh (fun _ => 0) [0x10000, 0x18000])).getD
    ([], fresh (fun _ => 0) [])).2

/-- The state `pcTwoSpans` after the client gave back the lower span: the span at
`0x10000` is the only free span. -/
def pcLowerFreed : State :=
  ((PageCache.deallocateSpan pcTwoSpans 0x10000 8).getD (fresh (fun _ => 0) []))

/-- The state `pcLowerFreed` after `allocateSpan(3)` has split the free span. -/
def pcSplit : State :=
  ((PageCache.allocateSpan pcLowerFreed 3).getD (0, fresh (fun _ => 0) [])).2

/-- The page cache after a client took three 8-page spans that the operating
system mapped back to back at `0x10000`, `0x18000` and `0x20000`, and gave back
the middle one. -/
def pcMidFreed : State :=
  ((pcRun [PcCall.alloc 8, PcCall.alloc 8, PcCall.alloc 8, PcCall.free 0x18000 8]
    (fresh (fun _ => 0) [0x10000, 0x18000, 0x20000])).getD ([], fresh (fun _ => 0) [])).2

/-! ## The batch size as the specification words it -/

/-- The base batch size of the specification: 64, 32, 16, 8, 4, 2 for block sizes up
to 32, 64, 128, 256, 512, 1024 bytes, and 1 for larger blocks. -/
def baseNumSpec (size : Nat) : Nat :=
  if size ≤ 32 then 64
  else if size ≤ 64 then 32
  else if size ≤ 128 then 16
  else if size ≤ 256 then 8
  else if size ≤ 512 then 4
  else if size ≤ 1024 then 2
  else 1

/-- The batch size of the specification: `max(1, min(baseNum, 4096 / size))`, with the
truncating division of integers. -/
def batchNumSpec (size : Nat) : Nat := max 1 (min (baseNumSpec size) (4096 / size))

/-! ## Version 1.0: the fixed-slot pool (`1.0/include/MemoryPool.hpp`, `1.0/src/MemoryPool.cpp`) -/

namespace V1

/-- The macro `MEMORY_POOL_NUM`. -/
def MEMORY_POOL_NUM : Nat := 64

/-- The macro `SLOT_BASE_SIZE`. -/
def SLOT_BASE_SIZE : Nat := 8

/-- The macro `MAX_SLOT_SIZE`. -/
def MAX_SLOT_SIZE : Nat := 512

/-- The slot size `HashBucket::initMemoryPool` gives the pool number `i`:
`getMemoryPool(i).init((i + 1) * SLOT_BASE_SIZE)` for `i < MEMORY_POOL_NUM`. -/
def slotSize (i : Nat) : Nat := (i + 1) * SLOT_BASE_SIZE

/-- The slot sizes `HashBucket::initMemoryPool` configures, in the order of the loop. -/
def slotSizes : List Nat := (List.range MEMORY_POOL_NUM).map slotSize

namespace MemoryPool

/-- The function `MemoryPool::padPointer`:
`(align - reinterpret_cast<size_t>(p)) % align`, the subtraction being the wrapping
subtraction of `size_t`. The pointer `p` is given as its value. -/
def padPointer (p align : Nat) : Nat :=
  ((align % SIZE_MOD + SIZE_MOD - p % SIZE_MOD) % SIZE_MOD) % align

/-- The value `allocateNewBlock` gives `curSlot_` for a block that `operator new`
returned at `newBlock`: `body = newBlock + sizeof(Slot *)`, then
`body + padPointer(body, SlotSize_)`. -/
def firstSlot (newBlock slotSize : Nat) : Nat :=
  ((newBlock + 8) % SIZE_MOD + padPointer ((newBlock + 8) % SIZE_MOD) slotSize) % SIZE_MOD

end MemoryPool

end V1

/-! ## States of the machine whose first mappings are refused -/

/-- The fresh state on a machine that refuses the first two `mmap` calls and
answers the third with a mapping at `0x10000`. -/
def refusedFresh : State := fresh (fun _ => 0) [0, 0, 0x10000]

/-- The state after `allocate(2048)` from `refusedFresh`; the call returns null. -/
def refusedOnce : State :=
  ((MemoryPool.allocate refusedFresh 2048).getD (0, refusedFresh)).2

/-- The state after a second `allocate(2048)`, which returns null too. -/
def refusedTwice : State :=
  ((MemoryPool.allocate refusedOnce 2048).getD (0, refusedFresh)).2

/-- The state after a third `allocate(2048)`, served from the span mapped at `0x10000`. -/
def refusedServed : State :=
  ((MemoryPool.allocate refusedTwice 2048).getD (0, refusedFresh)).2

/-! ## Size classes -/

/-- Masking with `~7` in 64 bits clears the three low bits. -/
theorem land_notSize_seven (x : Nat) (h : x < 2 ^ 64) : x &&& notSize 7 = x / 8 * 8 := by
  have hn : notSize 7 = 2 ^ 3 * (2 ^ 61 - 1) := by norm_num [notSize, SIZE_MOD]
  apply Nat.eq_of_testBit_eq
  intro i
  have h8 : (8 : Nat) = 2 ^ 3 := by norm_num
  rw [Nat.testBit_land, hn, h8, Nat.mul_comm (x / 2 ^ 3), Nat.testBit_mul_pow_two,
    Nat.testBit_mul_pow_two, ← Nat.shiftRight_eq_div_pow, Nat.testBit_shiftRight,
    Nat.testBit_two_pow_sub_one]
  by_cases h3 : 3 ≤ i
  · have e : 3 + (i - 3) = i := by omega
    simp only [h3, ge_iff_le, decide_True, Bool.true_and, e]
    by_cases hb : x.testBit i = true
    · have hi : i < 64 := by
        by_contra hc
        have hlt : x < 2 ^ i := lt_of_lt_of_le h (Nat.pow_le_pow_right (by norm_num) (by omega))
        simp [Nat.testBit_lt_two_pow hlt] at hb
      have hi3 : i - 3 < 61 := by omega
      simp [hb, hi3]
    · simp [hb]
  · simp [h3]

theorem roundUp_eq (n : Nat) (h : n + 7 < 2 ^ 64) : SizeClass.roundUp n = (n + 7) / 8 * 8 := by
  unfold SizeClass.roundUp
  have e : (n + ALIGNMENT - 1) % SIZE_MOD = n + 7 := by
    simp only [ALIGNMENT, SIZE_MOD]
    rw [Nat.mod_eq_of_lt (by omega)]; omega
  rw [e, show ALIGNMENT - 1 = 7 from rfl]
  exact land_notSize_seven _ h

theorem getIndex_eq (n : Nat) (h : n + 7 < 2 ^ 64) :
    SizeClass.getIndex n = (max n 8 + 7) / 8 - 1 := by
  unfold SizeClass.getIndex
  simp only [ALIGNMENT, SIZE_MOD]
  rw [Nat.mod_eq_of_lt (by omega)]
  rfl

/-- C3. For `1 ≤ n ≤ MAX_BYTES`, `roundUp n` is the least multiple of `ALIGNMENT`
that is at least `n`, it is the block size `(getIndex n + 1) * ALIGNMENT` of the
class serving the request, and it exceeds `n` by less than `ALIGNMENT`. -/
theorem roundUp_spec (n : Nat) (h1 : 1 ≤ n) (h2 : n ≤ MAX_BYTES) :
    ALIGNMENT ∣ SizeClass.roundUp n ∧ n ≤ SizeClass.roundUp n ∧
    (∀ k, ALIGNMENT ∣ k → n ≤ k → SizeClass.roundUp n ≤ k) ∧
    (SizeClass.getIndex n + 1) * ALIGNMENT = SizeClass.roundUp n ∧
    SizeClass.roundUp n < n + ALIGNMENT := by
  have hM : MAX_BYTES = 262144 := rfl
  have hA : ALIGNMENT = 8 := rfl
  rw [roundUp_eq n (by omega), getIndex_eq n (by omega), hA]
  refine ⟨Dvd.intro_left _ rfl, by omega, ?_, by omega, by omega⟩
  rintro k ⟨c, rfl⟩ hk
  omega

theorem roundUp_spec_witness :
    ALIGNMENT ∣ SizeClass.roundUp 9 ∧ 9 ≤ SizeClass.roundUp 9 ∧
    (∀ k, ALIGNMENT ∣ k → 9 ≤ k → SizeClass.roundUp 9 ≤ k) ∧
    (SizeClass.getIndex 9 + 1) * ALIGNMENT = SizeClass.roundUp 9 ∧
    SizeClass.roundUp 9 < 9 + ALIGNMENT :=
  roundUp_spec 9 (by decide) (by decide)

/-- C2. For `1 ≤ n ≤ MAX_BYTES`, `getIndex n` is `⌈max(n, ALIGNMENT) / ALIGNMENT⌉ - 1`
(the ceiling taken over the rationals), is `roundUp(max(n, ALIGNMENT)) / ALIGNMENT - 1`,
and is below `FREE_LIST_SIZE`; `getIndex 0 = 0`, `getIndex 1 = getIndex 8 = 0`,
`getIndex 9 = 1` and `getIndex MAX_BYTES = FREE_LIST_SIZE - 1`. -/
theorem getIndex_spec (n : Nat) (h1 : 1 ≤ n) (h2 : n ≤ MAX_BYTES) :
    SizeClass.getIndex n = ⌈((max n ALIGNMENT : Nat) : ℚ) / (ALIGNMENT : ℚ)⌉₊ - 1 ∧
    SizeClass.getIndex n = SizeClass.roundUp (max n ALIGNMENT) / ALIGNMENT - 1 ∧
    0 ≤ SizeClass.getIndex n ∧ SizeClass.getIndex n < FREE_LIST_SIZE ∧
    SizeClass.getIndex 0 = 0 ∧ SizeClass.getIndex 1 = 0 ∧ SizeClass.getIndex 8 = 0 ∧
    SizeClass.getIndex 9 = 1 ∧ SizeClass.getIndex MAX_BYTES = FREE_LIST_SIZE - 1 := by
  have hM : MAX_BYTES = 262144 := rfl
  have hF : FREE_LIST_SIZE = 32768 := rfl
  have hA : ALIGNMENT = 8 := rfl
  have hg := getIndex_eq n (by omega)
  refine ⟨?_, ?_, Nat.zero_le _, ?_, by decide, by decide, by decide, by decide, by decide⟩
  · rw [hg, hA]
    congr 1
    symm
    have hq1 : 8 * ((max n 8 + 7) / 8 - 1) < max n 8 := by omega
    have hq2 : max n 8 ≤ 8 * ((max n 8 + 7) / 8) := by omega
    have hq0 : (max n 8 + 7) / 8 ≠ 0 := by omega
    rw [Nat.ceil_eq_iff hq0]
    constructor
    · rw [lt_div_iff₀ (by norm_num)]
      exact_mod_cast (by omega : ((max n 8 + 7) / 8 - 1) * 8 < max n 8)
    · rw [div_le_iff₀ (by norm_num)]
      exact_mod_cast (by omega : max n 8 ≤ (max n 8 + 7) / 8 * 8)
  · rw [hg, hA, roundUp_eq _ (by omega)]
    omega
  · rw [hg]; omega

theorem getIndex_spec_witness :
    SizeClass.getIndex 100 = ⌈((max 100 ALIGNMENT : Nat) : ℚ) / (ALIGNMENT : ℚ)⌉₊ - 1 ∧
    SizeClass.getIndex 100 = SizeClass.roundUp (max 100 ALIGNMENT) / ALIGNMENT - 1 ∧
    0 ≤ SizeClass.getIndex 100 ∧ SizeClass.getIndex 100 < FREE_LIST_SIZE ∧
    SizeClass.getIndex 0 = 0 ∧ SizeClass.getIndex 1 = 0 ∧ SizeClass.getIndex 8 = 0 ∧
    SizeClass.getIndex 9 = 1 ∧ SizeClass.getIndex MAX_BYTES = FREE_LIST_SIZE - 1 :=
  getIndex_spec 100 (by decide) (by decide)



/-! ## Lists in memory: framing, splitting, uniqueness -/

theorem store_same (m : Mem) (a v : Nat) : store m a v a = v := by simp [store]

theorem store_other (m : Mem) (a v x : Nat) (h : x ≠ a) : store m a v x = m x := by
  simp [store, h]

theorem setAt_same (f : Nat → Nat) (i v : Nat) : setAt f i v i = v := by simp [setAt]

theorem setAt_other (f : Nat → Nat) (i v j : Nat) (h : j ≠ i) : setAt f i v j = f j := by
  simp [setAt, h]

/-- A segment only depends on the next-words of its own blocks. -/
theorem IsSeg.congr {m m' : Mem} : ∀ {xs : List Nat} {h t : Nat},
    IsSeg m h xs t → (∀ x ∈ xs, m' x = m x) → IsSeg m' h xs t
  | [], _, _, hs, _ => hs
  | x :: xs, _, _, ⟨h1, h2, h3⟩, hm => by
    refine ⟨h1, h2, ?_⟩
    rw [hm x (List.mem_cons_self _ _)]
    exact IsSeg.congr h3 (fun y hy => hm y (List.mem_cons_of_mem _ hy))

theorem IsSeg.frame {m : Mem} {xs : List Nat} {h t : Nat} (hs : IsSeg m h xs t)
    (a v : Nat) (ha : a ∉ xs) : IsSeg (store m a v) h xs t :=
  hs.congr (fun x hx => store_other m a v x (fun e => ha (e ▸ hx)))

theorem IsSeg.ne_zero {m : Mem} : ∀ {xs : List Nat} {h t : Nat},
    IsSeg m h xs t → ∀ x ∈ xs, x ≠ 0
  | [], _, _, _, _, hx => by simp at hx
  | y :: ys, _, _, ⟨_, h2, h3⟩, x, hx => by
    rcases List.mem_cons.1 hx with rfl | hx
    · exact h2
    · exact IsSeg.ne_zero h3 x hx

theorem isSeg_append {m : Mem} : ∀ {xs ys : List Nat} {h t : Nat},
    IsSeg m h (xs ++ ys) t ↔ ∃ mid, IsSeg m h xs mid ∧ IsSeg m mid ys t
  | [], ys, h, t => by
    constructor
    · intro hs; exact ⟨h, rfl, hs⟩
    · rintro ⟨mid, h1, h2⟩
      have : h = mid := h1
      subst this; exact h2
  | x :: xs, ys, h, t => by
    constructor
    · rintro ⟨h1, h2, h3⟩
      obtain ⟨mid, ha, hb⟩ := isSeg_append.1 h3
      exact ⟨mid, ⟨h1, h2, ha⟩, hb⟩
    · rintro ⟨mid, ⟨h1, h2, ha⟩, hb⟩
      exact ⟨h1, h2, isSeg_append.2 ⟨mid, ha, hb⟩⟩

/-- The head pointer of a chain is its first block, or null for the empty chain. -/
theorem IsChain.head_eq {m : Mem} {h : Nat} {xs : List Nat} (hc : IsChain m h xs) :
    h = xs.headD 0 := by
  cases xs with
  | nil => exact hc
  | cons x xs => exact hc.1

theorem IsChain.eq_nil {m : Mem} {xs : List Nat} (hc : IsChain m 0 xs) : xs = [] := by
  cases xs with
  | nil => rfl
  | cons x xs => exact absurd hc.1.symm hc.2.1

/-- The chain hanging from a head pointer is determined by the memory. -/
theorem IsChain.unique {m : Mem} : ∀ {xs ys : List Nat} {h : Nat},
    IsChain m h xs → IsChain m h ys → xs = ys
  | [], ys, h, h1, h2 => by
    have : h = 0 := h1
    subst this; exact h2.eq_nil.symm
  | x :: xs, [], h, h1, h2 => by
    have : h = 0 := h2
    subst this; exact h1.eq_nil
  | x :: xs, y :: ys, h, ⟨a1, _, a3⟩, ⟨b1, _, b3⟩ => by
    have e : x = y := a1.symm.trans b1
    subst e
    rw [IsChain.unique a3 b3]

/-- A null-terminated chain never meets a block twice. -/
theorem IsChain.nodup {m : Mem} : ∀ {xs : List Nat} {h : Nat}, IsChain m h xs → xs.Nodup
  | [], _, _ => List.nodup_nil
  | x :: xs, h, ⟨_, _, h3⟩ => by
    have ih : xs.Nodup := IsChain.nodup h3
    refine List.nodup_cons.2 ⟨?_, ih⟩
    intro hx
    obtain ⟨l1, l2, rfl⟩ := List.append_of_mem hx
    obtain ⟨mid, _, hb⟩ := isSeg_append.1 h3
    have hmid : mid = x := hb.1
    subst hmid
    have e := IsChain.unique (m := m) h3 hb.2.2
    have := congrArg List.length e
    simp at this
    omega

/-- Writing the next-word of the block that follows a segment extends the segment. -/
theorem IsSeg.snoc {m : Mem} {xs : List Nat} {h p : Nat} (hs : IsSeg m h xs p)
    (hp : p ≠ 0) (hnot : p ∉ xs) (v : Nat) : IsSeg (store m p v) h (xs ++ [p]) v :=
  isSeg_append.2 ⟨p, hs.frame p v hnot, rfl, hp, store_same m p v⟩

theorem isSeg_singleton {m : Mem} {h t x : Nat} :
    IsSeg m h [x] t ↔ h = x ∧ x ≠ 0 ∧ m x = t := Iff.rfl

/-- Cutting a chain: writing null into the last block of a non-empty prefix
leaves the prefix and the rest as two null-terminated chains. -/
theorem IsChain.cut {m : Mem} {h : Nat} {xs ys : List Nat} {p : Nat}
    (hc : IsChain m h ((xs ++ [p]) ++ ys)) :
    IsChain (store m p 0) h (xs ++ [p]) ∧ IsChain (store m p 0) (ys.headD 0) ys := by
  have hnd := hc.nodup
  obtain ⟨mid, h1, h2⟩ := isSeg_append.1 hc
  obtain ⟨mid2, h3, h4⟩ := isSeg_append.1 h1
  have hp : p ∉ xs := by
    intro hx
    have := (List.nodup_append.1 (List.nodup_append.1 hnd).1).2.2
    exact this hx (List.mem_singleton_self p)
  have hpy : p ∉ ys := by
    intro hy
    exact (List.nodup_append.1 hnd).2.2 (List.mem_append_right _ (List.mem_singleton_self p)) hy
  have hmid2 : mid2 = p := h4.1
  subst hmid2
  refine ⟨h3.snoc h4.2.1 hp 0, ?_⟩
  have h2' : IsChain (store m mid2 0) mid ys := h2.frame mid2 0 hpy
  rw [← IsChain.head_eq h2']
  exact h2'


/-! ## `fetchRange` on a non-empty central list -/

theorem walkLoop_chain (m : Mem) : ∀ (n : Nat) (xs : List Nat) (prev cur : Nat),
    IsChain m cur xs →
    CentralCache.walkLoop m n prev cur = (((xs.take n).getLast?).getD prev, (xs.drop n).headD 0)
  | 0, xs, prev, cur, hc => by
    have := hc.head_eq
    simp only [CentralCache.walkLoop, List.take_zero, List.getLast?_nil, Option.getD_none,
      List.drop_zero, ← this]
  | n + 1, [], prev, cur, hc => by
    have : cur = 0 := hc
    subst this
    simp [CentralCache.walkLoop]
  | n + 1, x :: xs, prev, cur, hc => by
    obtain ⟨h1, h2, h3⟩ := hc
    subst h1
    have ih := walkLoop_chain m n xs cur (m cur) h3
    simp only [CentralCache.walkLoop, ne_eq, h2, not_false_eq_true, if_true, ih, List.take_succ_cons,
      List.drop_succ_cons, List.getLast?_cons]
    simp

/-- The state `fetchRange` produces when the class list is the non-empty chain
`xs`: the last of the first `batchNum` blocks gets a null next-word and the
class head moves to the block after it. -/
theorem fetchRange_nonempty_eq (s : State) (index batchNum : Nat) (xs : List Nat)
    (hidx : index < FREE_LIST_SIZE) (hb : 1 ≤ batchNum) (hne : xs ≠ [])
    (hc : IsChain s.mem (s.cc.centralFreeList index) xs) :
    CentralCache.fetchRange s index batchNum =
      some (s.cc.centralFreeList index,
        { s with
          mem := store s.mem (((xs.take batchNum).getLast?).getD 0) 0,
          cc := ⟨setAt s.cc.centralFreeList index ((xs.drop batchNum).headD 0)⟩ }) ∧
    ((xs.take batchNum).getLast?).getD 0 ≠ 0 := by
  have hhead : s.cc.centralFreeList index ≠ 0 := by
    cases xs with
    | nil => exact absurd rfl hne
    | cons x xs => rw [hc.1]; exact hc.2.1
  have htake : xs.take batchNum ≠ [] := by
    cases xs with
    | nil => exact absurd rfl hne
    | cons x xs =>
      obtain ⟨b, rfl⟩ : ∃ b, batchNum = b + 1 := ⟨batchNum - 1, by omega⟩
      simp
  have hlast : ((xs.take batchNum).getLast?).getD 0 ≠ 0 := by
    rw [List.getLast?_eq_getLast _ htake]
    simp only [Option.getD_some]
    exact hc.ne_zero _ (List.mem_of_mem_take (List.getLast_mem htake))
  refine ⟨?_, hlast⟩
  unfold CentralCache.fetchRange
  have hg : ¬ (index ≥ FREE_LIST_SIZE ∨ batchNum = 0) := by omega
  simp only [hg, if_false, hhead]
  rw [walkLoop_chain s.mem batchNum xs 0 _ hc]
  simp only [ne_eq, hlast, not_false_eq_true, if_true]

/-- C8. When the class list is a well-formed chain of `m ≥ 1` blocks,
`fetchRange(index, batchNum)` with `batchNum ≥ 1` returns the original head; the
returned chain is the null-terminated chain of the first `min(batchNum, m)`
blocks in order; the class list afterwards is the chain of the remaining blocks
in order (its head is null when `m ≤ batchNum`); the two parts together are the
original blocks, none twice. -/
theorem fetchRange_existing (s : State) (index batchNum : Nat) (xs : List Nat)
    (hidx : index < FREE_LIST_SIZE) (hb : 1 ≤ batchNum) (hm : 1 ≤ xs.length)
    (hc : IsChain s.mem (s.cc.centralFreeList index) xs) :
    ∃ s', CentralCache.fetchRange s index batchNum = some (s.cc.centralFreeList index, s') ∧
      IsChain s'.mem (s.cc.centralFreeList index) (xs.take (min batchNum xs.length)) ∧
      IsChain s'.mem (s'.cc.centralFreeList index) (xs.drop (min batchNum xs.length)) ∧
      (xs.take (min batchNum xs.length)).length = min batchNum xs.length ∧
      (xs.drop (min batchNum xs.length)).length = xs.length - min batchNum xs.length ∧
      (xs.length ≤ batchNum → s'.cc.centralFreeList index = 0) ∧
      xs.take (min batchNum xs.length) ++ xs.drop (min batchNum xs.length) = xs ∧
      xs.Nodup := by
  have hne : xs ≠ [] := by
    intro h; rw [h] at hm; simp at hm
  obtain ⟨heq, _⟩ := fetchRange_nonempty_eq s index batchNum xs hidx hb hne hc
  have hmin_take : xs.take (min batchNum xs.length) = xs.take batchNum := by
    rw [List.take_eq_take]; simp
  have hmin_drop : xs.drop (min batchNum xs.length) = xs.drop batchNum := by
    rcases Nat.le_total batchNum xs.length with h | h
    · rw [Nat.min_eq_left h]
    · rw [Nat.min_eq_right h, List.drop_length, List.drop_eq_nil_of_le h]
  have htake : xs.take batchNum ≠ [] := by
    cases xs with
    | nil => exact absurd rfl hne
    | cons x xs =>
      obtain ⟨b, rfl⟩ : ∃ b, batchNum = b + 1 := ⟨batchNum - 1, by omega⟩
      simp
  have hsplit : ((xs.take batchNum).dropLast ++ [(xs.take batchNum).getLast htake])
      ++ xs.drop batchNum = xs := by
    rw [List.dropLast_append_getLast, List.take_append_drop]
  have hc' := hc
  rw [← hsplit] at hc'
  obtain ⟨c1, c2⟩ := hc'.cut
  rw [List.dropLast_append_getLast] at c1
  have hl : ((xs.take batchNum).getLast?).getD 0 = (xs.take batchNum).getLast htake := by
    rw [List.getLast?_eq_getLast _ htake]; rfl
  refine ⟨_, heq, ?_, ?_, ?_, ?_, ?_, ?_, hc.nodup⟩
  · rw [hmin_take]; simpa only [hl] using c1
  · rw [hmin_drop]
    simpa only [hl, setAt_same] using c2
  · simp
  · simp
  · intro hle
    simp only [setAt_same, List.drop_eq_nil_of_le hle, List.headD_nil]
  · exact List.take_append_drop _ _

theorem fetchRange_existing_witness :
    ∃ s', CentralCache.fetchRange
        { fresh (fun _ => 0) [] with cc := { centralFreeList := fun i => if i = 0 then 8 else 0 } }
        0 3 = some (8, s') ∧
      IsChain s'.mem 8 ([8].take (min 3 [8].length)) ∧
      IsChain s'.mem (s'.cc.centralFreeList 0) ([8].drop (min 3 [8].length)) ∧
      ([8].take (min 3 [8].length)).length = min 3 [8].length ∧
      ([8].drop (min 3 [8].length)).length = [8].length - min 3 [8].length ∧
      ([8].length ≤ 3 → s'.cc.centralFreeList 0 = 0) ∧
      [8].take (min 3 [8].length) ++ [8].drop (min 3 [8].length) = [8] ∧
      [8].Nodup :=
  fetchRange_existing
    { fresh (fun _ => 0) [] with cc := { centralFreeList := fun i => if i = 0 then 8 else 0 } }
    0 3 [8] (by decide) (by decide) (by decide) ⟨rfl, by decide, rfl⟩


/-! ## `fetchRange` on an empty central list: cutting a span into blocks -/

theorem blocks_zero (start size i : Nat) : blocks start size i 0 = [] := rfl

theorem blocks_succ (start size i n : Nat) :
    blocks start size i (n + 1) = (start + i * size) :: blocks start size (i + 1) n := by
  simp [blocks, List.range'_succ]

theorem mem_blocks {start size i n x : Nat} :
    x ∈ blocks start size i n ↔ ∃ k, i ≤ k ∧ k < i + n ∧ x = start + k * size := by
  simp only [blocks, List.mem_map, List.mem_range'_1]
  constructor
  · rintro ⟨k, ⟨h1, h2⟩, rfl⟩; exact ⟨k, h1, h2, rfl⟩
  · rintro ⟨k, h1, h2, rfl⟩; exact ⟨k, ⟨h1, h2⟩, rfl⟩

theorem blocks_length (start size i n : Nat) : (blocks start size i n).length = n := by
  simp [blocks]

theorem blocks_append (start size i n k : Nat) :
    blocks start size i (n + k) = blocks start size i n ++ blocks start size (i + n) k := by
  induction n generalizing i with
  | zero => simp [blocks_zero]
  | succ n ih =>
    rw [show n + 1 + k = (n + k) + 1 by omega, blocks_succ, blocks_succ, ih,
      show i + 1 + n = i + (n + 1) by omega]
    rfl

/-- The linking loop leaves every word outside the blocks it links untouched. -/
theorem linkLoop_outside (start size : Nat) (hsize : 0 < size) :
    ∀ (fuel j : Nat) (m : Mem) (a : Nat),
      (a < start + j * size ∨ start + (j + fuel) * size ≤ a) →
      CentralCache.linkLoop start size fuel (j + 1) m a = m a
  | 0, _, _, _, _ => rfl
  | fuel + 1, j, m, a, h => by
    have hmono : j * size < (j + 1) * size := by
      rw [Nat.add_mul, Nat.one_mul]; omega
    have hmono2 : (j + 1) * size ≤ (j + (fuel + 1)) * size :=
      Nat.mul_le_mul_right _ (by omega)
    simp only [CentralCache.linkLoop, Nat.add_sub_cancel]
    rw [linkLoop_outside start size hsize fuel (j + 1) _ a
      (by rw [show j + 1 + fuel = j + (fuel + 1) by omega]; omega)]
    exact store_other _ _ _ _ (by omega)

/-- The linking loop chains the blocks `j, j + 1, ...` of the span one to the next. -/
theorem linkLoop_seg (start size : Nat) (hsize : 0 < size) (hstart : start ≠ 0) :
    ∀ (fuel j : Nat) (m : Mem),
      IsSeg (CentralCache.linkLoop start size fuel (j + 1) m) (start + j * size)
        (blocks start size j fuel) (start + (j + fuel) * size)
  | 0, _, _ => rfl
  | fuel + 1, j, m => by
    have hmono : j * size < (j + 1) * size := by
      rw [Nat.add_mul, Nat.one_mul]; omega
    rw [blocks_succ]
    refine ⟨rfl, by omega, ?_⟩
    simp only [CentralCache.linkLoop, Nat.add_sub_cancel]
    rw [linkLoop_outside start size hsize fuel (j + 1) _ _ (Or.inl (by omega)), store_same,
      show j + (fuel + 1) = j + 1 + fuel by omega]
    exact linkLoop_seg start size hsize hstart fuel (j + 1) _

/-- Linking `n` further blocks after block `j` and writing null into the last one
makes the `n + 1` blocks from `j` on a null-terminated chain. -/
theorem linkLoop_chain (start size : Nat) (hsize : 0 < size) (hstart : start ≠ 0)
    (n j : Nat) (m : Mem) :
    IsChain (store (CentralCache.linkLoop start size n (j + 1) m) (start + (j + n) * size) 0)
      (start + j * size) (blocks start size j (n + 1)) := by
  rw [blocks_append, blocks_succ, blocks_zero]
  refine (linkLoop_seg start size hsize hstart n j m).snoc (by omega) ?_ 0
  intro hmem
  obtain ⟨k, _, h2, h3⟩ := mem_blocks.1 hmem
  have : k * size < (j + n) * size := Nat.mul_lt_mul_of_pos_right h2 hsize
  omega

theorem systemAlloc_frame (s : State) (numPages : Nat) :
    (PageCache.systemAlloc s numPages).2.cc = s.cc ∧
    (PageCache.systemAlloc s numPages).2.tc = s.tc ∧
    (PageCache.systemAlloc s numPages).2.out = s.out ∧
    (PageCache.systemAlloc s numPages).2.pc = s.pc := by
  unfold PageCache.systemAlloc
  dsimp only
  split
  · simp
  · split <;> simp

theorem allocateSpan_frame {s s1 : State} {numPages r : Nat}
    (h : PageCache.allocateSpan s numPages = some (r, s1)) :
    s1.cc = s.cc ∧ s1.tc = s.tc ∧ s1.out = s.out := by
  unfold PageCache.allocateSpan at h
  dsimp only at h
  split at h
  · split at h
    · exact absurd h (by simp)
    · split at h <;> (simp only [Option.some.injEq, Prod.mk.injEq] at h; obtain ⟨_, rfl⟩ := h; simp)
  · obtain ⟨f1, f2, f3, _⟩ := systemAlloc_frame s numPages
    split at h <;> (simp only [Option.some.injEq, Prod.mk.injEq] at h; obtain ⟨_, rfl⟩ := h; simp [f1, f2, f3])

theorem fetchFromPageCache_frame {s s1 : State} {size r : Nat}
    (h : CentralCache.fetchFromPageCache s size = some (r, s1)) :
    s1.cc = s.cc ∧ s1.tc = s.tc ∧ s1.out = s.out := by
  unfold CentralCache.fetchFromPageCache at h
  dsimp only at h
  split at h <;> exact allocateSpan_frame h

/-- What the page cache does on a `lower_bound` miss: it takes the next answer
of the operating system. -/
theorem allocateSpan_miss {s : State} {numPages : Nat}
    (hmiss : mapLowerBound s.pc.freeSpans numPages = none) :
    (∃ s1, PageCache.allocateSpan s numPages = some (0, s1) ∧ s1.mem = s.mem ∧
        s1.os.mapped = s.os.mapped ∧ s1.pc = s.pc ∧ s1.cc = s.cc ∧ s1.tc = s.tc) ∨
    (∃ r s1 rest, r ≠ 0 ∧ PageCache.allocateSpan s numPages = some (r, s1) ∧
        s.os.pending = r :: rest ∧
        s1.os.mapped = (r, (numPages * PAGE_SIZE) % SIZE_MOD) :: s.os.mapped ∧
        s1.mem = (fun a => if r ≤ a ∧ a < r + (numPages * PAGE_SIZE) % SIZE_MOD then 0 else s.mem a) ∧
        s1.pc.freeSpans = s.pc.freeSpans ∧ s1.cc = s.cc ∧ s1.tc = s.tc) := by
  unfold PageCache.allocateSpan
  simp only [hmiss]
  unfold PageCache.systemAlloc
  dsimp only
  cases hp : s.os.pending with
  | nil => left; exact ⟨s, by simp⟩
  | cons p rest =>
    by_cases h0 : p = 0
    · left
      simp only [h0, if_true]
      exact ⟨_, rfl, rfl, rfl, rfl, rfl, rfl⟩
    · right
      simp only [h0, if_false]
      exact ⟨p, _, rest, h0, rfl, rfl, rfl, rfl, rfl, rfl, rfl⟩

/-- The state `fetchRange` produces once the page cache has answered with the
span at `start`: the first `allocBlocks` blocks are linked (the last gets a null
next-word when there are at least two), the remaining blocks are linked,
null-terminated and installed as the class list, and no word outside the blocks
is written. -/
theorem fetchRange_empty (s s1 : State) (index batchNum start : Nat)
    (hidx : index < FREE_LIST_SIZE) (hsize : (index + 1) * ALIGNMENT ≤ SPAN_PAGES * PAGE_SIZE)
    (hb : 1 ≤ batchNum) (hempty : s.cc.centralFreeList index = 0)
    (hpc : CentralCache.fetchFromPageCache s ((index + 1) * ALIGNMENT) = some (start, s1))
    (hstart : start ≠ 0) :
    ∃ s', CentralCache.fetchRange s index batchNum = some (start, s') ∧
      IsSeg s'.mem start
        (blocks start ((index + 1) * ALIGNMENT) 0
          (min batchNum (SPAN_PAGES * PAGE_SIZE / ((index + 1) * ALIGNMENT))))
        (if 1 < min batchNum (SPAN_PAGES * PAGE_SIZE / ((index + 1) * ALIGNMENT)) then 0
          else s1.mem start) ∧
      IsChain s'.mem (s'.cc.centralFreeList index)
        (blocks start ((index + 1) * ALIGNMENT)
          (min batchNum (SPAN_PAGES * PAGE_SIZE / ((index + 1) * ALIGNMENT)))
          (SPAN_PAGES * PAGE_SIZE / ((index + 1) * ALIGNMENT) -
            min batchNum (SPAN_PAGES * PAGE_SIZE / ((index + 1) * ALIGNMENT)))) ∧
      (∀ a, (a < start ∨
          start + SPAN_PAGES * PAGE_SIZE / ((index + 1) * ALIGNMENT) * ((index + 1) * ALIGNMENT) ≤ a) →
        s'.mem a = s1.mem a) ∧
      (∀ j, j ≠ index → s'.cc.centralFreeList j = s.cc.centralFreeList j) ∧
      s'.tc = s.tc ∧ s'.os = s1.os ∧ s'.pc = s1.pc ∧ s'.out = s.out := by
  obtain ⟨fcc, ftc, fout⟩ := fetchFromPageCache_frame hpc
  generalize hsz : (index + 1) * ALIGNMENT = size at *
  generalize htot : SPAN_PAGES * PAGE_SIZE / size = total at *
  generalize hal : min batchNum total = alloc at *
  have hsize0 : 0 < size := by rw [← hsz]; simp [ALIGNMENT]
  have htotal : 1 ≤ total := by
    rw [← htot]; exact (Nat.one_le_div_iff hsize0).2 hsize
  have halloc1 : 1 ≤ alloc := by rw [← hal]; exact le_min hb htotal
  have halloc2 : alloc ≤ total := by rw [← hal]; exact min_le_right _ _
  have hg : ¬ (index ≥ FREE_LIST_SIZE ∨ batchNum = 0) := by omega
  -- the chain handed out
  have hfirst : IsSeg
      (if alloc > 1 then
          store (CentralCache.linkLoop start size (alloc - 1) 1 s1.mem) (start + (alloc - 1) * size) 0
        else s1.mem) start (blocks start size 0 alloc) (if 1 < alloc then 0 else s1.mem start) := by
    by_cases h1 : 1 < alloc
    · have := linkLoop_chain start size hsize0 hstart (alloc - 1) 0 s1.mem
      simp only [Nat.zero_add, Nat.zero_mul, Nat.add_zero] at this
      rw [show alloc - 1 + 1 = alloc by omega] at this
      simpa only [gt_iff_lt, h1, if_true] using this
    · have e : alloc = 1 := by omega
      subst e
      simp only [gt_iff_lt, h1, if_false]
      rw [blocks_succ, blocks_zero, Nat.zero_mul, Nat.add_zero]
      exact ⟨rfl, hstart, rfl⟩
  have hfirst_out : ∀ a, (a < start ∨ start + total * size ≤ a) →
      (if alloc > 1 then
          store (CentralCache.linkLoop start size (alloc - 1) 1 s1.mem) (start + (alloc - 1) * size) 0
        else s1.mem) a = s1.mem a := by
    intro a ha
    by_cases h1 : 1 < alloc
    · simp only [gt_iff_lt, h1, if_true]
      have hm1 : (alloc - 1) * size < total * size :=
        Nat.mul_lt_mul_of_pos_right (by omega) hsize0
      rw [store_other _ _ _ _ (by omega)]
      have := linkLoop_outside start size hsize0 (alloc - 1) 0 s1.mem a
      simp only [Nat.zero_add, Nat.zero_mul, Nat.add_zero] at this
      refine this ?_
      rcases ha with ha | ha
      · exact Or.inl ha
      · exact Or.inr (by omega)
    · simp only [gt_iff_lt, h1, if_false]
  unfold CentralCache.fetchRange
  simp only [hg, if_false, hempty, if_true, hsz, hpc, hstart, htot, hal]
  by_cases hrem : total > alloc
  · simp only [hrem, if_true]
    refine ⟨_, rfl, ?_, ?_, ?_, ?_, ftc, rfl, rfl, fout⟩
    · -- the chain handed out survives the second loop
      refine hfirst.congr ?_
      intro x hx
      obtain ⟨k, _, hk2, rfl⟩ := mem_blocks.1 hx
      have hk : k * size < alloc * size := Nat.mul_lt_mul_of_pos_right (by omega) hsize0
      have hk' : alloc * size ≤ (total - 1) * size := Nat.mul_le_mul_right _ (by omega)
      dsimp only
      rw [store_other _ _ _ _ (by omega)]
      exact linkLoop_outside start size hsize0 _ alloc _ _ (Or.inl (by omega))
    · have := linkLoop_chain start size hsize0 hstart (total - (alloc + 1)) alloc
        (if alloc > 1 then
          store (CentralCache.linkLoop start size (alloc - 1) 1 s1.mem) (start + (alloc - 1) * size) 0
        else s1.mem)
      rw [show alloc + (total - (alloc + 1)) = total - 1 by omega,
        show total - (alloc + 1) + 1 = total - alloc by omega] at this
      simpa only [setAt_same] using this
    · intro a ha
      have hm1 : (total - 1) * size < total * size :=
        Nat.mul_lt_mul_of_pos_right (by omega) hsize0
      have hm2 : alloc * size ≤ total * size := Nat.mul_le_mul_right _ halloc2
      dsimp only
      rw [store_other _ _ _ _ (by omega),
        linkLoop_outside start size hsize0 _ alloc _ _
          (by rcases ha with ha | ha
              · exact Or.inl (by omega)
              · right
                rw [show alloc + (total - (alloc + 1)) = total - 1 by omega]
                omega)]
      exact hfirst_out a ha
    · intro j hj
      simp only [setAt_other _ _ _ _ hj, fcc]
  · simp only [hrem, if_false]
    have e : total - alloc = 0 := by omega
    refine ⟨_, rfl, hfirst, ?_, hfirst_out, ?_, ftc, rfl, rfl, fout⟩
    · rw [e, blocks_zero]
      show s1.cc.centralFreeList index = 0
      rw [fcc]; exact hempty
    · intro j _
      show s1.cc.centralFreeList j = s.cc.centralFreeList j
      rw [fcc]

/-- For a class whose blocks are larger than a default span, `fetchRange` on an
empty class list hands out the start of the span the page cache returned and
writes nothing. -/
theorem fetchRange_empty_large (s s1 : State) (index batchNum start : Nat)
    (hidx : index < FREE_LIST_SIZE) (hsize : SPAN_PAGES * PAGE_SIZE < (index + 1) * ALIGNMENT)
    (hb : 1 ≤ batchNum) (hempty : s.cc.centralFreeList index = 0)
    (hpc : CentralCache.fetchFromPageCache s ((index + 1) * ALIGNMENT) = some (start, s1))
    (hstart : start ≠ 0) :
    CentralCache.fetchRange s index batchNum = some (start, s1) := by
  have hg : ¬ (index ≥ FREE_LIST_SIZE ∨ batchNum = 0) := by omega
  have htot : SPAN_PAGES * PAGE_SIZE / ((index + 1) * ALIGNMENT) = 0 :=
    Nat.div_eq_of_lt hsize
  unfold CentralCache.fetchRange
  simp only [hg, if_false, hempty, if_true, hpc, hstart, htot, Nat.min_zero, gt_iff_lt,
    Nat.not_lt_zero, Nat.lt_irrefl]

theorem blocks_pairwise (start size : Nat) (hsize : 0 < size) : ∀ (n i : Nat),
    (blocks start size i n).Pairwise (fun a b => a + size ≤ b)
  | 0, _ => by simp [blocks_zero]
  | n + 1, i => by
    rw [blocks_succ]
    refine List.pairwise_cons.2 ⟨?_, blocks_pairwise start size hsize n (i + 1)⟩
    intro b hb
    obtain ⟨k, hk1, _, rfl⟩ := mem_blocks.1 hb
    have : (i + 1) * size ≤ k * size := Nat.mul_le_mul_right _ hk1
    rw [Nat.add_mul, Nat.one_mul] at this
    omega

/-- C9, as stated, fails on recycled memory: on the state `recycledSpanState`
the class list of class 127 (1024-byte blocks) is empty, `fetchRange(127, 1)`
gets the recycled span at `0x10000` and returns its first block without
writing its next-word, which still holds the client's `7` instead of null. -/
theorem fetchRange_recycled_not_terminated :
    (recycledSpanState.map (fun s => s.cc.centralFreeList 127)) = some 0 ∧
    (recycledSpanState.bind (fun s => CentralCache.fetchRange s 127 1)).map
      (fun r => (r.1, r.2.mem r.1, decide (IsChain r.2.mem r.1 (blocks r.1 1024 0 1))))
      = some (0x10000, 7, false) := by
  decide!


/-! ## Deallocating the null pointer -/

/-- C4. `MemoryPool::deallocate(nullptr, size)` with `size ≤ MAX_BYTES` is not a
no-op: `ThreadCache::deallocate` has no null check and writes the list head
through the null pointer, so the call faults in every state. -/
theorem deallocate_null_faults (s : State) (size : Nat) (h : size ≤ MAX_BYTES) :
    MemoryPool.deallocate s 0 size = none := by
  unfold MemoryPool.deallocate ThreadCache.deallocate
  simp [Nat.not_lt.2 h]

theorem deallocate_null_faults_witness :
    MemoryPool.deallocate (fresh (fun _ => 0) []) 0 8 = none :=
  deallocate_null_faults (fresh (fun _ => 0) []) 8 (by decide)


/-! ## Returning blocks to the central cache -/

theorem tailLoop_chain (m : Mem) : ∀ (fuel : Nat) (xs : List Nat) (e count : Nat),
    IsChain m e xs → xs ≠ [] →
    CentralCache.tailLoop m fuel e count =
      (((xs.take (fuel + 1)).getLast?).getD 0, count + min fuel (xs.length - 1))
  | 0, xs, e, count, hc, hne => by
    cases xs with
    | nil => exact absurd rfl hne
    | cons x xs =>
      have : e = x := hc.1
      subst this
      simp [CentralCache.tailLoop]
  | fuel + 1, xs, e, count, hc, hne => by
    cases xs with
    | nil => exact absurd rfl hne
    | cons x rest =>
      obtain ⟨h1, h2, h3⟩ := hc
      subst h1
      cases rest with
      | nil =>
        have h0 : m e = 0 := h3
        simp [CentralCache.tailLoop, h0]
      | cons y ys =>
        have hy : m e ≠ 0 := by rw [h3.1]; exact h3.2.1
        have ih := tailLoop_chain m fuel (y :: ys) (m e) (count + 1) h3 (by simp)
        simp only [CentralCache.tailLoop, ne_eq, hy, not_false_eq_true, if_true, ih]
        simp only [List.take_succ_cons, List.length_cons, Nat.add_sub_cancel, List.getLast?_cons_cons]
        congr 1
        omega

/-- The last block of a non-empty prefix of a chain, with the segment before it. -/
theorem take_last_split {xs : List Nat} {n : Nat} (hn : 1 ≤ n) (hne : xs ≠ []) :
    ∃ init e, xs.take n = init ++ [e] ∧ ((xs.take n).getLast?).getD 0 = e := by
  have htake : xs.take n ≠ [] := by
    cases xs with
    | nil => exact absurd rfl hne
    | cons x xs =>
      obtain ⟨b, rfl⟩ : ∃ b, n = b + 1 := ⟨n - 1, by omega⟩
      simp
  refine ⟨(xs.take n).dropLast, (xs.take n).getLast htake,
    (List.dropLast_append_getLast htake).symm, ?_⟩
  rw [List.getLast?_eq_getLast _ htake]; rfl

/-- The effect of `returnRange` on a chain `R` handed back while the class list is the chain
`C`: the first `blockNum` blocks of `R` are linked in front of `C`. -/
theorem returnRange_chain (s : State) (start blockNum index : Nat) (R C : List Nat)
    (hidx : index < FREE_LIST_SIZE) (hb : 1 ≤ blockNum) (hne : R ≠ [])
    (hR : IsChain s.mem start R) (hC : IsChain s.mem (s.cc.centralFreeList index) C)
    (hdisj : ∀ a ∈ R, a ∉ C) :
    ∃ e, e ∈ R ∧
      CentralCache.returnRange s start blockNum index =
        { s with
          mem := store s.mem e (s.cc.centralFreeList index),
          cc := ⟨setAt s.cc.centralFreeList index start⟩ } ∧
      IsChain (store s.mem e (s.cc.centralFreeList index)) start (R.take blockNum ++ C) := by
  obtain ⟨init, e, htk, hlast⟩ := take_last_split hb hne
  have hstart : start ≠ 0 := by
    cases R with
    | nil => exact absurd rfl hne
    | cons x xs => rw [hR.1]; exact hR.2.1
  have heR : e ∈ R := List.mem_of_mem_take (by rw [htk]; simp)
  have hsplit : (init ++ [e]) ++ R.drop blockNum = R := by rw [← htk, List.take_append_drop]
  have hR' := hR
  rw [← hsplit] at hR'
  have hnd := hR'.nodup
  obtain ⟨_, h1, _⟩ := isSeg_append.1 hR'
  obtain ⟨mid, h3, h4⟩ := isSeg_append.1 h1
  have hmid : mid = e := h4.1
  subst hmid
  have hnot : mid ∉ init := by
    intro hx
    exact (List.nodup_append.1 (List.nodup_append.1 hnd).1).2.2 hx (List.mem_singleton_self mid)
  refine ⟨mid, heR, ?_, ?_⟩
  · unfold CentralCache.returnRange
    have hg : ¬ (start = 0 ∨ index ≥ FREE_LIST_SIZE ∨ blockNum = 0) := by omega
    simp only [hg, if_false]
    rw [tailLoop_chain s.mem (blockNum - 1) R start 1 hR hne]
    have hcount : ¬ (1 + min (blockNum - 1) (R.length - 1) > blockNum) := by omega
    simp only [hcount, if_false, show blockNum - 1 + 1 = blockNum by omega, hlast]
  · rw [htk]
    exact isSeg_append.2 ⟨_, h3.snoc h4.2.1 hnot _, hC.frame _ _ (hdisj _ heR)⟩

theorem splitLoop_chain (m : Mem) (batchNum : Nat) :
    ∀ (fuel : Nat) (xs : List Nat) (i cur keepNum returnNum : Nat),
    IsChain m cur xs → xs ≠ [] →
    ThreadCache.splitLoop m batchNum fuel i cur keepNum returnNum =
      if fuel < xs.length then some ((xs.drop fuel).headD 0, keepNum, returnNum)
      else some (0, i + xs.length, batchNum - (i + xs.length))
  | 0, xs, i, cur, keepNum, returnNum, hc, hne => by
    have hl : 0 < xs.length := List.length_pos.2 hne
    simp only [ThreadCache.splitLoop, hl, if_true, List.drop_zero, ← hc.head_eq]
  | fuel + 1, xs, i, cur, keepNum, returnNum, hc, hne => by
    cases xs with
    | nil => exact absurd rfl hne
    | cons x rest =>
      obtain ⟨h1, h2, h3⟩ := hc
      subst h1
      cases rest with
      | nil =>
        have h0 : m cur = 0 := h3
        simp [ThreadCache.splitLoop, h2, h0]
      | cons y ys =>
        have hy : m cur ≠ 0 := by rw [h3.1]; exact h3.2.1
        have ih := splitLoop_chain m batchNum fuel (y :: ys) (i + 1) (m cur) keepNum returnNum
          h3 (by simp)
        simp only [ThreadCache.splitLoop, h2, if_false, hy, ih, List.length_cons,
          List.drop_succ_cons, Nat.add_lt_add_iff_right]
        split
        · rfl
        · congr 3 <;> omega

theorem drop_pred_head_eq_take_last : ∀ (xs : List Nat) (k : Nat), 1 ≤ k → k ≤ xs.length →
    (xs.drop (k - 1)).headD 0 = ((xs.take k).getLast?).getD 0
  | [], k, h1, h2 => by simp at h2; omega
  | x :: xs, 1, _, _ => by simp
  | x :: xs, k + 2, _, h2 => by
    have h2' : k + 1 ≤ xs.length := by simpa using h2
    have ih := drop_pred_head_eq_take_last xs (k + 1) (by omega) h2'
    have hne : xs.take (k + 1) ≠ [] := by
      cases xs with
      | nil => simp at h2'
      | cons y ys => simp
    obtain ⟨z, zs, hz⟩ := List.exists_cons_of_ne_nil hne
    simp only [Nat.add_sub_cancel] at ih
    simp only [show k + 2 - 1 = k + 1 by omega, List.drop_succ_cons, List.take_succ_cons, ih, hz,
      List.getLast?_cons_cons]

/-- The effect of `returnToCentralCache` on a thread-cache list that is the chain `T`, with the
counter at `c > 1` and the central list the chain `C`. With `keep = max(c/4, 1)`:
when `T` has at least `keep` blocks the thread cache keeps the first `keep` and
the central list becomes the first `c - keep` of the others followed by `C`;
when `T` is shorter nothing changes. Only next-words of blocks of `T` are written. -/
theorem returnToCentralCache_chain (s : State) (size : Nat) (T C : List Nat)
    (hidx : SizeClass.getIndex size < FREE_LIST_SIZE)
    (hT : IsChain s.mem (s.tc.freeList (SizeClass.getIndex size)) T) (hne : T ≠ [])
    (hC : IsChain s.mem (s.cc.centralFreeList (SizeClass.getIndex size)) C)
    (hdisj : ∀ a ∈ T, a ∉ C)
    (hc : 1 < s.tc.freeListSize (SizeClass.getIndex size)) :
    ∃ s', ThreadCache.returnToCentralCache s (s.tc.freeList (SizeClass.getIndex size)) size
        = some s' ∧
      (T.length < max (s.tc.freeListSize (SizeClass.getIndex size) / 4) 1 → s' = s) ∧
      (max (s.tc.freeListSize (SizeClass.getIndex size) / 4) 1 ≤ T.length →
        IsChain s'.mem (s'.tc.freeList (SizeClass.getIndex size))
          (T.take (max (s.tc.freeListSize (SizeClass.getIndex size) / 4) 1)) ∧
        s'.tc.freeListSize (SizeClass.getIndex size)
          = max (s.tc.freeListSize (SizeClass.getIndex size) / 4) 1 ∧
        IsChain s'.mem (s'.cc.centralFreeList (SizeClass.getIndex size))
          ((T.drop (max (s.tc.freeListSize (SizeClass.getIndex size) / 4) 1)).take
              (s.tc.freeListSize (SizeClass.getIndex size)
                - max (s.tc.freeListSize (SizeClass.getIndex size) / 4) 1) ++ C)) ∧
      (∀ a, a ∉ T → s'.mem a = s.mem a) ∧
      (∀ j, j ≠ SizeClass.getIndex size →
        s'.tc.freeList j = s.tc.freeList j ∧ s'.tc.freeListSize j = s.tc.freeListSize j ∧
        s'.cc.centralFreeList j = s.cc.centralFreeList j) ∧
      s'.os = s.os ∧ s'.pc = s.pc := by
  generalize hi : SizeClass.getIndex size = i at *
  generalize hcv : s.tc.freeListSize i = c at *
  generalize hk : max (c / 4) 1 = keep at *
  have hkeep1 : 1 ≤ keep := by rw [← hk]; exact le_max_right _ _
  have hkeepc : keep < c := by rw [← hk]; omega
  have hg : ¬ c ≤ 1 := by omega
  unfold ThreadCache.returnToCentralCache
  simp only [hi, hcv, hg, if_false, hk]
  rw [splitLoop_chain s.mem c (keep - 1) T 0 _ keep (c - keep) hT hne]
  by_cases hlen : keep ≤ T.length
  · have hlt : keep - 1 < T.length := by omega
    simp only [hlt, if_true]
    obtain ⟨init, sp, htk, hlast⟩ := take_last_split hkeep1 hne
    have hsp : (T.drop (keep - 1)).headD 0 = sp := by
      rw [drop_pred_head_eq_take_last T keep hkeep1 hlen]; exact hlast
    rw [hsp]
    have hsplit : (init ++ [sp]) ++ T.drop keep = T := by rw [← htk, List.take_append_drop]
    have hT' := hT
    rw [← hsplit] at hT'
    obtain ⟨c1, c2⟩ := hT'.cut
    rw [← htk] at c1
    obtain ⟨mid, h1, h2⟩ := isSeg_append.1 hT'
    obtain ⟨mid2, _, h4⟩ := isSeg_append.1 h1
    have hmid2 : mid2 = sp := h4.1
    subst hmid2
    have hspne : mid2 ≠ 0 := h4.2.1
    have hnext : s.mem mid2 = mid := h4.2.2
    have hspT : mid2 ∈ T := by rw [← hsplit]; simp
    have hmidhead : mid = (T.drop keep).headD 0 := IsChain.head_eq h2
    have hnd := hT.nodup
    simp only [ne_eq, hspne, not_false_eq_true, if_true, hnext]
    have hC1 : IsChain (store s.mem mid2 0) (s.cc.centralFreeList i) C :=
      hC.frame _ _ (hdisj _ hspT)
    by_cases hmid : mid = 0
    · have hR : T.drop keep = [] := by
        subst hmid; exact IsChain.eq_nil h2
      subst hmid
      simp only [not_true_eq_false, and_false, if_false]
      refine ⟨_, rfl, fun h => absurd hlen (by omega), fun _ => ⟨?_, ?_, ?_⟩, ?_, ?_, rfl, rfl⟩
      · simpa only [setAt_same] using c1
      · simp only [setAt_same]
      · rw [hR]; simpa using hC1
      · intro a ha
        exact store_other _ _ _ _ (fun h => ha (by rw [h]; exact hspT))
      · intro j hj
        simp only [setAt_other _ _ _ _ hj, and_self]
    · have hcond : c - keep > 0 ∧ mid ≠ 0 := ⟨by omega, hmid⟩
      simp only [ne_eq, hcond.1, hmid, not_false_eq_true, and_self, if_true]
      have hRne : T.drop keep ≠ [] := by
        intro h
        rw [h] at hmidhead
        exact hmid hmidhead
      have c2' : IsChain (store s.mem mid2 0) mid (T.drop keep) := by
        rw [hmidhead]; exact c2
      obtain ⟨e, heR, heq, hch⟩ := returnRange_chain
        { s with
          mem := store s.mem mid2 0,
          tc := { freeList := setAt s.tc.freeList i (s.tc.freeList i),
                  freeListSize := setAt s.tc.freeListSize i keep } }
        mid (c - keep) i (T.drop keep) C hidx (by omega) hRne c2' hC1
        (fun a ha => hdisj a (List.mem_of_mem_drop ha))
      rw [heq]
      have heT : e ∈ T := List.mem_of_mem_drop heR
      have hetake : e ∉ T.take keep := by
        intro hx
        have := (List.nodup_append.1 (by rw [List.take_append_drop]; exact hnd :
          (T.take keep ++ T.drop keep).Nodup)).2.2
        exact this hx heR
      refine ⟨_, rfl, fun h => absurd hlen (by omega), fun _ => ⟨?_, ?_, ?_⟩, ?_, ?_, rfl, rfl⟩
      · simp only [setAt_same]
        exact c1.frame _ _ hetake
      · simp only [setAt_same]
      · simpa only [setAt_same] using hch
      · intro a ha
        show store (store s.mem mid2 0) e _ a = s.mem a
        rw [store_other _ _ _ _ (fun h => ha (by rw [h]; exact heT)),
          store_other _ _ _ _ (fun h => ha (by rw [h]; exact hspT))]
      · intro j hj
        simp only [setAt_other _ _ _ _ hj, and_self]
  · have hlt : ¬ keep - 1 < T.length := by omega
    simp only [hlt, if_false, ne_eq, not_true_eq_false]
    exact ⟨s, rfl, fun _ => rfl, fun h => absurd h hlen, fun _ _ => rfl,
      fun _ _ => ⟨rfl, rfl, rfl⟩, rfl, rfl⟩


/-! ## The claims about `returnToCentralCache` and about cutting a span -/

/-- C7. In a thread cache whose class list is a well-formed chain `T` of `L`
blocks with `freeListSize_[i] = L > THREAD_MAX_SIZE` (the central list being a
well-formed chain `C` sharing no block with `T`), the return-to-central test
fires and `returnToCentralCache` leaves the thread cache with the first
`keep = max(1, L / 4)` blocks of `T` in order and the counter at `keep`, and the
central list with the other `L - keep` blocks in order followed by `C`. -/
theorem returnToCentralCache_spec (s : State) (size : Nat) (T C : List Nat)
    (hsize : size ≤ MAX_BYTES)
    (hT : IsChain s.mem (s.tc.freeList (SizeClass.getIndex size)) T)
    (hcnt : s.tc.freeListSize (SizeClass.getIndex size) = T.length)
    (hL : THREAD_MAX_SIZE < T.length)
    (hC : IsChain s.mem (s.cc.centralFreeList (SizeClass.getIndex size)) C)
    (hTC : ∀ a ∈ T, a ∉ C) :
    ThreadCache.shouldReturnToCentralCache s (SizeClass.getIndex size) = true ∧
    ∃ s', ThreadCache.returnToCentralCache s (s.tc.freeList (SizeClass.getIndex size)) size
        = some s' ∧
      IsChain s'.mem (s'.tc.freeList (SizeClass.getIndex size)) (T.take (max 1 (T.length / 4))) ∧
      (T.take (max 1 (T.length / 4))).length = max 1 (T.length / 4) ∧
      s'.tc.freeListSize (SizeClass.getIndex size) = max 1 (T.length / 4) ∧
      IsChain s'.mem (s'.cc.centralFreeList (SizeClass.getIndex size))
        (T.drop (max 1 (T.length / 4)) ++ C) ∧
      (T.drop (max 1 (T.length / 4))).length = T.length - max 1 (T.length / 4) := by
  have hL' : 64 < T.length := hL
  have hidx : SizeClass.getIndex size < FREE_LIST_SIZE := by
    have hM : MAX_BYTES = 262144 := rfl
    have hF : FREE_LIST_SIZE = 32768 := rfl
    rw [getIndex_eq size (by omega)]; omega
  have hne : T ≠ [] := by
    intro h; rw [h] at hL'; simp at hL'
  refine ⟨by simp [ThreadCache.shouldReturnToCentralCache, hcnt, hL], ?_⟩
  obtain ⟨s', h1, _, h3, _⟩ := returnToCentralCache_chain s size T C hidx hT hne hC hTC
    (by rw [hcnt]; omega)
  rw [hcnt, max_comm] at h3
  obtain ⟨a1, a2, a3⟩ := h3 (by omega)
  have hkeep : max 1 (T.length / 4) ≤ T.length := by omega
  refine ⟨s', h1, a1, by simp [hkeep], a2, ?_, by simp⟩
  rw [List.take_of_length_le (by simp)] at a3
  exact a3

/-- C10. After `fetchRange` has obtained a span for an empty class list, the
chain it hands out (`max(1, allocBlocks)` blocks from the returned pointer on)
and the chain it installs on the central list (`totalBlocks - allocBlocks`
blocks) consist of blocks that lie inside the span requested from the page
cache (`pages` pages: `SPAN_PAGES`, or enough pages for one block when the
block size exceeds `SPAN_PAGES * PAGE_SIZE`), start at offsets that are
multiples of `ALIGNMENT`, and do not overlap one another. -/
theorem fetchRange_blocks_inside_span (s : State) (index batchNum start : Nat)
    (hidx : index < FREE_LIST_SIZE) (hb : 1 ≤ batchNum)
    (hempty : s.cc.centralFreeList index = 0)
    (hpc : (CentralCache.fetchFromPageCache s ((index + 1) * ALIGNMENT)).map Prod.fst = some start)
    (hstart : start ≠ 0) :
    ∃ pages s1 s' handed installed t,
      CentralCache.fetchFromPageCache s ((index + 1) * ALIGNMENT)
        = PageCache.allocateSpan s pages ∧
      PageCache.allocateSpan s pages = some (start, s1) ∧
      CentralCache.fetchRange s index batchNum = some (start, s') ∧
      IsSeg s'.mem start handed t ∧
      handed.length = max 1 (min batchNum (SPAN_PAGES * PAGE_SIZE / ((index + 1) * ALIGNMENT))) ∧
      IsChain s'.mem (s'.cc.centralFreeList index) installed ∧
      installed.length = SPAN_PAGES * PAGE_SIZE / ((index + 1) * ALIGNMENT)
        - min batchNum (SPAN_PAGES * PAGE_SIZE / ((index + 1) * ALIGNMENT)) ∧
      (∀ b ∈ handed ++ installed,
        start ≤ b ∧ b + (index + 1) * ALIGNMENT ≤ start + pages * PAGE_SIZE ∧
        ALIGNMENT ∣ (b - start)) ∧
      (handed ++ installed).Pairwise
        (fun a b => a + (index + 1) * ALIGNMENT ≤ b ∨ b + (index + 1) * ALIGNMENT ≤ a) := by
  obtain ⟨⟨st, s1⟩, hpc', hst⟩ := Option.map_eq_some'.1 hpc
  simp only at hst
  subst hst
  obtain ⟨fcc, _, _⟩ := fetchFromPageCache_frame hpc'
  have hA : ALIGNMENT = 8 := rfl
  have hF : FREE_LIST_SIZE = 32768 := rfl
  have hP : SPAN_PAGES * PAGE_SIZE = 32768 := rfl
  have hsize0 : 0 < (index + 1) * ALIGNMENT := by rw [hA]; omega
  by_cases hsmall : (index + 1) * ALIGNMENT ≤ SPAN_PAGES * PAGE_SIZE
  · obtain ⟨s', h1, h2, h3, _⟩ :=
      fetchRange_empty s s1 index batchNum st hidx hsmall hb hempty hpc' hstart
    have hpage : CentralCache.fetchFromPageCache s ((index + 1) * ALIGNMENT)
        = PageCache.allocateSpan s SPAN_PAGES := by
      unfold CentralCache.fetchFromPageCache
      simp only [hsmall, if_true]
    generalize hsz : (index + 1) * ALIGNMENT = size at *
    generalize htot : SPAN_PAGES * PAGE_SIZE / size = total at *
    have htotal : 1 ≤ total := by
      rw [← htot]; exact (Nat.one_le_div_iff hsize0).2 hsmall
    have hts : total * size ≤ SPAN_PAGES * PAGE_SIZE := by
      rw [← htot]; exact Nat.div_mul_le_self _ _
    have hall : blocks st size 0 (min batchNum total)
        ++ blocks st size (min batchNum total) (total - min batchNum total)
        = blocks st size 0 total := by
      have := blocks_append st size 0 (min batchNum total) (total - min batchNum total)
      rw [Nat.zero_add, show min batchNum total + (total - min batchNum total) = total by omega]
        at this
      exact this.symm
    refine ⟨SPAN_PAGES, s1, s', _, _, _, hpage, hpage ▸ hpc', h1, h2, ?_, h3, ?_, ?_, ?_⟩
    · rw [blocks_length]; omega
    · rw [blocks_length]
    · rw [hall]
      intro b hb
      obtain ⟨k, _, hk, rfl⟩ := mem_blocks.1 hb
      have hk1 : (k + 1) * size ≤ total * size := Nat.mul_le_mul_right _ (by omega)
      rw [Nat.add_mul, Nat.one_mul] at hk1
      refine ⟨by omega, by omega, ?_⟩
      rw [Nat.add_sub_cancel_left, ← hsz]
      exact Dvd.intro_left _ (by rw [Nat.mul_assoc])
    · rw [hall]
      exact (blocks_pairwise st size hsize0 total 0).imp (fun h => Or.inl h)
  · have hlarge : SPAN_PAGES * PAGE_SIZE < (index + 1) * ALIGNMENT := by omega
    have h1 := fetchRange_empty_large s s1 index batchNum st hidx hlarge hb hempty hpc' hstart
    have htot : SPAN_PAGES * PAGE_SIZE / ((index + 1) * ALIGNMENT) = 0 :=
      Nat.div_eq_of_lt hlarge
    have hpage : CentralCache.fetchFromPageCache s ((index + 1) * ALIGNMENT)
        = PageCache.allocateSpan s
            ((((index + 1) * ALIGNMENT + PAGE_SIZE - 1) % SIZE_MOD) / PAGE_SIZE) := by
      unfold CentralCache.fetchFromPageCache
      simp only [hsmall, if_false]
    refine ⟨_, s1, s1, [st], [], s1.mem st, hpage, hpage ▸ hpc', h1, ⟨rfl, hstart, rfl⟩,
      by rw [htot]; simp, ?_, by rw [htot]; simp, ?_, by simp⟩
    · show s1.cc.centralFreeList index = 0
      rw [fcc]; exact hempty
    · intro b hb
      simp only [List.append_nil, List.mem_singleton] at hb
      subst hb
      refine ⟨le_refl _, ?_, by simp⟩
      have hlt : (index + 1) * ALIGNMENT + PAGE_SIZE - 1 < SIZE_MOD := by
        simp only [hA, PAGE_SIZE, SIZE_MOD]; omega
      rw [Nat.mod_eq_of_lt hlt]
      simp only [PAGE_SIZE]
      omega


theorem fetchRange_blocks_inside_span_witness :
    ∃ pages s1 s' handed installed t,
      CentralCache.fetchFromPageCache (fresh (fun _ => 0) [0x10000]) ((5000 + 1) * ALIGNMENT)
        = PageCache.allocateSpan (fresh (fun _ => 0) [0x10000]) pages ∧
      PageCache.allocateSpan (fresh (fun _ => 0) [0x10000]) pages = some (0x10000, s1) ∧
      CentralCache.fetchRange (fresh (fun _ => 0) [0x10000]) 5000 1 = some (0x10000, s') ∧
      IsSeg s'.mem 0x10000 handed t ∧
      handed.length = max 1 (min 1 (SPAN_PAGES * PAGE_SIZE / ((5000 + 1) * ALIGNMENT))) ∧
      IsChain s'.mem (s'.cc.centralFreeList 5000) installed ∧
      installed.length = SPAN_PAGES * PAGE_SIZE / ((5000 + 1) * ALIGNMENT)
        - min 1 (SPAN_PAGES * PAGE_SIZE / ((5000 + 1) * ALIGNMENT)) ∧
      (∀ b ∈ handed ++ installed,
        0x10000 ≤ b ∧ b + (5000 + 1) * ALIGNMENT ≤ 0x10000 + pages * PAGE_SIZE ∧
        ALIGNMENT ∣ (b - 0x10000)) ∧
      (handed ++ installed).Pairwise
        (fun a b => a + (5000 + 1) * ALIGNMENT ≤ b ∨ b + (5000 + 1) * ALIGNMENT ≤ a) :=
  fetchRange_blocks_inside_span (fresh (fun _ => 0) [0x10000]) 5000 1 0x10000
    (by decide) (by decide) rfl rfl (by decide)

theorem returnToCentralCache_spec_witness :
    ThreadCache.shouldReturnToCentralCache
      { fresh (fun a => if a < 520 then a + 8 else 0) [] with
        tc := { freeList := fun _ => 8, freeListSize := fun _ => 65 } }
      (SizeClass.getIndex 64) = true ∧
    ∃ s', ThreadCache.returnToCentralCache
        { fresh (fun a => if a < 520 then a + 8 else 0) [] with
          tc := { freeList := fun _ => 8, freeListSize := fun _ => 65 } }
        8 64 = some s' ∧
      IsChain s'.mem (s'.tc.freeList (SizeClass.getIndex 64))
        ((blocks 0 8 1 65).take (max 1 ((blocks 0 8 1 65).length / 4))) ∧
      ((blocks 0 8 1 65).take (max 1 ((blocks 0 8 1 65).length / 4))).length
        = max 1 ((blocks 0 8 1 65).length / 4) ∧
      s'.tc.freeListSize (SizeClass.getIndex 64) = max 1 ((blocks 0 8 1 65).length / 4) ∧
      IsChain s'.mem (s'.cc.centralFreeList (SizeClass.getIndex 64))
        ((blocks 0 8 1 65).drop (max 1 ((blocks 0 8 1 65).length / 4)) ++ []) ∧
      ((blocks 0 8 1 65).drop (max 1 ((blocks 0 8 1 65).length / 4))).length
        = (blocks 0 8 1 65).length - max 1 ((blocks 0 8 1 65).length / 4) :=
  returnToCentralCache_spec
    { fresh (fun a => if a < 520 then a + 8 else 0) [] with
      tc := { freeList := fun _ => 8, freeListSize := fun _ => 65 } }
    64 (blocks 0 8 1 65) [] (by decide) (by decide!) (by decide) (by decide) rfl
    (fun _ _ h => by simp at h)

/-- C9 (amended). For a class with block size `size = (index + 1) * ALIGNMENT` at most
`SPAN_PAGES * PAGE_SIZE` and `batchNum ≥ 1`, `fetchRange` on an empty class list
returns the start of the span the page cache returned, links the blocks
`start + j * size`, `j = 0 .. allocBlocks - 1`, in that order, and installs as the
class list the null-terminated chain of the blocks `j = allocBlocks .. totalBlocks - 1`
in that order. The next-word of the last block handed out is null when
`allocBlocks ≥ 2`; when `allocBlocks = 1` it is left as the span memory held it,
which is null for a span freshly mapped by `systemAlloc`. -/
theorem fetchRange_cuts_span (s : State) (index batchNum start : Nat)
    (hidx : index < FREE_LIST_SIZE) (hsize : (index + 1) * ALIGNMENT ≤ SPAN_PAGES * PAGE_SIZE)
    (hb : 1 ≤ batchNum) (hempty : s.cc.centralFreeList index = 0)
    (hpc : (CentralCache.fetchFromPageCache s ((index + 1) * ALIGNMENT)).map Prod.fst = some start)
    (hstart : start ≠ 0) :
    ∃ s1 s', CentralCache.fetchFromPageCache s ((index + 1) * ALIGNMENT) = some (start, s1) ∧
      CentralCache.fetchRange s index batchNum = some (start, s') ∧
      IsSeg s'.mem start
        (blocks start ((index + 1) * ALIGNMENT) 0
          (min batchNum (SPAN_PAGES * PAGE_SIZE / ((index + 1) * ALIGNMENT))))
        (if 1 < min batchNum (SPAN_PAGES * PAGE_SIZE / ((index + 1) * ALIGNMENT)) then 0
          else s1.mem start) ∧
      (mapLowerBound s.pc.freeSpans SPAN_PAGES = none → s1.mem start = 0) ∧
      ((1 < min batchNum (SPAN_PAGES * PAGE_SIZE / ((index + 1) * ALIGNMENT)) ∨ s1.mem start = 0) →
        IsChain s'.mem start
          (blocks start ((index + 1) * ALIGNMENT) 0
            (min batchNum (SPAN_PAGES * PAGE_SIZE / ((index + 1) * ALIGNMENT))))) ∧
      IsChain s'.mem (s'.cc.centralFreeList index)
        (blocks start ((index + 1) * ALIGNMENT)
          (min batchNum (SPAN_PAGES * PAGE_SIZE / ((index + 1) * ALIGNMENT)))
          (SPAN_PAGES * PAGE_SIZE / ((index + 1) * ALIGNMENT) -
            min batchNum (SPAN_PAGES * PAGE_SIZE / ((index + 1) * ALIGNMENT)))) := by
  obtain ⟨⟨st, s1⟩, hpc', hst⟩ := Option.map_eq_some'.1 hpc
  simp only at hst
  subst hst
  obtain ⟨s', h1, h2, h3, _⟩ :=
    fetchRange_empty s s1 index batchNum st hidx hsize hb hempty hpc' hstart
  refine ⟨s1, s', hpc', h1, h2, ?_, ?_, h3⟩
  · intro hmiss
    have hpage : CentralCache.fetchFromPageCache s ((index + 1) * ALIGNMENT)
        = PageCache.allocateSpan s SPAN_PAGES := by
      unfold CentralCache.fetchFromPageCache
      simp only [hsize, if_true]
    rw [hpage] at hpc'
    rcases allocateSpan_miss hmiss with ⟨s0, e0, _⟩ | ⟨r, s2, rest, _, e1, _, _, hmem, _⟩
    · rw [e0] at hpc'
      simp only [Option.some.injEq, Prod.mk.injEq] at hpc'
      exact absurd hpc'.1.symm hstart
    · rw [e1] at hpc'
      simp only [Option.some.injEq, Prod.mk.injEq] at hpc'
      obtain ⟨rfl, rfl⟩ := hpc'
      rw [hmem]
      simp [SPAN_PAGES, PAGE_SIZE, SIZE_MOD]
  · intro hor
    rcases hor with h | h
    · simpa only [h, if_true] using h2
    · by_cases h' : 1 < min batchNum (SPAN_PAGES * PAGE_SIZE / ((index + 1) * ALIGNMENT))
      · simpa only [h', if_true] using h2
      · simpa only [h', if_false, h] using h2

theorem fetchRange_cuts_span_witness :
    ∃ s1 s', CentralCache.fetchFromPageCache (fresh (fun _ => 0) [0x10000]) ((7 + 1) * ALIGNMENT)
        = some (0x10000, s1) ∧
      CentralCache.fetchRange (fresh (fun _ => 0) [0x10000]) 7 32 = some (0x10000, s') ∧
      IsSeg s'.mem 0x10000
        (blocks 0x10000 ((7 + 1) * ALIGNMENT) 0
          (min 32 (SPAN_PAGES * PAGE_SIZE / ((7 + 1) * ALIGNMENT))))
        (if 1 < min 32 (SPAN_PAGES * PAGE_SIZE / ((7 + 1) * ALIGNMENT)) then 0
          else s1.mem 0x10000) ∧
      (mapLowerBound (fresh (fun _ => 0) [0x10000]).pc.freeSpans SPAN_PAGES = none →
        s1.mem 0x10000 = 0) ∧
      ((1 < min 32 (SPAN_PAGES * PAGE_SIZE / ((7 + 1) * ALIGNMENT)) ∨ s1.mem 0x10000 = 0) →
        IsChain s'.mem 0x10000
          (blocks 0x10000 ((7 + 1) * ALIGNMENT) 0
            (min 32 (SPAN_PAGES * PAGE_SIZE / ((7 + 1) * ALIGNMENT))))) ∧
      IsChain s'.mem (s'.cc.centralFreeList 7)
        (blocks 0x10000 ((7 + 1) * ALIGNMENT)
          (min 32 (SPAN_PAGES * PAGE_SIZE / ((7 + 1) * ALIGNMENT)))
          (SPAN_PAGES * PAGE_SIZE / ((7 + 1) * ALIGNMENT) -
            min 32 (SPAN_PAGES * PAGE_SIZE / ((7 + 1) * ALIGNMENT)))) :=
  fetchRange_cuts_span (fresh (fun _ => 0) [0x10000]) 7 32 0x10000
    (by decide) (by decide) (by decide) rfl rfl (by decide)

/-! ## One `allocate` or `deallocate` call on well-formed lists -/

theorem getIndex_lt (n : Nat) (hn : n ≤ MAX_BYTES) : SizeClass.getIndex n < FREE_LIST_SIZE := by
  have hM : MAX_BYTES = 262144 := rfl
  have hF : FREE_LIST_SIZE = 32768 := rfl
  rw [getIndex_eq n (by omega)]; omega

theorem getIndex_norm (n : Nat) (hn : n ≤ MAX_BYTES) :
    SizeClass.getIndex (if n = 0 then ALIGNMENT else n) = SizeClass.getIndex n := by
  have hM : MAX_BYTES = 262144 := rfl
  by_cases h : n = 0
  · subst h; decide
  · simp [h]

theorem getBatchNum_pos (size : Nat) : 1 ≤ ThreadCache.getBatchNum size := by
  unfold ThreadCache.getBatchNum
  exact le_max_left _ _

/-- A batch of more than one block never exceeds the number of blocks of a span. -/
theorem getBatchNum_le_total (size : Nat)
    (hb : 1 < ThreadCache.getBatchNum size) :
    ThreadCache.getBatchNum size ≤ SPAN_PAGES * PAGE_SIZE / size := by
  unfold ThreadCache.getBatchNum at hb ⊢
  have h1 : 4 * 1024 / size ≤ SPAN_PAGES * PAGE_SIZE / size :=
    Nat.div_le_div_right (by decide)
  dsimp only at hb ⊢
  omega

theorem pushBlock_eq (s : State) (p size : Nat) (hsize : size ≤ MAX_BYTES) (hp : p ≠ 0) :
    MemoryPool.deallocate s p size =
      if ThreadCache.shouldReturnToCentralCache (pushBlock s p size) (SizeClass.getIndex size) then
        ThreadCache.returnToCentralCache (pushBlock s p size)
          ((pushBlock s p size).tc.freeList (SizeClass.getIndex size)) size
      else some (pushBlock s p size) := by
  unfold MemoryPool.deallocate ThreadCache.deallocate
  simp only [Nat.not_lt.2 hsize, if_false, hp]
  rfl

/-- Pushing a block that is on no list in front of the thread-cache chain. -/
theorem pushBlock_chain (s : State) (p size : Nat) (T : List Nat)
    (hT : IsChain s.mem (s.tc.freeList (SizeClass.getIndex size)) T)
    (hp : p ≠ 0) (hpT : p ∉ T) :
    IsChain (pushBlock s p size).mem ((pushBlock s p size).tc.freeList (SizeClass.getIndex size))
      (p :: T) := by
  simp only [pushBlock, setAt_same]
  exact ⟨rfl, hp, by rw [store_same]; exact hT.frame _ _ hpT⟩

/-- The fast path of `allocate`: the thread-cache list is a non-empty chain. -/
theorem allocate_pop (s : State) (n x : Nat) (xs : List Nat) (hn : n ≤ MAX_BYTES)
    (hT : IsChain s.mem (s.tc.freeList (SizeClass.getIndex n)) (x :: xs)) :
    MemoryPool.allocate s n = some (x,
      { s with tc :=
          { freeList := setAt s.tc.freeList (SizeClass.getIndex n) (s.mem x),
            freeListSize := setAt s.tc.freeListSize (SizeClass.getIndex n)
              ((s.tc.freeListSize (SizeClass.getIndex n) + SIZE_MOD - 1) % SIZE_MOD) } }) ∧
    IsChain s.mem (s.mem x) xs := by
  obtain ⟨h1, h2, h3⟩ := hT
  refine ⟨?_, h3⟩
  have hM : MAX_BYTES = 262144 := rfl
  have hsz : ¬ (if n = 0 then ALIGNMENT else n) > MAX_BYTES := by
    by_cases h : n = 0
    · simp [h, ALIGNMENT, MAX_BYTES]
    · simp only [h, if_false]; omega
  unfold MemoryPool.allocate ThreadCache.allocate
  simp only [hsz, if_false, getIndex_norm n hn, h1, ne_eq, h2, not_false_eq_true, if_true]

/-- The slow path of `allocate`: with an empty thread-cache list the call is the
refill from the central cache, after the counter has been decremented. -/
theorem allocate_refill (s : State) (n : Nat) (hn : n ≤ MAX_BYTES)
    (hT : s.tc.freeList (SizeClass.getIndex n) = 0) :
    MemoryPool.allocate s n =
      ThreadCache.fetchFromCentralCache
        { s with tc :=
          { freeList := s.tc.freeList,
            freeListSize := setAt s.tc.freeListSize (SizeClass.getIndex n)
              ((s.tc.freeListSize (SizeClass.getIndex n) + SIZE_MOD - 1) % SIZE_MOD) } }
        (SizeClass.getIndex n) := by
  have hM : MAX_BYTES = 262144 := rfl
  have hsz : ¬ (if n = 0 then ALIGNMENT else n) > MAX_BYTES := by
    by_cases h : n = 0
    · simp [h, ALIGNMENT, MAX_BYTES]
    · simp only [h, if_false]; omega
  unfold MemoryPool.allocate ThreadCache.allocate
  simp only [hsz, if_false, getIndex_norm n hn, hT, ne_eq, not_true_eq_false]


/-- Refill from a non-empty central list: the caller gets the head, the rest of
the batch becomes the thread-cache list, the counter grows by the batch size
requested. -/
theorem refill_central (s : State) (i : Nat) (ys : List Nat) (hidx : i < FREE_LIST_SIZE)
    (hne : ys ≠ []) (hT : s.tc.freeList i = 0)
    (hC : IsChain s.mem (s.cc.centralFreeList i) ys) :
    ∃ s', ThreadCache.fetchFromCentralCache s i = some (ys.headD 0, s') ∧ ys.headD 0 ≠ 0 ∧
      IsChain s'.mem (s'.tc.freeList i)
        (ys.take (ThreadCache.getBatchNum ((i + 1) * ALIGNMENT))).tail ∧
      IsChain s'.mem (s'.cc.centralFreeList i)
        (ys.drop (ThreadCache.getBatchNum ((i + 1) * ALIGNMENT))) ∧
      s'.tc.freeListSize i
        = (s.tc.freeListSize i + ThreadCache.getBatchNum ((i + 1) * ALIGNMENT)) % SIZE_MOD ∧
      (∀ a, a ∉ ys → s'.mem a = s.mem a) ∧
      (∀ j, j ≠ i →
        s'.tc.freeList j = s.tc.freeList j ∧ s'.tc.freeListSize j = s.tc.freeListSize j ∧
        s'.cc.centralFreeList j = s.cc.centralFreeList j) ∧
      s'.os = s.os ∧ s'.pc = s.pc := by
  generalize hbv : ThreadCache.getBatchNum ((i + 1) * ALIGNMENT) = b
  have hb : 1 ≤ b := by rw [← hbv]; exact getBatchNum_pos _
  obtain ⟨heq, hlast⟩ := fetchRange_nonempty_eq s i b ys hidx hb hne hC
  obtain ⟨init, e, htk, hl⟩ := take_last_split hb hne
  have hsplit : (init ++ [e]) ++ ys.drop b = ys := by rw [← htk, List.take_append_drop]
  have hC' := hC
  rw [← hsplit] at hC'
  obtain ⟨c1, c2⟩ := hC'.cut
  rw [← htk] at c1
  have heys : e ∈ ys := by rw [← hsplit]; simp
  have hhead : s.cc.centralFreeList i = ys.headD 0 := hC.head_eq
  have hhead0 : ys.headD 0 ≠ 0 := by
    cases ys with
    | nil => exact absurd rfl hne
    | cons y rest => exact hC.2.1
  have htail : IsChain (store s.mem e 0) (store s.mem e 0 (ys.headD 0)) (ys.take b).tail := by
    cases hys : ys.take b with
    | nil =>
      rw [hys] at htk
      simp at htk
    | cons z zs =>
      rw [hys] at c1
      have hz : ys.headD 0 = z := by rw [← hhead]; exact c1.1
      rw [hz]
      exact c1.2.2
  unfold ThreadCache.fetchFromCentralCache
  simp only [hbv, heq, hl, hhead, hhead0, if_false]
  by_cases hb1 : b > 1
  · simp only [hb1, if_true]
    refine ⟨_, rfl, hhead0, ?_, ?_, ?_, ?_, ?_, rfl, rfl⟩
    · simpa only [setAt_same] using htail
    · simpa only [setAt_same] using c2
    · simp only [setAt_same]
    · intro a ha
      exact store_other _ _ _ _ (fun h => ha (by rw [h]; exact heys))
    · intro j hj
      simp only [setAt_other _ _ _ _ hj, and_self]
  · simp only [hb1, if_false]
    have hb1' : b = 1 := by omega
    refine ⟨_, rfl, hhead0, ?_, ?_, ?_, ?_, ?_, rfl, rfl⟩
    · have : (ys.take b).tail = [] := by
        subst hb1'
        cases ys with
        | nil => rfl
        | cons y rest => simp
      rw [this]
      exact hT
    · simpa only [setAt_same] using c2
    · simp only [setAt_same]
    · intro a ha
      exact store_other _ _ _ _ (fun h => ha (by rw [h]; exact heys))
    · intro j hj
      simp only [setAt_other _ _ _ _ hj, and_self]

theorem allocateSpan_miss_ok {s : State} {numPages r : Nat} {rest : List Nat}
    (hmiss : mapLowerBound s.pc.freeSpans numPages = none)
    (hpend : s.os.pending = r :: rest) (hr : r ≠ 0) :
    ∃ s1, PageCache.allocateSpan s numPages = some (r, s1) ∧
      s1.os.mapped = (r, (numPages * PAGE_SIZE) % SIZE_MOD) :: s.os.mapped ∧
      s1.os.pending = rest ∧
      s1.mem = (fun a => if r ≤ a ∧ a < r + (numPages * PAGE_SIZE) % SIZE_MOD then 0 else s.mem a) ∧
      s1.pc.freeSpans = s.pc.freeSpans ∧ s1.cc = s.cc ∧ s1.tc = s.tc := by
  unfold PageCache.allocateSpan
  simp only [hmiss]
  unfold PageCache.systemAlloc
  simp only [hpend, hr, if_false]
  exact ⟨_, rfl, rfl, rfl, rfl, rfl, rfl, rfl⟩

theorem allocateSpan_miss_fail {s : State} {numPages : Nat}
    (hmiss : mapLowerBound s.pc.freeSpans numPages = none)
    (hpend : ∀ r rest, s.os.pending = r :: rest → r = 0) :
    ∃ s1, PageCache.allocateSpan s numPages = some (0, s1) ∧ s1.mem = s.mem ∧
      s1.os.mapped = s.os.mapped ∧ s1.pc = s.pc ∧ s1.cc = s.cc ∧ s1.tc = s.tc := by
  unfold PageCache.allocateSpan
  simp only [hmiss]
  unfold PageCache.systemAlloc
  cases hp : s.os.pending with
  | nil => exact ⟨s, by simp⟩
  | cons p rest =>
    have h0 : p = 0 := hpend p rest hp
    simp only [h0, if_true]
    exact ⟨_, rfl, rfl, rfl, rfl, rfl, rfl⟩

/-- Refill when the central list is empty too and the operating system refuses
the mapping: the caller gets null and no list changes. -/
theorem refill_fail (s : State) (i : Nat) (hidx : i < FREE_LIST_SIZE)
    (hC : s.cc.centralFreeList i = 0) (hpc : s.pc.freeSpans = [])
    (hpend : ∀ r rest, s.os.pending = r :: rest → r = 0) :
    ∃ s', ThreadCache.fetchFromCentralCache s i = some (0, s') ∧ s'.mem = s.mem ∧
      s'.tc = s.tc ∧ s'.cc = s.cc ∧ s'.pc = s.pc ∧ s'.os.mapped = s.os.mapped := by
  have hmiss : ∀ k, mapLowerBound s.pc.freeSpans k = none := by
    intro k; rw [hpc]; rfl
  have hb := getBatchNum_pos ((i + 1) * ALIGNMENT)
  have hg : ¬ (i ≥ FREE_LIST_SIZE ∨ ThreadCache.getBatchNum ((i + 1) * ALIGNMENT) = 0) := by omega
  have key : ∃ s1, CentralCache.fetchFromPageCache s ((i + 1) * ALIGNMENT) = some (0, s1) ∧
      s1.mem = s.mem ∧ s1.os.mapped = s.os.mapped ∧ s1.pc = s.pc ∧ s1.cc = s.cc ∧ s1.tc = s.tc := by
    unfold CentralCache.fetchFromPageCache
    dsimp only
    split
    · exact allocateSpan_miss_fail (hmiss _) hpend
    · exact allocateSpan_miss_fail (hmiss _) hpend
  obtain ⟨s1, e1, f1, f2, f3, f4, f5⟩ := key
  unfold ThreadCache.fetchFromCentralCache CentralCache.fetchRange
  simp only [hg, if_false, hC, if_true, e1]
  exact ⟨s1, rfl, f1, f5, f4, f3, f2⟩

/-- Refill when the central list is empty too and the operating system maps a
span at `r`: the caller gets the first block; the rest of the batch becomes the
thread-cache list and the remaining blocks of the span the central list. Only
words inside the new mapping change. -/
theorem refill_span (s : State) (i r : Nat) (rest : List Nat) (hidx : i < FREE_LIST_SIZE)
    (hT : s.tc.freeList i = 0) (hC : s.cc.centralFreeList i = 0) (hpc : s.pc.freeSpans = [])
    (hpend : s.os.pending = r :: rest) (hr : r ≠ 0) :
    ∃ s' len, ThreadCache.fetchFromCentralCache s i = some (r, s') ∧
      IsChain s'.mem (s'.tc.freeList i)
        (blocks r ((i + 1) * ALIGNMENT) 1
          (min (ThreadCache.getBatchNum ((i + 1) * ALIGNMENT))
            (SPAN_PAGES * PAGE_SIZE / ((i + 1) * ALIGNMENT)) - 1)) ∧
      IsChain s'.mem (s'.cc.centralFreeList i)
        (blocks r ((i + 1) * ALIGNMENT)
          (min (ThreadCache.getBatchNum ((i + 1) * ALIGNMENT))
            (SPAN_PAGES * PAGE_SIZE / ((i + 1) * ALIGNMENT)))
          (SPAN_PAGES * PAGE_SIZE / ((i + 1) * ALIGNMENT)
            - min (ThreadCache.getBatchNum ((i + 1) * ALIGNMENT))
                (SPAN_PAGES * PAGE_SIZE / ((i + 1) * ALIGNMENT)))) ∧
      s'.tc.freeListSize i
        = (s.tc.freeListSize i + ThreadCache.getBatchNum ((i + 1) * ALIGNMENT)) % SIZE_MOD ∧
      (∀ a, (a < r ∨ r + len ≤ a) → s'.mem a = s.mem a) ∧
      (∀ j, j ≠ i →
        s'.tc.freeList j = s.tc.freeList j ∧ s'.tc.freeListSize j = s.tc.freeListSize j ∧
        s'.cc.centralFreeList j = s.cc.centralFreeList j) ∧
      s'.os.mapped = (r, len) :: s.os.mapped ∧ s'.os.pending = rest ∧ s'.pc.freeSpans = [] ∧
      (i + 1) * ALIGNMENT ≤ len ∧
      SPAN_PAGES * PAGE_SIZE / ((i + 1) * ALIGNMENT) * ((i + 1) * ALIGNMENT) ≤ len := by
  have hA : ALIGNMENT = 8 := rfl
  have hF : FREE_LIST_SIZE = 32768 := rfl
  have hP : SPAN_PAGES * PAGE_SIZE = 32768 := rfl
  have hmiss : ∀ k, mapLowerBound s.pc.freeSpans k = none := by
    intro k; rw [hpc]; rfl
  generalize hbv : ThreadCache.getBatchNum ((i + 1) * ALIGNMENT) = b
  have hb : 1 ≤ b := by rw [← hbv]; exact getBatchNum_pos _
  have hsize0 : 0 < (i + 1) * ALIGNMENT := by rw [hA]; omega
  by_cases hsmall : (i + 1) * ALIGNMENT ≤ SPAN_PAGES * PAGE_SIZE
  · obtain ⟨s1, e1, m1, m2, m3, m4, m5, m6⟩ := allocateSpan_miss_ok (hmiss SPAN_PAGES) hpend hr
    have hlen : (SPAN_PAGES * PAGE_SIZE) % SIZE_MOD = SPAN_PAGES * PAGE_SIZE := by decide
    rw [hlen] at m1 m3
    have hpage : CentralCache.fetchFromPageCache s ((i + 1) * ALIGNMENT) = some (r, s1) := by
      unfold CentralCache.fetchFromPageCache
      simp only [hsmall, if_true]; exact e1
    obtain ⟨s2, h1, h2, h3, h4, h5, h6, h7, h8, _⟩ :=
      fetchRange_empty s s1 i b r hidx hsmall hb hC hpage hr
    have hzero : s1.mem r = 0 := by
      rw [m3]; simp only [hP]
      rw [if_pos ⟨le_refl _, by omega⟩]
    generalize htot : SPAN_PAGES * PAGE_SIZE / ((i + 1) * ALIGNMENT) = total at *
    have htotal : 1 ≤ total := by
      rw [← htot]; exact (Nat.one_le_div_iff hsize0).2 hsmall
    have hts : total * ((i + 1) * ALIGNMENT) ≤ SPAN_PAGES * PAGE_SIZE := by
      rw [← htot]; exact Nat.div_mul_le_self _ _
    have hchain : IsChain s2.mem r (blocks r ((i + 1) * ALIGNMENT) 0 (min b total)) := by
      by_cases h' : 1 < min b total
      · simpa only [h', if_true] using h2
      · simpa only [h', if_false, hzero] using h2
    have hal : 1 ≤ min b total := le_min hb htotal
    have htail : IsChain s2.mem (s2.mem r) (blocks r ((i + 1) * ALIGNMENT) 1 (min b total - 1)) := by
      have e : min b total = (min b total - 1) + 1 := by omega
      rw [e, blocks_succ] at hchain
      simpa only [Nat.zero_mul, Nat.add_zero, Nat.zero_add] using hchain.2.2
    have hframe : ∀ a, (a < r ∨ r + SPAN_PAGES * PAGE_SIZE ≤ a) → s2.mem a = s.mem a := by
      intro a ha
      rw [h4 a (by omega), m3]
      have : ¬ (r ≤ a ∧ a < r + SPAN_PAGES * PAGE_SIZE) := by omega
      simp only [this, if_false]
    unfold ThreadCache.fetchFromCentralCache
    simp only [hbv, h1, hr, if_false]
    by_cases hb1 : b > 1
    · simp only [hb1, if_true]
      refine ⟨_, SPAN_PAGES * PAGE_SIZE, rfl, ?_, h3, ?_, hframe, ?_, ?_, ?_, ?_, hsmall, hts⟩
      · simpa only [setAt_same] using htail
      · simp only [setAt_same, h6, m6]
      · intro j hj
        simp only [setAt_other _ _ _ _ hj, h6, m6, h5 j hj, and_self]
      · rw [h7]; exact m1
      · rw [h7]; exact m2
      · rw [h8]; rw [m4]; exact hpc
    · simp only [hb1, if_false]
      have hb1' : b = 1 := by omega
      refine ⟨_, SPAN_PAGES * PAGE_SIZE, rfl, ?_, h3, ?_, hframe, ?_, ?_, ?_, ?_, hsmall, hts⟩
      · have : min b total - 1 = 0 := by omega
        rw [this, blocks_zero]
        show s2.tc.freeList i = 0
        rw [h6]; exact hT
      · simp only [setAt_same, h6, m6]
      · intro j hj
        simp only [setAt_other _ _ _ _ hj, h6, m6, h5 j hj, and_self]
      · rw [h7]; exact m1
      · rw [h7]; exact m2
      · rw [h8]; rw [m4]; exact hpc
  · have hlarge : SPAN_PAGES * PAGE_SIZE < (i + 1) * ALIGNMENT := by omega
    obtain ⟨s1, e1, m1, m2, m3, m4, m5, m6⟩ :=
      allocateSpan_miss_ok
        (hmiss ((((i + 1) * ALIGNMENT + PAGE_SIZE - 1) % SIZE_MOD) / PAGE_SIZE)) hpend hr
    have hpage : CentralCache.fetchFromPageCache s ((i + 1) * ALIGNMENT) = some (r, s1) := by
      unfold CentralCache.fetchFromPageCache
      simp only [hsmall, if_false]; exact e1
    have h1 := fetchRange_empty_large s s1 i b r hidx hlarge hb hC hpage hr
    have htot : SPAN_PAGES * PAGE_SIZE / ((i + 1) * ALIGNMENT) = 0 := Nat.div_eq_of_lt hlarge
    generalize hlen :
      ((((i + 1) * ALIGNMENT + PAGE_SIZE - 1) % SIZE_MOD) / PAGE_SIZE * PAGE_SIZE) % SIZE_MOD
        = len at *
    have hlen1 : (i + 1) * ALIGNMENT ≤ len := by
      rw [← hlen]
      simp only [hA, PAGE_SIZE, SIZE_MOD]
      omega
    have hzero : s1.mem r = 0 := by
      rw [m3]
      dsimp only
      rw [if_pos ⟨le_refl _, by omega⟩]
    have hframe : ∀ a, (a < r ∨ r + len ≤ a) → s1.mem a = s.mem a := by
      intro a ha
      rw [m3]
      have : ¬ (r ≤ a ∧ a < r + len) := by omega
      simp only [this, if_false]
    unfold ThreadCache.fetchFromCentralCache
    simp only [hbv, h1, hr, if_false, htot, Nat.min_zero, Nat.zero_sub, blocks_zero, Nat.zero_mul]
    by_cases hb1 : b > 1
    · simp only [hb1, if_true]
      refine ⟨_, len, rfl, ?_, ?_, ?_, hframe, ?_, m1, m2, ?_, hlen1, Nat.zero_le _⟩
      · simpa only [setAt_same] using hzero
      · show s1.cc.centralFreeList i = 0
        rw [m5]; exact hC
      · simp only [setAt_same, m6]
      · intro j hj
        simp only [setAt_other _ _ _ _ hj, m6, m5, and_self]
      · rw [m4]; exact hpc
    · simp only [hb1, if_false]
      refine ⟨_, len, rfl, ?_, ?_, ?_, hframe, ?_, m1, m2, ?_, hlen1, Nat.zero_le _⟩
      · show s1.tc.freeList i = 0
        rw [m6]; exact hT
      · show s1.cc.centralFreeList i = 0
        rw [m5]; exact hC
      · simp only [setAt_same, m6]
      · intro j hj
        simp only [setAt_other _ _ _ _ hj, m6, m5, and_self]
      · rw [m4]; exact hpc

/-- One `deallocate(p, n)` of a block that is on no list, on well-formed lists
`T` (thread cache) and `C` (central cache) of the class: the lists and the
counter afterwards are those of `afterReturn`. Only next-words of `p` and of
blocks of `T` are written. -/
theorem deallocate_chain (s : State) (p n : Nat) (T C : List Nat) (hn : n ≤ MAX_BYTES)
    (hp : p ≠ 0) (hT : IsChain s.mem (s.tc.freeList (SizeClass.getIndex n)) T)
    (hC : IsChain s.mem (s.cc.centralFreeList (SizeClass.getIndex n)) C)
    (hpT : p ∉ T) (hpC : p ∉ C) (hTC : ∀ a ∈ T, a ∉ C) :
    ∃ s', MemoryPool.deallocate s p n = some s' ∧
      IsChain s'.mem (s'.tc.freeList (SizeClass.getIndex n))
        (afterReturn (p :: T) C ((s.tc.freeListSize (SizeClass.getIndex n) + 1) % SIZE_MOD)).1 ∧
      IsChain s'.mem (s'.cc.centralFreeList (SizeClass.getIndex n))
        (afterReturn (p :: T) C ((s.tc.freeListSize (SizeClass.getIndex n) + 1) % SIZE_MOD)).2.1 ∧
      s'.tc.freeListSize (SizeClass.getIndex n)
        = (afterReturn (p :: T) C
            ((s.tc.freeListSize (SizeClass.getIndex n) + 1) % SIZE_MOD)).2.2 ∧
      (∀ a, a ∉ p :: T → s'.mem a = s.mem a) ∧
      (∀ j, j ≠ SizeClass.getIndex n →
        s'.tc.freeList j = s.tc.freeList j ∧ s'.tc.freeListSize j = s.tc.freeListSize j ∧
        s'.cc.centralFreeList j = s.cc.centralFreeList j) ∧
      s'.os = s.os ∧ s'.pc = s.pc ∧
      returnTriggered s p n
        = decide (THREAD_MAX_SIZE < (s.tc.freeListSize (SizeClass.getIndex n) + 1) % SIZE_MOD) := by
  have hidx := getIndex_lt n hn
  have hpush := pushBlock_chain s p n T hT hp hpT
  have hC1 : IsChain (pushBlock s p n).mem
      ((pushBlock s p n).cc.centralFreeList (SizeClass.getIndex n)) C := hC.frame _ _ hpC
  have hcnt1 : (pushBlock s p n).tc.freeListSize (SizeClass.getIndex n)
      = (s.tc.freeListSize (SizeClass.getIndex n) + 1) % SIZE_MOD := by
    simp only [pushBlock, setAt_same]
  have hframe1 : ∀ a, a ∉ p :: T → (pushBlock s p n).mem a = s.mem a := by
    intro a ha
    exact store_other _ _ _ _ (fun h => ha (by rw [h]; exact List.mem_cons_self _ _))
  have hother1 : ∀ j, j ≠ SizeClass.getIndex n →
      (pushBlock s p n).tc.freeList j = s.tc.freeList j ∧
      (pushBlock s p n).tc.freeListSize j = s.tc.freeListSize j ∧
      (pushBlock s p n).cc.centralFreeList j = s.cc.centralFreeList j := by
    intro j hj
    simp only [pushBlock, setAt_other _ _ _ _ hj, and_self]
  have htrig : returnTriggered s p n
      = decide (THREAD_MAX_SIZE < (s.tc.freeListSize (SizeClass.getIndex n) + 1) % SIZE_MOD) := by
    simp only [returnTriggered, ThreadCache.shouldReturnToCentralCache, hcnt1, hn, hp, ne_eq,
      not_false_eq_true, decide_True, Bool.true_and, gt_iff_lt]
  rw [pushBlock_eq s p n hn hp]
  generalize hcv : (s.tc.freeListSize (SizeClass.getIndex n) + 1) % SIZE_MOD = cnt at *
  by_cases htr : THREAD_MAX_SIZE < cnt
  · have hshould : ThreadCache.shouldReturnToCentralCache (pushBlock s p n) (SizeClass.getIndex n)
        = true := by
      simp [ThreadCache.shouldReturnToCentralCache, hcnt1, htr]
    simp only [hshould, if_true]
    have h64 : (64 : Nat) < cnt := htr
    obtain ⟨s', e1, r1, r2, r3, r4, r5, r6⟩ :=
      returnToCentralCache_chain (pushBlock s p n) n (p :: T) C hidx hpush (by simp) hC1
        (by
          intro a ha
          rcases List.mem_cons.1 ha with rfl | ha
          · exact hpC
          · exact hTC a ha)
        (by rw [hcnt1]; omega)
    rw [hcnt1] at r1 r2
    refine ⟨s', e1, ?_, ?_, ?_, fun a ha => (r3 a ha).trans (hframe1 a ha), ?_,
      r5.trans rfl, r6.trans rfl, htrig⟩
    · unfold afterReturn keepOf
      by_cases hk : max (cnt / 4) 1 ≤ (p :: T).length
      · simp only [htr, hk, and_self, if_true]
        exact (r2 hk).1
      · simp only [hk, and_false, if_false]
        rw [r1 (by omega)]; exact hpush
    · unfold afterReturn keepOf
      by_cases hk : max (cnt / 4) 1 ≤ (p :: T).length
      · simp only [htr, hk, and_self, if_true]
        exact (r2 hk).2.2
      · simp only [hk, and_false, if_false]
        rw [r1 (by omega)]; exact hC1
    · unfold afterReturn keepOf
      by_cases hk : max (cnt / 4) 1 ≤ (p :: T).length
      · simp only [htr, hk, and_self, if_true]
        exact (r2 hk).2.1
      · simp only [hk, and_false, if_false]
        rw [r1 (by omega)]; exact hcnt1
    · intro j hj
      obtain ⟨a1, a2, a3⟩ := r4 j hj
      obtain ⟨b1, b2, b3⟩ := hother1 j hj
      exact ⟨a1.trans b1, a2.trans b2, a3.trans b3⟩
  · have hshould : ThreadCache.shouldReturnToCentralCache (pushBlock s p n) (SizeClass.getIndex n)
        = false := by
      simp [ThreadCache.shouldReturnToCentralCache, hcnt1, htr]
    simp only [hshould, Bool.false_eq_true, if_false]
    have haft : afterReturn (p :: T) C cnt = (p :: T, C, cnt) := by
      unfold afterReturn
      simp only [htr, false_and, if_false]
    rw [haft]
    exact ⟨_, rfl, hpush, hC1, hcnt1, hframe1, hother1, rfl, rfl, htrig⟩

/-! ## The ownership invariant -/

theorem blockSize_pos (i : Nat) : 0 < blockSize i := by
  simp [blockSize, ALIGNMENT]

theorem BlockDisj.symm {x y : Nat × Nat} (h : BlockDisj x y) : BlockDisj y x := Or.symm h

theorem BlockDisj.addr_ne {x y : Nat × Nat} (h : BlockDisj x y) : x.1 ≠ y.1 := by
  have hx := blockSize_pos x.2
  have hy := blockSize_pos y.2
  unfold BlockDisj at h
  omega

theorem allFree_perm (T C : Nat → List Nat) (i : Nat) (hi : i < FREE_LIST_SIZE) :
    (allFree T C).Perm (classBlocks T C i ++ restFree T C i) := by
  unfold allFree restFree
  have h : (List.range FREE_LIST_SIZE).Perm (i :: (List.range FREE_LIST_SIZE).erase i) :=
    List.perm_cons_erase (List.mem_range.2 hi)
  exact (h.flatMap_right _).trans (by rw [List.flatMap_cons])

theorem mem_restFree {T C : Nat → List Nat} {i j : Nat} {y : Nat × Nat}
    (hj : j < FREE_LIST_SIZE) (hji : j ≠ i) (hy : y ∈ classBlocks T C j) :
    y ∈ restFree T C i := by
  unfold restFree
  exact List.mem_flatMap.2
    ⟨j, (List.Nodup.mem_erase_iff (List.nodup_range _)).2 ⟨hji, List.mem_range.2 hj⟩, hy⟩

theorem restFree_update (T C : Nat → List Nat) (i : Nat) (Ti Ci : List Nat) :
    restFree (Function.update T i Ti) (Function.update C i Ci) i = restFree T C i := by
  unfold restFree
  apply List.flatMap_congr
  intro j hj
  have hji : j ≠ i := ((List.Nodup.mem_erase_iff (List.nodup_range _)).1 hj).1
  simp [classBlocks, Function.update_noteq hji]

theorem classBlocks_update (T C : Nat → List Nat) (i : Nat) (Ti Ci : List Nat) :
    classBlocks (Function.update T i Ti) (Function.update C i Ci) i
      = (Ti ++ Ci).map (fun a => (a, i)) := by
  simp [classBlocks]

/-- The invariant seen from class `i`: the live blocks and the free blocks of
class `i` first, the free blocks of the other classes behind them. -/
theorem Inv.sep_local {s : State} {live : List (Nat × Nat)} {T C : Nat → List Nat}
    (hinv : Inv s live T C) (i : Nat) (hi : i < FREE_LIST_SIZE) :
    ((liveBlocks live ++ classBlocks T C i) ++ restFree T C i).Pairwise BlockDisj := by
  have hp : (liveBlocks live ++ allFree T C).Perm
      ((liveBlocks live ++ classBlocks T C i) ++ restFree T C i) := by
    rw [List.append_assoc]
    exact (allFree_perm T C i hi).append_left _
  exact (hp.pairwise_iff (fun h => BlockDisj.symm h)).1 hinv.sep

theorem Inv.mem_all {s : State} {live : List (Nat × Nat)} {T C : Nat → List Nat}
    (_hinv : Inv s live T C) (i : Nat) (hi : i < FREE_LIST_SIZE) {b : Nat × Nat}
    (hb : b ∈ (liveBlocks live ++ classBlocks T C i) ++ restFree T C i) :
    b ∈ liveBlocks live ++ allFree T C := by
  have hp : (liveBlocks live ++ allFree T C).Perm
      ((liveBlocks live ++ classBlocks T C i) ++ restFree T C i) := by
    rw [List.append_assoc]
    exact (allFree_perm T C i hi).append_left _
  exact hp.symm.subset hb

/-- A block that is live or free in class `i` has an address different from
that of every free block of another class. -/
theorem Inv.other_class_ne {s : State} {live : List (Nat × Nat)} {T C : Nat → List Nat}
    (hinv : Inv s live T C) (i : Nat) (hi : i < FREE_LIST_SIZE) {x : Nat × Nat}
    (hx : x ∈ liveBlocks live ++ classBlocks T C i) {j a : Nat} (hji : j ≠ i)
    (ha : a ∈ T j ++ C j) : x.1 ≠ a := by
  by_cases hj : j < FREE_LIST_SIZE
  · have hmem : (a, j) ∈ restFree T C i :=
      mem_restFree hj hji (List.mem_map.2 ⟨a, ha, rfl⟩)
    exact ((List.pairwise_append.1 (hinv.sep_local i hi)).2.2 x hx _ hmem).addr_ne
  · obtain ⟨h1, h2⟩ := hinv.high j (by omega)
    rw [h1, h2] at ha
    simp at ha

/-- Re-establishing the invariant after a call that only touched class `i`. -/
theorem Inv.rebuild {s s' : State} {live live' : List (Nat × Nat)} {T C : Nat → List Nat}
    (hinv : Inv s live T C) (i : Nat) (hi : i < FREE_LIST_SIZE) (Ti Ci : List Nat)
    (h1 : s'.pc.freeSpans = [])
    (h2 : IsChain s'.mem (s'.tc.freeList i) Ti)
    (h2' : IsChain s'.mem (s'.cc.centralFreeList i) Ci)
    (h3 : ∀ j, j ≠ i → s'.tc.freeList j = s.tc.freeList j ∧
      s'.cc.centralFreeList j = s.cc.centralFreeList j)
    (h4 : ∀ j, j ≠ i → ∀ a ∈ T j ++ C j, s'.mem a = s.mem a)
    (h5 : ∀ x ∈ live', x.2 ≤ MAX_BYTES)
    (h6 : ((liveBlocks live' ++ (Ti ++ Ci).map (fun a => (a, i))) ++ restFree T C i).Pairwise
      BlockDisj)
    (h7 : ∀ b ∈ liveBlocks live' ++ (Ti ++ Ci).map (fun a => (a, i)),
      b.1 ≠ 0 ∧ ∃ r ∈ s'.os.mapped, InRegion b r)
    (h8 : ∀ r ∈ s.os.mapped, r ∈ s'.os.mapped) :
    Inv s' live' (Function.update T i Ti) (Function.update C i Ci) := by
  have hp : (liveBlocks live' ++ allFree (Function.update T i Ti) (Function.update C i Ci)).Perm
      ((liveBlocks live' ++ (Ti ++ Ci).map (fun a => (a, i))) ++ restFree T C i) := by
    rw [List.append_assoc, ← restFree_update T C i Ti Ci, ← classBlocks_update T C i Ti Ci]
    exact (allFree_perm _ _ i hi).append_left _
  refine ⟨h1, ?_, ?_, ?_, h5, (hp.pairwise_iff (fun h => BlockDisj.symm h)).2 h6, ?_⟩
  · intro j
    by_cases hji : j = i
    · subst hji; simpa using h2
    · rw [Function.update_noteq hji, (h3 j hji).1]
      exact (hinv.tchain j).congr (fun a ha => h4 j hji a (List.mem_append_left _ ha))
  · intro j
    by_cases hji : j = i
    · subst hji; simpa using h2'
    · rw [Function.update_noteq hji, (h3 j hji).2]
      exact (hinv.cchain j).congr (fun a ha => h4 j hji a (List.mem_append_right _ ha))
  · intro j hj
    have hji : j ≠ i := by omega
    rw [Function.update_noteq hji, Function.update_noteq hji]
    exact hinv.high j hj
  · intro b hb
    have hb' := hp.subset hb
    rcases List.mem_append.1 hb' with hb1 | hb2
    · exact h7 b hb1
    · obtain ⟨n0, r, hr, hin⟩ :=
        hinv.inside b (hinv.mem_all i hi (List.mem_append_right _ hb2))
      exact ⟨n0, r, h8 r hr, hin⟩

/-- The invariant survives when the blocks of class `i` and the live blocks are
rearranged among themselves, some possibly dropped. -/
theorem Inv.rebuild_subperm {s s' : State} {live live' : List (Nat × Nat)} {T C : Nat → List Nat}
    (hinv : Inv s live T C) (i : Nat) (hi : i < FREE_LIST_SIZE) (Ti Ci : List Nat)
    (h1 : s'.pc.freeSpans = [])
    (h2 : IsChain s'.mem (s'.tc.freeList i) Ti)
    (h2' : IsChain s'.mem (s'.cc.centralFreeList i) Ci)
    (h3 : ∀ j, j ≠ i → s'.tc.freeList j = s.tc.freeList j ∧
      s'.cc.centralFreeList j = s.cc.centralFreeList j)
    (h4 : ∀ j, j ≠ i → ∀ a ∈ T j ++ C j, s'.mem a = s.mem a)
    (h5 : ∀ x ∈ live', x.2 ≤ MAX_BYTES)
    (h6 : (liveBlocks live' ++ (Ti ++ Ci).map (fun a => (a, i))).Subperm
      (liveBlocks live ++ classBlocks T C i))
    (h8 : ∀ r ∈ s.os.mapped, r ∈ s'.os.mapped) :
    Inv s' live' (Function.update T i Ti) (Function.update C i Ci) := by
  have hloc := hinv.sep_local i hi
  obtain ⟨l, hlperm, hlsub⟩ := h6
  obtain ⟨p1, p2, p3⟩ := List.pairwise_append.1 hloc
  refine hinv.rebuild i hi Ti Ci h1 h2 h2' h3 h4 h5 ?_ ?_ h8
  · refine List.pairwise_append.2 ⟨?_, p2, ?_⟩
    · exact (hlperm.pairwise_iff (fun h => BlockDisj.symm h)).1 (p1.sublist hlsub)
    · intro a ha b hb
      exact p3 a (hlsub.subset (hlperm.symm.subset ha)) b hb
  · intro b hb
    have hb' : b ∈ liveBlocks live ++ classBlocks T C i := hlsub.subset (hlperm.symm.subset hb)
    obtain ⟨n0, r, hr, hin⟩ :=
      hinv.inside b (hinv.mem_all i hi (List.mem_append_left _ hb'))
    exact ⟨n0, r, h8 r hr, hin⟩


/-! ## The invariant is kept by `allocate`, `deallocate` and client writes -/

theorem liveBlocks_cons (p n : Nat) (live : List (Nat × Nat)) :
    liveBlocks ((p, n) :: live) = (p, SizeClass.getIndex n) :: liveBlocks live := rfl

theorem Inv.alloc_pop {s : State} {live : List (Nat × Nat)} {T C : Nat → List Nat}
    (hinv : Inv s live T C) (n : Nat) (hn : n ≤ MAX_BYTES) (x : Nat) (xs : List Nat)
    (hTi : T (SizeClass.getIndex n) = x :: xs) :
    ∃ p s', MemoryPool.allocate s n = some (p, s') ∧ AllocPost s live T C n p s' := by
  have hi := getIndex_lt n hn
  have hch := hinv.tchain (SizeClass.getIndex n)
  rw [hTi] at hch
  obtain ⟨heq, htail⟩ := allocate_pop s n x xs hn hch
  have hx0 : x ≠ 0 := hch.2.1
  refine ⟨x, _, heq, Or.inl rfl, fun _ => hx0, fun _ => ?_⟩
  refine ⟨xs, C (SizeClass.getIndex n), ?_, ?_, ?_⟩
  · simp only [hx0, if_false]
    refine hinv.rebuild_subperm _ hi xs _ hinv.noFree ?_ (hinv.cchain _) ?_ ?_ ?_ ?_
      (fun r hr => hr)
    · simpa only [setAt_same] using htail
    · intro j hj
      exact ⟨setAt_other _ _ _ _ hj, rfl⟩
    · intro j _ a _; rfl
    · intro y hy
      rcases List.mem_cons.1 hy with rfl | hy
      · exact hn
      · exact hinv.small y hy
    · rw [liveBlocks_cons, classBlocks, hTi]
      simp only [List.cons_append, List.map_cons]
      exact List.perm_middle.symm.subperm
  · intro j hj
    exact setAt_other _ _ _ _ hj
  · intro _
    simp only [setAt_same, absAlloc, hTi, List.length_cons, Nat.succ_pos, Nat.zero_lt_succ,
      if_true, Nat.add_sub_cancel]


theorem head_tail_take_drop (ys : List Nat) (b : Nat) (hne : ys ≠ []) (hb : 1 ≤ b) :
    ys.headD 0 :: ((ys.take b).tail ++ ys.drop b) = ys := by
  cases ys with
  | nil => exact absurd rfl hne
  | cons y rest =>
    obtain ⟨c, rfl⟩ : ∃ c, b = c + 1 := ⟨b - 1, by omega⟩
    simp

theorem Inv.alloc_central {s : State} {live : List (Nat × Nat)} {T C : Nat → List Nat}
    (hinv : Inv s live T C) (n : Nat) (hn : n ≤ MAX_BYTES)
    (hTi : T (SizeClass.getIndex n) = []) (hCi : C (SizeClass.getIndex n) ≠ []) :
    ∃ p s', MemoryPool.allocate s n = some (p, s') ∧ AllocPost s live T C n p s' := by
  have hi := getIndex_lt n hn
  have hT0 : s.tc.freeList (SizeClass.getIndex n) = 0 := by
    have := hinv.tchain (SizeClass.getIndex n)
    rw [hTi] at this
    exact this
  have hb := getBatchNum_pos ((SizeClass.getIndex n + 1) * ALIGNMENT)
  obtain ⟨s', e1, hp0, c1, c2, hcnt, hframe, hother, hos, hpc⟩ :=
    refill_central
      { s with tc :=
        { freeList := s.tc.freeList,
          freeListSize := setAt s.tc.freeListSize (SizeClass.getIndex n)
            ((s.tc.freeListSize (SizeClass.getIndex n) + SIZE_MOD - 1) % SIZE_MOD) } }
      (SizeClass.getIndex n) (C (SizeClass.getIndex n)) hi hCi hT0
      (hinv.cchain (SizeClass.getIndex n))
  refine ⟨_, s', (allocate_refill s n hn hT0).trans e1, Or.inl (by rw [hos]), fun _ => hp0,
    fun _ => ?_⟩
  refine ⟨((C (SizeClass.getIndex n)).take
      (ThreadCache.getBatchNum ((SizeClass.getIndex n + 1) * ALIGNMENT))).tail,
    (C (SizeClass.getIndex n)).drop
      (ThreadCache.getBatchNum ((SizeClass.getIndex n + 1) * ALIGNMENT)), ?_, ?_, ?_⟩
  · simp only [hp0, if_false]
    refine hinv.rebuild_subperm _ hi _ _ (by rw [hpc]; exact hinv.noFree) c1 c2 ?_ ?_ ?_ ?_ ?_
    · intro j hj
      exact ⟨(hother j hj).1, (hother j hj).2.2⟩
    · intro j hj a ha
      refine hframe a (fun hmem => ?_)
      have hx : (a, SizeClass.getIndex n) ∈ liveBlocks live ++ classBlocks T C (SizeClass.getIndex n) :=
        List.mem_append_right _
          (List.mem_map.2 ⟨a, List.mem_append_right _ hmem, rfl⟩)
      exact hinv.other_class_ne _ hi hx hj ha rfl
    · intro y hy
      rcases List.mem_cons.1 hy with rfl | hy
      · exact hn
      · exact hinv.small y hy
    · rw [liveBlocks_cons, classBlocks, hTi, List.nil_append]
      have e := head_tail_take_drop (C (SizeClass.getIndex n))
        (ThreadCache.getBatchNum ((SizeClass.getIndex n + 1) * ALIGNMENT)) hCi hb
      have hperm : List.Perm
          (liveBlocks live ++ List.map (fun a => (a, SizeClass.getIndex n))
            (C (SizeClass.getIndex n)))
          (((C (SizeClass.getIndex n)).headD 0, SizeClass.getIndex n) ::
            (liveBlocks live ++ List.map (fun a => (a, SizeClass.getIndex n))
              ((List.take (ThreadCache.getBatchNum ((SizeClass.getIndex n + 1) * ALIGNMENT))
                  (C (SizeClass.getIndex n))).tail ++
                List.drop (ThreadCache.getBatchNum ((SizeClass.getIndex n + 1) * ALIGNMENT))
                  (C (SizeClass.getIndex n))))) := by
        conv_lhs => rw [← e]
        rw [List.map_cons]
        exact List.perm_middle
      exact hperm.symm.subperm
    · intro r hr; rw [hos]; exact hr
  · intro j hj
    rw [(hother j hj).2.1]
    exact setAt_other _ _ _ _ hj
  · intro _
    have hlen : 0 < (C (SizeClass.getIndex n)).length := List.length_pos.2 hCi
    simp only [absAlloc, hTi, List.length_nil, Nat.lt_irrefl, if_false, hlen, if_true, hcnt,
      setAt_same, List.length_tail, List.length_take, List.length_drop, Counts.mk.injEq,
      true_and, and_true]
    omega


/-- Adding new blocks: if the old blocks `A ++ B` are pairwise related, the new
ones `n0 :: N` are too, and every new block is related to every old one, then
the new blocks can be put in front of and after `A`. -/
theorem pairwise_insert_new {R : Nat × Nat → Nat × Nat → Prop} (hsymm : ∀ {x y}, R x y → R y x)
    {A B N : List (Nat × Nat)} {n0 : Nat × Nat}
    (hold : (A ++ B).Pairwise R) (hnew : (n0 :: N).Pairwise R)
    (hcross : ∀ x ∈ n0 :: N, ∀ y ∈ A ++ B, R x y) :
    (((n0 :: A) ++ N) ++ B).Pairwise R := by
  have hperm : List.Perm ((n0 :: N) ++ (A ++ B)) (((n0 :: A) ++ N) ++ B) := by
    simp only [List.cons_append, List.append_assoc]
    refine List.Perm.cons _ ?_
    rw [← List.append_assoc, ← List.append_assoc]
    exact List.perm_append_comm.append_right B
  exact (hperm.pairwise_iff hsymm).1 (List.pairwise_append.2 ⟨hnew, hold, hcross⟩)

/-- The blocks cut from a span at `r`, the first one included: they are spaced
by the block size and stay below `r + total * size` (or are the single block at
`r` when the span holds no whole number of blocks). -/
theorem new_blocks_layout (r size b total : Nat) (hsize : 0 < size) (hb : 1 ≤ b) :
    (r :: (blocks r size 1 (min b total - 1)
        ++ blocks r size (min b total) (total - min b total))).Pairwise
      (fun x y => x + size ≤ y) ∧
    ∀ a ∈ r :: (blocks r size 1 (min b total - 1)
        ++ blocks r size (min b total) (total - min b total)),
      r ≤ a ∧ a + size ≤ r + max 1 total * size := by
  by_cases ht : total = 0
  · subst ht
    simp only [Nat.min_zero, Nat.zero_sub, blocks_zero, List.append_nil, List.pairwise_cons,
      List.not_mem_nil, false_implies, implies_true, List.Pairwise.nil, and_self,
      List.mem_singleton, forall_eq, le_refl, true_and]
    simp
  · have hal : 1 ≤ min b total := le_min hb (by omega)
    have hall : r :: (blocks r size 1 (min b total - 1)
        ++ blocks r size (min b total) (total - min b total)) = blocks r size 0 total := by
      have h1 := blocks_append r size 1 (min b total - 1) (total - min b total)
      rw [show min b total - 1 + (total - min b total) = total - 1 by omega,
        show 1 + (min b total - 1) = min b total by omega] at h1
      rw [← h1]
      have h2 := blocks_succ r size 0 (total - 1)
      rw [show total - 1 + 1 = total by omega, Nat.zero_mul, Nat.add_zero] at h2
      exact h2.symm
    rw [hall]
    refine ⟨blocks_pairwise r size hsize total 0, ?_⟩
    intro a ha
    obtain ⟨k, _, hk, rfl⟩ := mem_blocks.1 ha
    have hk1 : (k + 1) * size ≤ total * size := Nat.mul_le_mul_right _ (by omega)
    rw [Nat.add_mul, Nat.one_mul] at hk1
    rw [show max 1 total = total by omega]
    omega

theorem Inv.alloc_span {s : State} {live : List (Nat × Nat)} {T C : Nat → List Nat}
    (hinv : Inv s live T C) (n : Nat) (hn : n ≤ MAX_BYTES)
    (hTi : T (SizeClass.getIndex n) = []) (hCi : C (SizeClass.getIndex n) = [])
    (r : Nat) (rest : List Nat) (hpend : s.os.pending = r :: rest) (hr : r ≠ 0) :
    ∃ p s', MemoryPool.allocate s n = some (p, s') ∧ AllocPost s live T C n p s' := by
  have hi := getIndex_lt n hn
  have hT0 : s.tc.freeList (SizeClass.getIndex n) = 0 := by
    have := hinv.tchain (SizeClass.getIndex n)
    rw [hTi] at this
    exact this
  have hC0 : s.cc.centralFreeList (SizeClass.getIndex n) = 0 := by
    have := hinv.cchain (SizeClass.getIndex n)
    rw [hCi] at this
    exact this
  have hb := getBatchNum_pos ((SizeClass.getIndex n + 1) * ALIGNMENT)
  have hsize0 : 0 < (SizeClass.getIndex n + 1) * ALIGNMENT := by simp [ALIGNMENT]
  obtain ⟨s', len, e1, c1, c2, hcnt, hframe, hother, hmapped, _, hpc, hsl, htl⟩ :=
    refill_span
      { s with tc :=
        { freeList := s.tc.freeList,
          freeListSize := setAt s.tc.freeListSize (SizeClass.getIndex n)
            ((s.tc.freeListSize (SizeClass.getIndex n) + SIZE_MOD - 1) % SIZE_MOD) } }
      (SizeClass.getIndex n) r rest hi hT0 hC0 hinv.noFree hpend hr
  have hmapped' : s'.os.mapped = (r, len) :: s.os.mapped := hmapped
  refine ⟨r, s', (allocate_refill s n hn hT0).trans e1, Or.inr ⟨hTi, hCi, _, hmapped'⟩,
    fun _ => hr, fun hos => ?_⟩
  rw [OsDisjoint, hmapped', List.pairwise_cons] at hos
  obtain ⟨hnewreg, _⟩ := hos
  obtain ⟨hpw, hin⟩ := new_blocks_layout r ((SizeClass.getIndex n + 1) * ALIGNMENT)
    (ThreadCache.getBatchNum ((SizeClass.getIndex n + 1) * ALIGNMENT))
    (SPAN_PAGES * PAGE_SIZE / ((SizeClass.getIndex n + 1) * ALIGNMENT)) hsize0 hb
  generalize hTi' : blocks r ((SizeClass.getIndex n + 1) * ALIGNMENT) 1
      (min (ThreadCache.getBatchNum ((SizeClass.getIndex n + 1) * ALIGNMENT))
        (SPAN_PAGES * PAGE_SIZE / ((SizeClass.getIndex n + 1) * ALIGNMENT)) - 1) = Ti at *
  generalize hCi' : blocks r ((SizeClass.getIndex n + 1) * ALIGNMENT)
      (min (ThreadCache.getBatchNum ((SizeClass.getIndex n + 1) * ALIGNMENT))
        (SPAN_PAGES * PAGE_SIZE / ((SizeClass.getIndex n + 1) * ALIGNMENT)))
      (SPAN_PAGES * PAGE_SIZE / ((SizeClass.getIndex n + 1) * ALIGNMENT)
        - min (ThreadCache.getBatchNum ((SizeClass.getIndex n + 1) * ALIGNMENT))
            (SPAN_PAGES * PAGE_SIZE / ((SizeClass.getIndex n + 1) * ALIGNMENT))) = Ci at *
  -- every new block lies inside the new mapping
  have hlenmax : max 1 (SPAN_PAGES * PAGE_SIZE / ((SizeClass.getIndex n + 1) * ALIGNMENT))
      * ((SizeClass.getIndex n + 1) * ALIGNMENT) ≤ len := by
    rcases Nat.le_total 1 (SPAN_PAGES * PAGE_SIZE / ((SizeClass.getIndex n + 1) * ALIGNMENT))
      with h | h
    · rw [max_eq_right h]; exact htl
    · rw [max_eq_left h, Nat.one_mul]; exact hsl
  have hnewin : ∀ x ∈ (r, SizeClass.getIndex n) :: (Ti ++ Ci).map (fun a => (a, SizeClass.getIndex n)),
      InRegion x (r, len) ∧ x.1 ≠ 0 := by
    intro x hx
    have hx' : x.2 = SizeClass.getIndex n ∧ x.1 ∈ r :: (Ti ++ Ci) := by
      rcases List.mem_cons.1 hx with rfl | hx
      · exact ⟨rfl, List.mem_cons_self _ _⟩
      · obtain ⟨a, ha, rfl⟩ := List.mem_map.1 hx
        exact ⟨rfl, List.mem_cons_of_mem _ ha⟩
    obtain ⟨g1, g2⟩ := hin x.1 hx'.2
    refine ⟨⟨g1, ?_⟩, by omega⟩
    rw [hx'.1]
    show x.1 + (SizeClass.getIndex n + 1) * ALIGNMENT ≤ r + len
    omega
  -- every old block lies inside an old mapping, away from the new one
  have hcross : ∀ x ∈ (r, SizeClass.getIndex n) :: (Ti ++ Ci).map (fun a => (a, SizeClass.getIndex n)),
      ∀ y ∈ liveBlocks live ++ allFree T C, BlockDisj x y := by
    intro x hx y hy
    obtain ⟨⟨g1, g2⟩, _⟩ := hnewin x hx
    obtain ⟨_, reg, hreg, k1, k2⟩ := hinv.inside y hy
    have hd := hnewreg reg hreg
    have hy0 := blockSize_pos y.2
    have hx0 := blockSize_pos x.2
    simp only at g1 g2 hd
    unfold BlockDisj
    omega
  have hnewpw : ((r, SizeClass.getIndex n) ::
      (Ti ++ Ci).map (fun a => (a, SizeClass.getIndex n))).Pairwise BlockDisj := by
    have : ((r :: (Ti ++ Ci)).map (fun a => (a, SizeClass.getIndex n))).Pairwise BlockDisj := by
      rw [List.pairwise_map]
      exact hpw.imp (fun h => Or.inl h)
    simpa only [List.map_cons] using this
  have hloc := hinv.sep_local _ hi
  have hcb : classBlocks T C (SizeClass.getIndex n) = [] := by
    simp [classBlocks, hTi, hCi]
  rw [hcb, List.append_nil] at hloc
  have hsubset : ∀ y ∈ liveBlocks live ++ restFree T C (SizeClass.getIndex n),
      y ∈ liveBlocks live ++ allFree T C := by
    intro y hy
    refine hinv.mem_all _ hi ?_
    rcases List.mem_append.1 hy with h | h
    · exact List.mem_append_left _ (List.mem_append_left _ h)
    · exact List.mem_append_right _ h
  refine ⟨Ti, Ci, ?_, ?_, ?_⟩
  · simp only [hr, if_false]
    refine hinv.rebuild _ hi Ti Ci hpc c1 c2 ?_ ?_ ?_ ?_ ?_ ?_
    · intro j hj
      exact ⟨(hother j hj).1, (hother j hj).2.2⟩
    · intro j hj a ha
      by_cases hjF : j < FREE_LIST_SIZE
      · have hmem : (a, j) ∈ liveBlocks live ++ allFree T C :=
          hsubset _ (List.mem_append_right _
            (mem_restFree hjF hj (List.mem_map.2 ⟨a, ha, rfl⟩)))
        obtain ⟨_, reg, hreg, k1, k2⟩ := hinv.inside _ hmem
        have hd := hnewreg reg hreg
        have hy0 := blockSize_pos j
        simp only at k1 k2 hd
        exact hframe a (by omega)
      · obtain ⟨z1, z2⟩ := hinv.high j (by omega)
        rw [z1, z2] at ha
        simp at ha
    · intro y hy
      rcases List.mem_cons.1 hy with rfl | hy
      · exact hn
      · exact hinv.small y hy
    · rw [liveBlocks_cons]
      exact pairwise_insert_new (fun h => BlockDisj.symm h) hloc hnewpw
        (fun x hx y hy => hcross x hx y (hsubset y hy))
    · intro x hx
      rw [liveBlocks_cons] at hx
      have hx' : x ∈ (r, SizeClass.getIndex n) ::
          (Ti ++ Ci).map (fun a => (a, SizeClass.getIndex n)) ∨ x ∈ liveBlocks live := by
        simp only [List.cons_append, List.mem_cons, List.mem_append] at hx ⊢
        tauto
      rcases hx' with h | h
      · obtain ⟨g1, g2⟩ := hnewin x h
        exact ⟨g2, (r, len), by rw [hmapped']; exact List.mem_cons_self _ _, g1⟩
      · obtain ⟨g1, reg, hreg, g2⟩ := hinv.inside x (List.mem_append_left _ h)
        exact ⟨g1, reg, by rw [hmapped']; exact List.mem_cons_of_mem _ hreg, g2⟩
    · intro reg hreg
      rw [hmapped']; exact List.mem_cons_of_mem _ hreg
  · intro j hj
    rw [(hother j hj).2.1]
    exact setAt_other _ _ _ _ hj
  · intro _
    simp only [absAlloc, hTi, hCi, List.length_nil, Nat.lt_irrefl, if_false, hcnt, setAt_same,
      ← hTi', ← hCi', blocks_length]

theorem Inv.alloc_fail {s : State} {live : List (Nat × Nat)} {T C : Nat → List Nat}
    (hinv : Inv s live T C) (n : Nat) (hn : n ≤ MAX_BYTES)
    (hTi : T (SizeClass.getIndex n) = []) (hCi : C (SizeClass.getIndex n) = [])
    (hpend : ∀ r rest, s.os.pending = r :: rest → r = 0) :
    ∃ p s', MemoryPool.allocate s n = some (p, s') ∧ AllocPost s live T C n p s' := by
  have hi := getIndex_lt n hn
  have hT0 : s.tc.freeList (SizeClass.getIndex n) = 0 := by
    have := hinv.tchain (SizeClass.getIndex n)
    rw [hTi] at this
    exact this
  have hC0 : s.cc.centralFreeList (SizeClass.getIndex n) = 0 := by
    have := hinv.cchain (SizeClass.getIndex n)
    rw [hCi] at this
    exact this
  obtain ⟨s', e1, f1, f2, f3, f4, f5⟩ :=
    refill_fail
      { s with tc :=
        { freeList := s.tc.freeList,
          freeListSize := setAt s.tc.freeListSize (SizeClass.getIndex n)
            ((s.tc.freeListSize (SizeClass.getIndex n) + SIZE_MOD - 1) % SIZE_MOD) } }
      (SizeClass.getIndex n) hi hC0 hinv.noFree hpend
  have f5' : s'.os.mapped = s.os.mapped := f5
  refine ⟨0, s', (allocate_refill s n hn hT0).trans e1, Or.inl f5', ?_, fun _ => ?_⟩
  · rintro (h | h | ⟨r, rest, h1, h2⟩)
    · exact absurd hTi h
    · exact absurd hCi h
    · exact absurd (hpend r rest h1) h2
  refine ⟨[], [], ?_, ?_, fun h => absurd rfl h⟩
  · simp only [if_true]
    refine hinv.rebuild_subperm _ hi [] [] (by rw [f4]; exact hinv.noFree) ?_ ?_ ?_ ?_
      hinv.small ?_ (fun r hr => by rw [f5']; exact hr)
    · show s'.tc.freeList (SizeClass.getIndex n) = 0
      rw [f2]; exact hT0
    · show s'.cc.centralFreeList (SizeClass.getIndex n) = 0
      rw [f3]; exact hC0
    · intro j _
      rw [f2, f3]; exact ⟨rfl, rfl⟩
    · intro j _ a _
      rw [f1]
    · simp only [List.append_nil, List.map_nil]
      exact (List.sublist_append_left _ _).subperm
  · intro j hj
    rw [f2]
    exact setAt_other _ _ _ _ hj

/-- The call `allocate(n)` with `n ≤ MAX_BYTES` returns in every state satisfying the
invariant, and `AllocPost` describes the state it leaves. -/
theorem Inv.allocate {s : State} {live : List (Nat × Nat)} {T C : Nat → List Nat}
    (hinv : Inv s live T C) (n : Nat) (hn : n ≤ MAX_BYTES) :
    ∃ p s', MemoryPool.allocate s n = some (p, s') ∧ AllocPost s live T C n p s' := by
  cases hTi : T (SizeClass.getIndex n) with
  | cons x xs => exact hinv.alloc_pop n hn x xs hTi
  | nil =>
    by_cases hCi : C (SizeClass.getIndex n) = []
    · cases hp : s.os.pending with
      | nil => exact hinv.alloc_fail n hn hTi hCi (fun r rest h => by rw [hp] at h; cases h)
      | cons r rest =>
        by_cases hr : r = 0
        · refine hinv.alloc_fail n hn hTi hCi (fun r' rest' h => ?_)
          rw [hp] at h
          cases h
          exact hr
        · exact hinv.alloc_span n hn hTi hCi r rest hp hr
    · exact hinv.alloc_central n hn hTi hCi


theorem perm_cons_erase_pair {x : Nat × Nat} {l : List (Nat × Nat)} (h : x ∈ l) :
    l.Perm (x :: l.erase x) := by
  induction l with
  | nil => simp at h
  | cons y ys ih =>
    by_cases hy : y = x
    · subst hy
      rw [List.erase_cons_head]
    · have hx : x ∈ ys := by
        rcases List.mem_cons.1 h with h | h
        · exact absurd h.symm hy
        · exact h
      rw [List.erase_cons_tail (by simpa using hy)]
      exact ((ih hx).cons y).trans (List.Perm.swap _ _ _)

theorem afterReturn_sublist (L C : List Nat) (cnt : Nat) :
    ((afterReturn L C cnt).1 ++ (afterReturn L C cnt).2.1).Sublist (L ++ C) := by
  unfold afterReturn
  split
  · simp only
    rw [← List.append_assoc]
    refine List.Sublist.append ?_ (List.Sublist.refl _)
    conv_rhs => rw [← List.take_append_drop (keepOf cnt) L]
    exact List.Sublist.append (List.Sublist.refl _) (List.take_sublist _ _)
  · exact List.Sublist.refl _

/-- The lengths after `deallocate` only depend on the lengths before. -/
theorem afterReturn_lengths (L C : List Nat) (cnt : Nat) :
    Counts.mk (afterReturn L C cnt).1.length (afterReturn L C cnt).2.1.length
        (afterReturn L C cnt).2.2
      = Counts.mk
          (afterReturn (List.replicate L.length 0) (List.replicate C.length 0) cnt).1.length
          (afterReturn (List.replicate L.length 0) (List.replicate C.length 0) cnt).2.1.length
          (afterReturn (List.replicate L.length 0) (List.replicate C.length 0) cnt).2.2 := by
  unfold afterReturn
  simp only [List.length_replicate]
  split <;> simp

theorem Inv.deallocate {s : State} {live : List (Nat × Nat)} {T C : Nat → List Nat}
    (hinv : Inv s live T C) (p n : Nat) (hmem : (p, n) ∈ live) :
    ∃ s', MemoryPool.deallocate s p n = some s' ∧ s'.os = s.os ∧
      ∃ Ti Ci,
        Inv s' (live.erase (p, n)) (Function.update T (SizeClass.getIndex n) Ti)
          (Function.update C (SizeClass.getIndex n) Ci) ∧
        (∀ j, j ≠ SizeClass.getIndex n → s'.tc.freeListSize j = s.tc.freeListSize j) ∧
        Counts.mk Ti.length Ci.length (s'.tc.freeListSize (SizeClass.getIndex n))
          = absDealloc ⟨(T (SizeClass.getIndex n)).length, (C (SizeClass.getIndex n)).length,
              s.tc.freeListSize (SizeClass.getIndex n)⟩ ∧
        returnTriggered s p n
          = decide (THREAD_MAX_SIZE
              < (s.tc.freeListSize (SizeClass.getIndex n) + 1) % SIZE_MOD) := by
  have hn : n ≤ MAX_BYTES := hinv.small _ hmem
  have hi := getIndex_lt n hn
  have hlb : (p, SizeClass.getIndex n) ∈ liveBlocks live :=
    List.mem_map.2 ⟨(p, n), hmem, rfl⟩
  have hp0 : p ≠ 0 := (hinv.inside _ (List.mem_append_left _ hlb)).1
  have hloc := hinv.sep_local _ hi
  obtain ⟨q1, _, _⟩ := List.pairwise_append.1 hloc
  obtain ⟨_, q2, q3⟩ := List.pairwise_append.1 q1
  have hpF : ∀ a ∈ T (SizeClass.getIndex n) ++ C (SizeClass.getIndex n), p ≠ a := by
    intro a ha
    exact (q3 _ hlb (a, SizeClass.getIndex n) (List.mem_map.2 ⟨a, ha, rfl⟩)).addr_ne
  have hpT : p ∉ T (SizeClass.getIndex n) :=
    fun h => hpF p (List.mem_append_left _ h) rfl
  have hpC : p ∉ C (SizeClass.getIndex n) :=
    fun h => hpF p (List.mem_append_right _ h) rfl
  have hTC : ∀ a ∈ T (SizeClass.getIndex n), a ∉ C (SizeClass.getIndex n) := by
    intro a haT haC
    rw [classBlocks, List.map_append] at q2
    exact ((List.pairwise_append.1 q2).2.2 (a, SizeClass.getIndex n)
      (List.mem_map.2 ⟨a, haT, rfl⟩) (a, SizeClass.getIndex n)
      (List.mem_map.2 ⟨a, haC, rfl⟩)).addr_ne rfl
  obtain ⟨s', e1, c1, c2, hcnt, hframe, hother, hos, hpc, htrig⟩ :=
    deallocate_chain s p n _ _ hn hp0 (hinv.tchain _) (hinv.cchain _) hpT hpC hTC
  refine ⟨s', e1, hos,
    (afterReturn (p :: T (SizeClass.getIndex n)) (C (SizeClass.getIndex n))
      ((s.tc.freeListSize (SizeClass.getIndex n) + 1) % SIZE_MOD)).1,
    (afterReturn (p :: T (SizeClass.getIndex n)) (C (SizeClass.getIndex n))
      ((s.tc.freeListSize (SizeClass.getIndex n) + 1) % SIZE_MOD)).2.1, ?_, ?_, ?_, htrig⟩
  · refine hinv.rebuild_subperm _ hi _ _ (by rw [hpc]; exact hinv.noFree) c1 c2 ?_ ?_ ?_ ?_
      (fun r hr => by rw [hos]; exact hr)
    · intro j hj
      exact ⟨(hother j hj).1, (hother j hj).2.2⟩
    · intro j hj a ha
      refine hframe a (fun hmem' => ?_)
      have hx : (a, SizeClass.getIndex n)
          ∈ liveBlocks live ++ classBlocks T C (SizeClass.getIndex n) := by
        rcases List.mem_cons.1 hmem' with rfl | h
        · exact List.mem_append_left _ hlb
        · exact List.mem_append_right _
            (List.mem_map.2 ⟨a, List.mem_append_left _ h, rfl⟩)
      exact hinv.other_class_ne _ hi hx hj ha rfl
    · intro y hy
      exact hinv.small y (List.mem_of_mem_erase hy)
    · have hsub := (afterReturn_sublist (p :: T (SizeClass.getIndex n)) (C (SizeClass.getIndex n))
        ((s.tc.freeListSize (SizeClass.getIndex n) + 1) % SIZE_MOD)).map
          (fun a => (a, SizeClass.getIndex n))
      have hl : (liveBlocks live).Perm
          ((p, SizeClass.getIndex n) :: liveBlocks (live.erase (p, n))) := by
        have := (perm_cons_erase_pair hmem).map (fun x => (x.1, SizeClass.getIndex x.2))
        exact this
      have step1 := (List.Sublist.append (List.Sublist.refl (liveBlocks (live.erase (p, n))))
        hsub).subperm
      refine step1.trans (List.Perm.subperm ?_)
      simp only [List.cons_append, List.map_cons, classBlocks]
      exact List.perm_middle.trans (hl.symm.append_right _)
  · intro j hj
    exact (hother j hj).2.1
  · rw [hcnt]
    have := afterReturn_lengths (p :: T (SizeClass.getIndex n)) (C (SizeClass.getIndex n))
      ((s.tc.freeListSize (SizeClass.getIndex n) + 1) % SIZE_MOD)
    rw [this]
    rfl

theorem Inv.write {s : State} {live : List (Nat × Nat)} {T C : Nat → List Nat}
    (hinv : Inv s live T C) (p n a v : Nat) (hmem : (p, n) ∈ live)
    (h1 : p ≤ a) (h2 : a < p + blockSize (SizeClass.getIndex n)) :
    Inv { s with mem := store s.mem a v } live T C := by
  have hlb : (p, SizeClass.getIndex n) ∈ liveBlocks live :=
    List.mem_map.2 ⟨(p, n), hmem, rfl⟩
  have hnot : ∀ j, a ∉ T j ++ C j := by
    intro j ha
    by_cases hj : j < FREE_LIST_SIZE
    · have hfree : (a, j) ∈ allFree T C :=
        List.mem_flatMap.2 ⟨j, List.mem_range.2 hj, List.mem_map.2 ⟨a, ha, rfl⟩⟩
      have hd := (List.pairwise_append.1 hinv.sep).2.2 _ hlb _ hfree
      have := blockSize_pos j
      unfold BlockDisj at hd
      simp only at hd
      omega
    · obtain ⟨z1, z2⟩ := hinv.high j (by omega)
      rw [z1, z2] at ha
      simp at ha
  exact ⟨hinv.noFree,
    fun j => (hinv.tchain j).frame _ _ (fun h => hnot j (List.mem_append_left _ h)),
    fun j => (hinv.cchain j).frame _ _ (fun h => hnot j (List.mem_append_right _ h)),
    hinv.high, hinv.small, hinv.sep, hinv.inside⟩


/-! ## Mappings are only ever added -/

theorem systemAlloc_mapped (s : State) (numPages : Nat) :
    s.os.mapped.Sublist (PageCache.systemAlloc s numPages).2.os.mapped := by
  unfold PageCache.systemAlloc
  dsimp only
  split
  · exact List.Sublist.refl _
  · split
    · exact List.Sublist.refl _
    · exact List.sublist_cons_self _ _

theorem allocateSpan_mapped {s s1 : State} {numPages r : Nat}
    (h : PageCache.allocateSpan s numPages = some (r, s1)) :
    s.os.mapped.Sublist s1.os.mapped := by
  unfold PageCache.allocateSpan at h
  dsimp only at h
  split at h
  · split at h
    · exact absurd h (by simp)
    · split at h <;>
        (simp only [Option.some.injEq, Prod.mk.injEq] at h; obtain ⟨_, rfl⟩ := h
         exact List.Sublist.refl _)
  · have hm := systemAlloc_mapped s numPages
    split at h <;>
      (simp only [Option.some.injEq, Prod.mk.injEq] at h; obtain ⟨_, rfl⟩ := h; exact hm)

theorem fetchRange_mapped {s s' : State} {index batchNum r : Nat}
    (h : CentralCache.fetchRange s index batchNum = some (r, s')) :
    s.os.mapped.Sublist s'.os.mapped := by
  unfold CentralCache.fetchRange at h
  dsimp only at h
  split at h
  · simp only [Option.some.injEq, Prod.mk.injEq] at h
    obtain ⟨_, rfl⟩ := h
    exact List.Sublist.refl _
  · split at h
    · split at h
      · exact absurd h (by simp)
      · rename_i r1 s1 hpc
        have hm : s.os.mapped.Sublist s1.os.mapped := by
          unfold CentralCache.fetchFromPageCache at hpc
          dsimp only at hpc
          split at hpc <;> exact allocateSpan_mapped hpc
        split at h
        · simp only [Option.some.injEq, Prod.mk.injEq] at h
          obtain ⟨_, rfl⟩ := h
          exact hm
        · split at h <;>
            (simp only [Option.some.injEq, Prod.mk.injEq] at h; obtain ⟨_, rfl⟩ := h; exact hm)
    · simp only [Option.some.injEq, Prod.mk.injEq] at h
      obtain ⟨_, rfl⟩ := h
      exact List.Sublist.refl _

theorem fetchFromCentralCache_mapped {s s' : State} {index r : Nat}
    (h : ThreadCache.fetchFromCentralCache s index = some (r, s')) :
    s.os.mapped.Sublist s'.os.mapped := by
  unfold ThreadCache.fetchFromCentralCache at h
  dsimp only at h
  split at h
  · exact absurd h (by simp)
  · rename_i r1 s1 hfr
    have hm := fetchRange_mapped hfr
    split_ifs at h <;>
      (simp only [Option.some.injEq, Prod.mk.injEq] at h; obtain ⟨_, rfl⟩ := h; exact hm)

theorem allocate_mapped {s s' : State} {n p : Nat}
    (h : MemoryPool.allocate s n = some (p, s')) : s.os.mapped.Sublist s'.os.mapped := by
  unfold MemoryPool.allocate ThreadCache.allocate at h
  dsimp only at h
  split_ifs at h
  all_goals first
    | (have hm := fetchFromCentralCache_mapped h
       exact hm)
    | (simp only [Option.some.injEq, Prod.mk.injEq] at h
       obtain ⟨_, rfl⟩ := h
       exact List.Sublist.refl _)

theorem returnRange_os (s : State) (start blockNum index : Nat) :
    (CentralCache.returnRange s start blockNum index).os = s.os := by
  unfold CentralCache.returnRange
  dsimp only
  split <;> rfl

theorem returnToCentralCache_os {s s' : State} {start size : Nat}
    (h : ThreadCache.returnToCentralCache s start size = some s') : s'.os = s.os := by
  unfold ThreadCache.returnToCentralCache at h
  dsimp only at h
  split_ifs at h
  · simp only [Option.some.injEq] at h
    rw [← h]
  · split at h
    · exact absurd h (by simp)
    · split_ifs at h
      all_goals
        simp only [Option.some.injEq] at h
        subst h
        first | rfl | exact returnRange_os _ _ _ _

theorem deallocate_os {s s' : State} {p n : Nat}
    (h : MemoryPool.deallocate s p n = some s') : s'.os = s.os := by
  unfold MemoryPool.deallocate ThreadCache.deallocate at h
  dsimp only at h
  split_ifs at h
  all_goals first
    | (have hm := returnToCentralCache_os h
       exact hm)
    | (simp only [Option.some.injEq] at h; subst h; rfl)

/-! ## Live blocks never overlap -/

theorem allFree_nil : allFree (fun _ => []) (fun _ => []) = [] := by
  unfold allFree
  rw [List.flatMap_eq_nil_iff]
  intro i _
  rfl

theorem Inv.fresh (m0 : Mem) (pending : List Nat) :
    Inv (fresh m0 pending) [] (fun _ => []) (fun _ => []) := by
  refine ⟨rfl, fun _ => rfl, fun _ => rfl, fun _ _ => ⟨rfl, rfl⟩, ?_, ?_, ?_⟩
  · intro x hx; simp at hx
  · rw [allFree_nil]; exact List.Pairwise.nil
  · intro b hb
    rw [allFree_nil] at hb
    simp [liveBlocks] at hb

/-- Every reachable state in which the mappings handed out by the operating
system are pairwise disjoint satisfies the ownership invariant. -/
theorem reachable_inv {m0 : Mem} {pending : List Nat} {s : State} {live : List (Nat × Nat)}
    (hr : Reachable m0 pending s live) :
    OsDisjoint s.os.mapped → ∃ T C, Inv s live T C := by
  induction hr with
  | init => exact fun _ => ⟨_, _, Inv.fresh m0 pending⟩
  | alloc _ hn he hp ih =>
    intro hos
    obtain ⟨T, C, hinv⟩ := ih (List.Pairwise.sublist (allocate_mapped he) hos)
    obtain ⟨p', s'', e, _, _, post⟩ := hinv.allocate _ hn
    rw [he] at e
    simp only [Option.some.injEq, Prod.mk.injEq] at e
    obtain ⟨rfl, rfl⟩ := e
    obtain ⟨Ti, Ci, hinv', _⟩ := post hos
    simp only [hp, if_false] at hinv'
    exact ⟨_, _, hinv'⟩
  | allocNull _ hn he ih =>
    intro hos
    obtain ⟨T, C, hinv⟩ := ih (List.Pairwise.sublist (allocate_mapped he) hos)
    obtain ⟨p', s'', e, _, _, post⟩ := hinv.allocate _ hn
    rw [he] at e
    simp only [Option.some.injEq, Prod.mk.injEq] at e
    obtain ⟨rfl, rfl⟩ := e
    obtain ⟨Ti, Ci, hinv', _⟩ := post hos
    simp only [if_true] at hinv'
    exact ⟨_, _, hinv'⟩
  | dealloc _ hmem he ih =>
    intro hos
    rw [deallocate_os he] at hos
    obtain ⟨T, C, hinv⟩ := ih hos
    obtain ⟨s'', e, _, Ti, Ci, hinv', _⟩ := hinv.deallocate _ _ hmem
    rw [he] at e
    simp only [Option.some.injEq] at e
    subst e
    exact ⟨_, _, hinv'⟩
  | write _ hmem h1 h2 ih =>
    intro hos
    obtain ⟨T, C, hinv⟩ := ih hos
    exact ⟨T, C, hinv.write _ _ _ _ hmem h1 h2⟩

theorem roundUp_le_blockSize (n : Nat) (hn : n ≤ MAX_BYTES) :
    SizeClass.roundUp n ≤ blockSize (SizeClass.getIndex n) := by
  have hM : MAX_BYTES = 262144 := rfl
  rw [roundUp_eq n (by omega), getIndex_eq n (by omega), blockSize]
  simp only [ALIGNMENT]
  omega

/-- C1. In every state a single thread reaches from the fresh state by
`allocate(n)` and `deallocate(p, n)` calls that respect the contract (`n ≤ MAX_BYTES`,
`p` live, same `n`) and by writes of the client inside its live blocks, if the
mappings handed out by the operating system are pairwise disjoint, then any two
distinct live blocks have disjoint byte ranges `[p, p + roundUp(n))`. -/
theorem live_blocks_disjoint (m0 : Mem) (pending : List Nat) (s : State)
    (live : List (Nat × Nat)) (hr : Reachable m0 pending s live)
    (hos : OsDisjoint s.os.mapped) :
    live.Pairwise (fun b1 b2 =>
      b1.1 + SizeClass.roundUp b1.2 ≤ b2.1 ∨ b2.1 + SizeClass.roundUp b2.2 ≤ b1.1) := by
  obtain ⟨T, C, hinv⟩ := reachable_inv hr hos
  have h1 : (liveBlocks live).Pairwise BlockDisj := (List.pairwise_append.1 hinv.sep).1
  rw [liveBlocks, List.pairwise_map] at h1
  refine List.Pairwise.imp_of_mem ?_ h1
  intro a b ha hb hd
  have ra := roundUp_le_blockSize a.2 (hinv.small a ha)
  have rb := roundUp_le_blockSize b.2 (hinv.small b hb)
  unfold BlockDisj at hd
  simp only at hd
  omega

theorem live_blocks_disjoint_witness :
    Reachable (fun _ => 0) [0x10000, 0x20000] demoState2 [(0x20000, 20000), (0x10000, 20000)] ∧
    OsDisjoint demoState2.os.mapped ∧
    [(0x20000, 20000), (0x10000, 20000)].Pairwise (fun b1 b2 =>
      b1.1 + SizeClass.roundUp b1.2 ≤ b2.1 ∨ b2.1 + SizeClass.roundUp b2.2 ≤ b1.1) :=
  have hr : Reachable (fun _ => 0) [0x10000, 0x20000] demoState2
      [(0x20000, 20000), (0x10000, 20000)] :=
    Reachable.alloc (Reachable.alloc Reachable.init (by decide) rfl (by decide))
      (by decide) rfl (by decide)
  have hos : OsDisjoint demoState2.os.mapped := by
    show List.Pairwise _ [(0x20000, 32768), (0x10000, 32768)]
    simp
  ⟨hr, hos, live_blocks_disjoint _ _ _ _ hr hos⟩


/-! ## The boundary scenario in general -/

/-- One successful `allocate(n)` follows `absAlloc` on the numbers of its class. -/
theorem sim_alloc {s : State} {live : List (Nat × Nat)} {x : Counts} (n : Nat)
    (hn : n ≤ MAX_BYTES) (hsim : Sim (SizeClass.getIndex n) s live x)
    (hcan : (0 < x.tcLen ∨ 0 < x.ccLen) ∨
      (s.os.mapped = [] ∧ ∃ r rest, s.os.pending = r :: rest ∧ r ≠ 0)) :
    ∃ p s', MemoryPool.allocate s n = some (p, s') ∧ p ≠ 0 ∧
      Sim (SizeClass.getIndex n) s' ((p, n) :: live)
        (absAlloc (ThreadCache.getBatchNum ((SizeClass.getIndex n + 1) * ALIGNMENT))
          (SPAN_PAGES * PAGE_SIZE / ((SizeClass.getIndex n + 1) * ALIGNMENT)) x) := by
  obtain ⟨hos, T, C, hinv, hx⟩ := hsim
  obtain ⟨p, s', e, hmap, hne, post⟩ := hinv.allocate n hn
  have hp : p ≠ 0 := by
    apply hne
    rcases hcan with (h | h) | ⟨_, h⟩
    · left; intro h0; rw [← hx, h0] at h; simp at h
    · right; left; intro h0; rw [← hx, h0] at h; simp at h
    · right; right; exact h
  have hos' : OsDisjoint s'.os.mapped := by
    rcases hmap with h | ⟨hT, hC, reg, h⟩
    · rw [h]; exact hos
    · rcases hcan with (h1 | h1) | ⟨h1, _⟩
      · rw [← hx, hT] at h1; simp at h1
      · rw [← hx, hC] at h1; simp at h1
      · rw [h, h1]; exact List.pairwise_singleton _ _
  obtain ⟨Ti, Ci, hinv', _, hcounts⟩ := post hos'
  simp only [hp, if_false] at hinv'
  refine ⟨p, s', e, hp, hos', _, _, hinv', ?_⟩
  simp only [Function.update_same]
  rw [hcounts hp, hx]

theorem allocMany_succ_eq {n k p : Nat} {s s1 s2 : State} {ps : List Nat}
    (e1 : MemoryPool.allocate s n = some (p, s1)) (e2 : allocMany n k s1 = some (ps, s2)) :
    allocMany n (k + 1) s = some (p :: ps, s2) := by
  simp only [allocMany, e1, e2]

theorem allocMany_sim (n : Nat) (hn : n ≤ MAX_BYTES) :
    ∀ (k : Nat) (s : State) (live : List (Nat × Nat)) (x y : Counts),
    Sim (SizeClass.getIndex n) s live x →
    absAllocRun (ThreadCache.getBatchNum ((SizeClass.getIndex n + 1) * ALIGNMENT))
      (SPAN_PAGES * PAGE_SIZE / ((SizeClass.getIndex n + 1) * ALIGNMENT)) k x = some y →
    ∃ ps s', allocMany n k s = some (ps, s') ∧ ps.length = k ∧
      Sim (SizeClass.getIndex n) s' (ps.reverse.map (fun p => (p, n)) ++ live) y
  | 0, s, live, x, y, hsim, hrun => by
    simp only [absAllocRun, Option.some.injEq] at hrun
    subst hrun
    exact ⟨[], s, rfl, rfl, by simpa using hsim⟩
  | k + 1, s, live, x, y, hsim, hrun => by
    simp only [absAllocRun] at hrun
    split_ifs at hrun with hcan
    obtain ⟨p, s1, e1, _, hsim1⟩ := sim_alloc n hn hsim (Or.inl hcan)
    obtain ⟨ps, s2, e2, hlen, hsim2⟩ := allocMany_sim n hn k s1 _ _ y hsim1 hrun
    refine ⟨p :: ps, s2, ?_, by simp [hlen], ?_⟩
    · simp only [allocMany, e1, e2]
    · simpa only [List.reverse_cons, List.map_append, List.map_cons, List.map_nil,
        List.append_assoc, List.singleton_append] using hsim2

theorem deallocMany_sim (n : Nat) :
    ∀ (qs : List Nat) (s : State) (live : List (Nat × Nat)) (x : Counts),
    Sim (SizeClass.getIndex n) s live x →
    (qs.map (fun p => (p, n))).Subperm live →
    ∃ s' live', deallocMany n qs s = some ((absDeallocRun qs.length x).1, s') ∧
      Sim (SizeClass.getIndex n) s' live' (absDeallocRun qs.length x).2
  | [], s, live, x, hsim, _ => ⟨s, live, rfl, hsim⟩
  | q :: qs, s, live, x, hsim, hsub => by
    obtain ⟨hos, T, C, hinv, hx⟩ := hsim
    have hmem : (q, n) ∈ live := hsub.subset (List.mem_cons_self _ _)
    obtain ⟨s1, e1, hos1, Ti, Ci, hinv1, _, hcounts, htrig⟩ := hinv.deallocate q n hmem
    have hsub1 : (qs.map (fun p => (p, n))).Subperm (live.erase (q, n)) := by
      have h1 : ((q, n) :: qs.map (fun p => (p, n))).Subperm ((q, n) :: live.erase (q, n)) :=
        hsub.trans (perm_cons_erase_pair hmem).subperm
      exact (List.subperm_cons _).1 h1
    have hsim1 : Sim (SizeClass.getIndex n) s1 (live.erase (q, n)) (absDealloc x) := by
      refine ⟨by rw [hos1]; exact hos, _, _, hinv1, ?_⟩
      simp only [Function.update_same]
      rw [hcounts, hx]
    obtain ⟨s2, live2, e2, hsim2⟩ := deallocMany_sim n qs s1 _ _ hsim1 hsub1
    refine ⟨s2, live2, ?_, hsim2⟩
    have hcnt : s.tc.freeListSize (SizeClass.getIndex n) = x.counter := by rw [← hx]
    simp only [deallocMany, e1, e2, List.length_cons, absDeallocRun, htrig, hcnt]


theorem absRun_alloc65 :
    absAllocRun (ThreadCache.getBatchNum ((SizeClass.getIndex 64 + 1) * ALIGNMENT))
      (SPAN_PAGES * PAGE_SIZE / ((SizeClass.getIndex 64 + 1) * ALIGNMENT)) 64
      (absAlloc (ThreadCache.getBatchNum ((SizeClass.getIndex 64 + 1) * ALIGNMENT))
        (SPAN_PAGES * PAGE_SIZE / ((SizeClass.getIndex 64 + 1) * ALIGNMENT)) ⟨0, 0, 0⟩)
      = some ⟨31, 416, 31⟩ := by
  decide!

theorem absRun_dealloc65 :
    absDeallocRun 65 ⟨31, 416, 31⟩
      = (List.replicate 33 false ++ true :: List.replicate 31 false, ⟨47, 465, 47⟩) := by
  decide!

/-- C6 (amended). From the fresh state, whatever the initial memory and wherever the
operating system maps the span, 65 calls `allocate(64)` succeed and leave 31
blocks on the thread cache's class-7 list and 416 on the central cache's; when
the 65 blocks are then freed with `deallocate(p, 64)`, in any order, the 34th
free is the only one that triggers return-to-central, and the final state has
exactly 47 blocks on the thread cache's class-7 list, with `freeListSize_[7] = 47`,
and exactly 465 blocks on the central cache's class-7 list. -/
theorem scenario65_general (m0 : Mem) (r : Nat) (rest : List Nat) (hr : r ≠ 0) :
    ∃ ps s, allocMany 64 65 (fresh m0 (r :: rest)) = some (ps, s) ∧ ps.length = 65 ∧
      (∃ T0 C0, IsChain s.mem (s.tc.freeList 7) T0 ∧ T0.length = 31 ∧
        IsChain s.mem (s.cc.centralFreeList 7) C0 ∧ C0.length = 416) ∧
      ∀ qs, qs.Perm ps →
        ∃ flags s', deallocMany 64 qs s = some (flags, s') ∧
          flags = List.replicate 33 false ++ true :: List.replicate 31 false ∧
          ∃ T1 C1, IsChain s'.mem (s'.tc.freeList 7) T1 ∧ T1.length = 47 ∧
            s'.tc.freeListSize 7 = 47 ∧
            IsChain s'.mem (s'.cc.centralFreeList 7) C1 ∧ C1.length = 465 := by
  have h7 : SizeClass.getIndex 64 = 7 := by decide
  have hn : 64 ≤ MAX_BYTES := by decide
  have hsim0 : Sim (SizeClass.getIndex 64) (fresh m0 (r :: rest)) [] ⟨0, 0, 0⟩ :=
    ⟨List.Pairwise.nil, _, _, Inv.fresh m0 (r :: rest), rfl⟩
  obtain ⟨p1, s1, e1, _, hsim1⟩ :=
    sim_alloc 64 hn hsim0 (Or.inr ⟨rfl, r, rest, rfl, hr⟩)
  obtain ⟨ps, s2, e2, hlen, hsim2⟩ := allocMany_sim 64 hn 64 s1 _ _ _ hsim1 absRun_alloc65
  have hall : allocMany 64 65 (fresh m0 (r :: rest)) = some (p1 :: ps, s2) :=
    allocMany_succ_eq e1 e2
  refine ⟨p1 :: ps, s2, hall, by simp [hlen], ?_, ?_⟩
  · obtain ⟨_, T, C, hinv, hx⟩ := hsim2
    simp only [Counts.mk.injEq] at hx
    rw [h7] at hx
    exact ⟨T 7, C 7, hinv.tchain 7, hx.1, hinv.cchain 7, hx.2.1⟩
  · intro qs hperm
    have hsub : (qs.map (fun p => (p, 64))).Subperm
        (ps.reverse.map (fun p => (p, 64)) ++ [(p1, 64)]) := by
      refine List.Perm.subperm ?_
      refine (hperm.map _).trans ?_
      rw [List.map_cons]
      exact (List.perm_append_singleton _ _).symm.trans
        (((List.reverse_perm ps).symm.map _).append_right _)
    obtain ⟨s3, live3, e3, hsim3⟩ := deallocMany_sim 64 qs s2 _ _ hsim2 hsub
    have hql : qs.length = 65 := by rw [hperm.length_eq]; simp [hlen]
    rw [hql, absRun_dealloc65] at e3 hsim3
    obtain ⟨_, T, C, hinv, hx⟩ := hsim3
    simp only [Counts.mk.injEq] at hx
    rw [h7] at hx
    exact ⟨_, s3, e3, rfl, T 7, C 7, hinv.tchain 7, hx.1, hx.2.2, hinv.cchain 7, hx.2.1⟩

theorem scenario65_general_witness :
    ∃ ps s, allocMany 64 65 (fresh (fun _ => 0) (0x10000 :: [])) = some (ps, s) ∧
      ps.length = 65 ∧
      (∃ T0 C0, IsChain s.mem (s.tc.freeList 7) T0 ∧ T0.length = 31 ∧
        IsChain s.mem (s.cc.centralFreeList 7) C0 ∧ C0.length = 416) ∧
      ∀ qs, qs.Perm ps →
        ∃ flags s', deallocMany 64 qs s = some (flags, s') ∧
          flags = List.replicate 33 false ++ true :: List.replicate 31 false ∧
          ∃ T1 C1, IsChain s'.mem (s'.tc.freeList 7) T1 ∧ T1.length = 47 ∧
            s'.tc.freeListSize 7 = 47 ∧
            IsChain s'.mem (s'.cc.centralFreeList 7) C1 ∧ C1.length = 465 :=
  scenario65_general (fun _ => 0) 0x10000 [] (by decide)


/-! ## `returnRange`: what is prepended, and the diagnostic -/

/-- The tail search never counts past its bound: the count it returns is at most
the start count plus the number of iterations allowed. -/
theorem tailLoop_count_le (m : Mem) : ∀ (fuel e count : Nat),
    (CentralCache.tailLoop m fuel e count).2 ≤ count + fuel
  | 0, e, count => by simp [CentralCache.tailLoop]
  | fuel + 1, e, count => by
    unfold CentralCache.tailLoop
    split
    · have := tailLoop_count_le m fuel (m e) (count + 1)
      omega
    · simp

/-- No call of `returnRange` writes to `std::cout`: the count the tail search
returns never exceeds `blockNum`. -/
theorem returnRange_out (s : State) (start blockNum index : Nat) :
    (CentralCache.returnRange s start blockNum index).out = s.out := by
  unfold CentralCache.returnRange
  split
  · rfl
  · rename_i hg
    have h := tailLoop_count_le s.mem (blockNum - 1) start 1
    have hc : ¬ ((CentralCache.tailLoop s.mem (blockNum - 1) start 1).2 > blockNum) := by omega
    simp only [hc, if_false]

/-- The effect of `returnRange` on a chain `R`, whatever the class list holds:
the last of the first `blockNum` blocks of `R` is made to point at the previous
head, and the class head becomes `start`. -/
theorem returnRange_seg (s : State) (start blockNum index : Nat) (R : List Nat)
    (hidx : index < FREE_LIST_SIZE) (hb : 1 ≤ blockNum) (hne : R ≠ [])
    (hR : IsChain s.mem start R) :
    ∃ e, e ∈ R ∧
      CentralCache.returnRange s start blockNum index =
        { s with
          mem := store s.mem e (s.cc.centralFreeList index),
          cc := ⟨setAt s.cc.centralFreeList index start⟩ } ∧
      IsSeg (store s.mem e (s.cc.centralFreeList index)) start (R.take blockNum)
        (s.cc.centralFreeList index) := by
  obtain ⟨init, e, htk, hlast⟩ := take_last_split hb hne
  have hstart : start ≠ 0 := by
    cases R with
    | nil => exact absurd rfl hne
    | cons x xs => rw [hR.1]; exact hR.2.1
  have heR : e ∈ R := List.mem_of_mem_take (by rw [htk]; simp)
  have hsplit : (init ++ [e]) ++ R.drop blockNum = R := by rw [← htk, List.take_append_drop]
  have hR' := hR
  rw [← hsplit] at hR'
  have hnd := hR'.nodup
  obtain ⟨_, h1, _⟩ := isSeg_append.1 hR'
  obtain ⟨mid, h3, h4⟩ := isSeg_append.1 h1
  have hmid : mid = e := h4.1
  subst hmid
  have hnot : mid ∉ init := by
    intro hx
    exact (List.nodup_append.1 (List.nodup_append.1 hnd).1).2.2 hx (List.mem_singleton_self mid)
  refine ⟨mid, heR, ?_, ?_⟩
  · unfold CentralCache.returnRange
    have hg : ¬ (start = 0 ∨ index ≥ FREE_LIST_SIZE ∨ blockNum = 0) := by omega
    simp only [hg, if_false]
    rw [tailLoop_chain s.mem (blockNum - 1) R start 1 hR hne]
    have hcount : ¬ (1 + min (blockNum - 1) (R.length - 1) > blockNum) := by omega
    simp only [hcount, if_false, show blockNum - 1 + 1 = blockNum by omega, hlast]
  · rw [htk]
    exact h3.snoc h4.2.1 hnot _

/-- The state `returnRange` leaves when it is handed the chain `R` with a count
`blockNum` that is at least the length of `R`: the whole of `R` is linked in
front of the previous head; the lists of the other classes, the thread cache,
the page cache and the output are untouched. -/
theorem returnRange_whole (s : State) (head count index : Nat) (R : List Nat)
    (hidx : index < FREE_LIST_SIZE) (hne : R ≠ []) (hlen : R.length ≤ count)
    (hR : IsChain s.mem head R) :
    (CentralCache.returnRange s head count index).cc.centralFreeList index = head ∧
    IsSeg (CentralCache.returnRange s head count index).mem head R
      (s.cc.centralFreeList index) ∧
    (∀ C, IsChain s.mem (s.cc.centralFreeList index) C → (∀ a ∈ R, a ∉ C) →
      IsChain (CentralCache.returnRange s head count index).mem
        ((CentralCache.returnRange s head count index).cc.centralFreeList index) (R ++ C)) ∧
    (∀ j, j ≠ index →
      (CentralCache.returnRange s head count index).cc.centralFreeList j
        = s.cc.centralFreeList j ∧
      ∀ L, IsChain s.mem (s.cc.centralFreeList j) L → (∀ a ∈ R, a ∉ L) →
        IsChain (CentralCache.returnRange s head count index).mem
          ((CentralCache.returnRange s head count index).cc.centralFreeList j) L) ∧
    (CentralCache.returnRange s head count index).tc = s.tc ∧
    (CentralCache.returnRange s head count index).pc = s.pc ∧
    (CentralCache.returnRange s head count index).os = s.os := by
  have hpos : 1 ≤ R.length := List.length_pos.2 hne
  obtain ⟨e, heR, hst, hseg⟩ := returnRange_seg s head count index R hidx (by omega) hne hR
  rw [List.take_of_length_le hlen] at hseg
  rw [hst]
  refine ⟨setAt_same _ _ _, hseg, ?_, ?_, rfl, rfl, rfl⟩
  · intro C hC hd
    show IsChain _ (setAt s.cc.centralFreeList index head index) (R ++ C)
    rw [setAt_same]
    exact isSeg_append.2 ⟨_, hseg, hC.frame _ _ (hd _ heR)⟩
  · intro j hj
    refine ⟨setAt_other _ _ _ _ hj, ?_⟩
    intro L hL hd
    show IsChain _ (setAt s.cc.centralFreeList index head j) L
    rw [setAt_other _ _ _ _ hj]
    exact hL.frame _ _ (hd _ heR)

/-- C11. When `returnRange(head, count, index)` is handed a null-terminated chain
`R` of exactly `count` blocks starting at a non-null `head`, the class list
becomes `R` followed by the previous class list: the head is `head`, `R` now
runs into the previous head, and if the previous list was the chain `C` (sharing
no block with `R`) the list is `R ++ C`. No other class's list changes: its head
is the same and a chain that shares no block with `R` is still that chain. -/
theorem returnRange_prepends (s : State) (head count index : Nat) (R : List Nat)
    (hidx : index < FREE_LIST_SIZE) (hhead : head ≠ 0) (hlen : R.length = count)
    (hR : IsChain s.mem head R) :
    (CentralCache.returnRange s head count index).cc.centralFreeList index = head ∧
    IsSeg (CentralCache.returnRange s head count index).mem head R
      (s.cc.centralFreeList index) ∧
    (∀ C, IsChain s.mem (s.cc.centralFreeList index) C → (∀ a ∈ R, a ∉ C) →
      IsChain (CentralCache.returnRange s head count index).mem
        ((CentralCache.returnRange s head count index).cc.centralFreeList index) (R ++ C)) ∧
    (∀ j, j ≠ index →
      (CentralCache.returnRange s head count index).cc.centralFreeList j
        = s.cc.centralFreeList j ∧
      ∀ L, IsChain s.mem (s.cc.centralFreeList j) L → (∀ a ∈ R, a ∉ L) →
        IsChain (CentralCache.returnRange s head count index).mem
          ((CentralCache.returnRange s head count index).cc.centralFreeList j) L) := by
  have hne : R ≠ [] := by
    rintro rfl
    exact hhead hR
  obtain ⟨h1, h2, h3, h4, _⟩ := returnRange_whole s head count index R hidx hne (by omega) hR
  exact ⟨h1, h2, h3, h4⟩

theorem returnRange_prepends_witness :
    (CentralCache.returnRange
        { fresh (fun a => if a = 8 then 16 else if a = 32 then 40 else 0) [] with
          cc := ⟨fun j => if j = 0 then 32 else 0⟩ } 8 2 0).cc.centralFreeList 0 = 8 ∧
    IsSeg (CentralCache.returnRange
        { fresh (fun a => if a = 8 then 16 else if a = 32 then 40 else 0) [] with
          cc := ⟨fun j => if j = 0 then 32 else 0⟩ } 8 2 0).mem 8 [8, 16] 32 ∧
    IsChain (CentralCache.returnRange
        { fresh (fun a => if a = 8 then 16 else if a = 32 then 40 else 0) [] with
          cc := ⟨fun j => if j = 0 then 32 else 0⟩ } 8 2 0).mem
      ((CentralCache.returnRange
        { fresh (fun a => if a = 8 then 16 else if a = 32 then 40 else 0) [] with
          cc := ⟨fun j => if j = 0 then 32 else 0⟩ } 8 2 0).cc.centralFreeList 0)
      ([8, 16] ++ [32, 40]) ∧
    (CentralCache.returnRange
        { fresh (fun a => if a = 8 then 16 else if a = 32 then 40 else 0) [] with
          cc := ⟨fun j => if j = 0 then 32 else 0⟩ } 8 2 0).cc.centralFreeList 1 = 0 :=
  have h := returnRange_prepends
    { fresh (fun a => if a = 8 then 16 else if a = 32 then 40 else 0) [] with
      cc := ⟨fun j => if j = 0 then 32 else 0⟩ } 8 2 0 [8, 16]
    (by decide) (by decide) rfl (by decide)
  ⟨h.1, h.2.1, h.2.2.1 [32, 40] (by decide) (by decide), (h.2.2.2 1 (by decide)).1⟩

/-- C12, the claim at a concrete call: the chain at `8` holds one block, the
caller claims three; `returnRange` prints nothing, and prepends the block. -/
theorem short_chain_no_warning :
    IsChain (fresh (fun _ => 0) []).mem 8 [8] ∧ [8].length < 3 ∧
    (CentralCache.returnRange (fresh (fun _ => 0) []) 8 3 0).out = [] ∧
    (CentralCache.returnRange (fresh (fun _ => 0) []) 8 3 0).cc.centralFreeList 0 = 8 ∧
    IsChain (CentralCache.returnRange (fresh (fun _ => 0) []) 8 3 0).mem 8 [8] := by
  refine ⟨by decide, by decide, ?_, ?_, ?_⟩
  · decide
  · decide
  · decide

/-- C12 as the code has it. When the chain `R` handed to
`returnRange(head, count, index)` reaches null after fewer than `count` blocks,
nothing is written to the output (the test `count > blockNum` looks for a count
above `blockNum`), and all the blocks found are prepended: the class head is
`head`, `R` runs into the previous head, and with the previous list the chain `C`
the class list is `R ++ C`. -/
theorem returnRange_short_chain (s : State) (head count index : Nat) (R : List Nat)
    (hidx : index < FREE_LIST_SIZE) (hhead : head ≠ 0) (hlen : R.length < count)
    (hR : IsChain s.mem head R) :
    (CentralCache.returnRange s head count index).out = s.out ∧
    (CentralCache.returnRange s head count index).cc.centralFreeList index = head ∧
    IsSeg (CentralCache.returnRange s head count index).mem head R
      (s.cc.centralFreeList index) ∧
    (∀ C, IsChain s.mem (s.cc.centralFreeList index) C → (∀ a ∈ R, a ∉ C) →
      IsChain (CentralCache.returnRange s head count index).mem
        ((CentralCache.returnRange s head count index).cc.centralFreeList index) (R ++ C)) := by
  have hne : R ≠ [] := by
    rintro rfl
    exact hhead hR
  obtain ⟨h1, h2, h3, _⟩ := returnRange_whole s head count index R hidx hne (by omega) hR
  exact ⟨returnRange_out s head count index, h1, h2, h3⟩

theorem returnRange_short_chain_witness :
    (CentralCache.returnRange
        { fresh (fun a => if a = 8 then 16 else if a = 32 then 40 else 0) [] with
          cc := ⟨fun j => if j = 0 then 32 else 0⟩ } 8 5 0).out = [] ∧
    (CentralCache.returnRange
        { fresh (fun a => if a = 8 then 16 else if a = 32 then 40 else 0) [] with
          cc := ⟨fun j => if j = 0 then 32 else 0⟩ } 8 5 0).cc.centralFreeList 0 = 8 ∧
    IsChain (CentralCache.returnRange
        { fresh (fun a => if a = 8 then 16 else if a = 32 then 40 else 0) [] with
          cc := ⟨fun j => if j = 0 then 32 else 0⟩ } 8 5 0).mem
      ((CentralCache.returnRange
        { fresh (fun a => if a = 8 then 16 else if a = 32 then 40 else 0) [] with
          cc := ⟨fun j => if j = 0 then 32 else 0⟩ } 8 5 0).cc.centralFreeList 0)
      ([8, 16] ++ [32, 40]) :=
  have h := returnRange_short_chain
    { fresh (fun a => if a = 8 then 16 else if a = 32 then 40 else 0) [] with
      cc := ⟨fun j => if j = 0 then 32 else 0⟩ } 8 5 0 [8, 16]
    (by decide) (by decide) (by decide) (by decide)
  ⟨h.1, h.2.1, h.2.2.2 [32, 40] (by decide) (by decide)⟩

/-! ## Allocation when the operating system refuses, and alloc/free cycles -/

theorem fetchFromPageCache_eq (s : State) (size : Nat) :
    CentralCache.fetchFromPageCache s size = PageCache.allocateSpan s (spanRequest size) := by
  unfold CentralCache.fetchFromPageCache spanRequest
  dsimp only
  split <;> rfl

theorem returnRange_tc (s : State) (start blockNum index : Nat) :
    (CentralCache.returnRange s start blockNum index).tc = s.tc := by
  unfold CentralCache.returnRange
  dsimp only
  split <;> rfl

theorem returnRange_pc (s : State) (start blockNum index : Nat) :
    (CentralCache.returnRange s start blockNum index).pc = s.pc := by
  unfold CentralCache.returnRange
  dsimp only
  split <;> rfl

/-- The function `returnToCentralCache`, called on the head of the class list, leaves
that block at the head, and does not touch the page cache. -/
theorem returnToCentralCache_head {s s' : State} {size : Nat}
    (h : ThreadCache.returnToCentralCache s (s.tc.freeList (SizeClass.getIndex size)) size
      = some s') :
    s'.tc.freeList (SizeClass.getIndex size) = s.tc.freeList (SizeClass.getIndex size) ∧
    s'.pc = s.pc := by
  unfold ThreadCache.returnToCentralCache at h
  dsimp only at h
  split_ifs at h
  · simp only [Option.some.injEq] at h
    rw [← h]
    exact ⟨rfl, rfl⟩
  · split at h
    · exact absurd h (by simp)
    · split_ifs at h
      all_goals
        simp only [Option.some.injEq] at h
        subst h
        first
          | exact ⟨rfl, rfl⟩
          | exact ⟨setAt_same _ _ _, rfl⟩
          | (rw [returnRange_tc, returnRange_pc]; exact ⟨setAt_same _ _ _, rfl⟩)

/-- Whenever `deallocate(p, n)` returns, `p` is the head of the class list, and the
page cache is as before. -/
theorem deallocate_head {s s' : State} {p n : Nat} (hn : n ≤ MAX_BYTES)
    (h : MemoryPool.deallocate s p n = some s') :
    s'.tc.freeList (SizeClass.getIndex n) = p ∧ s'.pc = s.pc := by
  unfold MemoryPool.deallocate ThreadCache.deallocate at h
  dsimp only at h
  have hsz : ¬ n > MAX_BYTES := by omega
  simp only [hsz, if_false] at h
  split_ifs at h
  · have hm := returnToCentralCache_head h
    dsimp only at hm
    rw [setAt_same] at hm
    exact hm
  · simp only [Option.some.injEq] at h
    subst h
    exact ⟨setAt_same _ _ _, rfl⟩

/-! ### Span records created by one call -/

theorem allocateSpan_nextSpan {s s1 : State} {numPages r : Nat}
    (h : PageCache.allocateSpan s numPages = some (r, s1)) :
    s1.pc.nextSpan ≤ s.pc.nextSpan + 1 := by
  unfold PageCache.allocateSpan at h
  dsimp only at h
  split at h
  · split at h
    · exact absurd h (by simp)
    · split at h <;>
        (simp only [Option.some.injEq, Prod.mk.injEq] at h; obtain ⟨_, rfl⟩ := h
         simp)
  · have hp : (PageCache.systemAlloc s numPages).2.pc = s.pc := by
      unfold PageCache.systemAlloc
      dsimp only
      split
      · rfl
      · split <;> rfl
    split at h <;>
      (simp only [Option.some.injEq, Prod.mk.injEq] at h; obtain ⟨_, rfl⟩ := h
       simp [hp])

theorem fetchRange_nextSpan {s s' : State} {index batchNum r : Nat}
    (h : CentralCache.fetchRange s index batchNum = some (r, s')) :
    s'.pc.nextSpan ≤ s.pc.nextSpan + 1 := by
  unfold CentralCache.fetchRange at h
  dsimp only at h
  split at h
  · simp only [Option.some.injEq, Prod.mk.injEq] at h
    obtain ⟨_, rfl⟩ := h
    omega
  · split at h
    · split at h
      · exact absurd h (by simp)
      · rename_i r1 s1 hpc
        rw [fetchFromPageCache_eq] at hpc
        have hm := allocateSpan_nextSpan hpc
        split at h
        · simp only [Option.some.injEq, Prod.mk.injEq] at h
          obtain ⟨_, rfl⟩ := h
          exact hm
        · split at h <;>
            (simp only [Option.some.injEq, Prod.mk.injEq] at h; obtain ⟨_, rfl⟩ := h; exact hm)
    · simp only [Option.some.injEq, Prod.mk.injEq] at h
      obtain ⟨_, rfl⟩ := h
      show s.pc.nextSpan ≤ s.pc.nextSpan + 1
      omega

theorem fetchFromCentralCache_nextSpan {s s' : State} {index r : Nat}
    (h : ThreadCache.fetchFromCentralCache s index = some (r, s')) :
    s'.pc.nextSpan ≤ s.pc.nextSpan + 1 := by
  unfold ThreadCache.fetchFromCentralCache at h
  dsimp only at h
  split at h
  · exact absurd h (by simp)
  · rename_i r1 s1 hfr
    have hm := fetchRange_nextSpan hfr
    split_ifs at h <;>
      (simp only [Option.some.injEq, Prod.mk.injEq] at h; obtain ⟨_, rfl⟩ := h; exact hm)

theorem allocate_nextSpan {s s' : State} {n p : Nat}
    (h : MemoryPool.allocate s n = some (p, s')) : s'.pc.nextSpan ≤ s.pc.nextSpan + 1 := by
  unfold MemoryPool.allocate ThreadCache.allocate at h
  dsimp only at h
  split_ifs at h
  all_goals first
    | (have hm := fetchFromCentralCache_nextSpan h
       exact hm)
    | (simp only [Option.some.injEq, Prod.mk.injEq] at h
       obtain ⟨_, rfl⟩ := h
       exact Nat.le_succ _)

/-! ### The steady state of the cycle -/

/-- One cycle from a state whose class list has `p` at its head: `allocate` pops
`p` touching nothing but the thread cache, `deallocate` puts it back at the head. -/
theorem cycle_step {s : State} {live : List (Nat × Nat)} {T C : Nat → List Nat}
    (hinv : Inv s live T C) (hos : OsDisjoint s.os.mapped) (n : Nat) (hn : n ≤ MAX_BYTES)
    (p : Nat) (rest : List Nat) (hT : T (SizeClass.getIndex n) = p :: rest) :
    ∃ s1 s2, MemoryPool.allocate s n = some (p, s1) ∧
      s1.mem = s.mem ∧ s1.cc = s.cc ∧ s1.pc = s.pc ∧ s1.os = s.os ∧
      MemoryPool.deallocate s1 p n = some s2 ∧ s2.os = s.os ∧ s2.pc = s.pc ∧
      ∃ live' T' C' rest', Inv s2 live' T' C' ∧ T' (SizeClass.getIndex n) = p :: rest' := by
  have hch := hinv.tchain (SizeClass.getIndex n)
  rw [hT] at hch
  have hp0 : p ≠ 0 := hch.2.1
  obtain ⟨heq, _⟩ := allocate_pop s n p rest hn hch
  obtain ⟨p', s', e, _, _, post⟩ := hinv.alloc_pop n hn p rest hT
  rw [heq] at e
  simp only [Option.some.injEq, Prod.mk.injEq] at e
  obtain ⟨rfl, rfl⟩ := e
  obtain ⟨Ti, Ci, hinv1, _⟩ := post hos
  simp only [hp0, if_false] at hinv1
  obtain ⟨s2, e2, hos2, Ti2, Ci2, hinv2, _⟩ :=
    hinv1.deallocate p n (List.mem_cons_self _ _)
  obtain ⟨hhead, hpc⟩ := deallocate_head hn e2
  refine ⟨_, s2, heq, rfl, rfl, rfl, rfl, e2, hos2, hpc, ?_⟩
  have hch2 := hinv2.tchain (SizeClass.getIndex n)
  rw [hhead] at hch2
  cases hL : Function.update (Function.update T (SizeClass.getIndex n) Ti)
      (SizeClass.getIndex n) Ti2 (SizeClass.getIndex n) with
  | nil =>
    rw [hL] at hch2
    exact absurd hch2 hp0
  | cons x xs =>
    rw [hL] at hch2
    have hx : p = x := hch2.1
    subst hx
    exact ⟨_, _, _, xs, hinv2, hL⟩

/-- Any number of further cycles from such a state return `p` every time and
leave the operating system and the page cache alone. -/
theorem cycles_steady (n : Nat) (hn : n ≤ MAX_BYTES) (p : Nat) :
    ∀ (k : Nat) (s : State) (live : List (Nat × Nat)) (T C : Nat → List Nat) (rest : List Nat),
      Inv s live T C → OsDisjoint s.os.mapped → T (SizeClass.getIndex n) = p :: rest →
      ∃ sk, allocFreeCycles n k s = some (List.replicate k p, sk) ∧
        sk.os = s.os ∧ sk.pc = s.pc ∧
        ∃ live' T' C' rest', Inv sk live' T' C' ∧ T' (SizeClass.getIndex n) = p :: rest'
  | 0, s, live, T, C, rest, hinv, _, hT => ⟨s, rfl, rfl, rfl, live, T, C, rest, hinv, hT⟩
  | k + 1, s, live, T, C, rest, hinv, hos, hT => by
    obtain ⟨s1, s2, e1, _, _, _, _, e2, o2, p2, live2, T2, C2, rest2, hinv2, hT2⟩ :=
      cycle_step hinv hos n hn p rest hT
    obtain ⟨sk, ek, ok, pk, hk⟩ :=
      cycles_steady n hn p k s2 live2 T2 C2 rest2 hinv2 (by rw [o2]; exact hos) hT2
    refine ⟨sk, ?_, by rw [ok, o2], by rw [pk, p2], hk⟩
    simp only [allocFreeCycles, e1, e2, ek, Option.map_some', List.replicate_succ]

/-- C19. From a reachable state, let the first `allocate(n)` (`n ≤ MAX_BYTES`)
return a non-null `p`. That call maps at most one region and creates at most one
span record. Then for every `k ≥ 1` the run of `k` cycles
`p := allocate(n); deallocate(p, n)` returns `p` every time and ends in a state
whose operating-system and page-cache parts are those left by the first
`allocate`: at most one span is acquired in total. After every cycle `p` is the
head of the class list (whether or not `deallocate` returned blocks to the
central cache), and the next `allocate(n)` returns `p` changing only the thread
cache: it does not reach the central cache. -/
theorem alloc_free_cycles {m0 : Mem} {pending : List Nat} {s : State}
    {live : List (Nat × Nat)} (hr : Reachable m0 pending s live) (n : Nat)
    (hn : n ≤ MAX_BYTES) (p : Nat) (s1 : State)
    (h1 : MemoryPool.allocate s n = some (p, s1)) (hp : p ≠ 0)
    (hos : OsDisjoint s1.os.mapped) :
    (s1.os.mapped = s.os.mapped ∨ ∃ reg, s1.os.mapped = reg :: s.os.mapped) ∧
    s1.pc.nextSpan ≤ s.pc.nextSpan + 1 ∧
    ∀ k, 1 ≤ k →
      ∃ sk, allocFreeCycles n k s = some (List.replicate k p, sk) ∧
        sk.os = s1.os ∧ sk.pc = s1.pc ∧ sk.tc.freeList (SizeClass.getIndex n) = p ∧
        ∃ s', MemoryPool.allocate sk n = some (p, s') ∧
          s'.mem = sk.mem ∧ s'.cc = sk.cc ∧ s'.pc = sk.pc ∧ s'.os = sk.os := by
  obtain ⟨T, C, hinv⟩ := reachable_inv hr (List.Pairwise.sublist (allocate_mapped h1) hos)
  obtain ⟨p', s', e, hmap, _, post⟩ := hinv.allocate n hn
  rw [h1] at e
  simp only [Option.some.injEq, Prod.mk.injEq] at e
  obtain ⟨rfl, rfl⟩ := e
  refine ⟨?_, allocate_nextSpan h1, ?_⟩
  · rcases hmap with h | ⟨_, _, h⟩
    · exact Or.inl h
    · exact Or.inr h
  · obtain ⟨Ti, Ci, hinv1, _⟩ := post hos
    simp only [hp, if_false] at hinv1
    obtain ⟨s2, e2, hos2, Ti2, Ci2, hinv2, _⟩ :=
      hinv1.deallocate p n (List.mem_cons_self _ _)
    obtain ⟨hhead, hpc⟩ := deallocate_head hn e2
    have hch2 := hinv2.tchain (SizeClass.getIndex n)
    rw [hhead] at hch2
    cases hL : Function.update (Function.update T (SizeClass.getIndex n) Ti)
        (SizeClass.getIndex n) Ti2 (SizeClass.getIndex n) with
    | nil =>
      rw [hL] at hch2
      exact absurd hch2 hp
    | cons x xs =>
      rw [hL] at hch2
      have hx : p = x := hch2.1
      subst hx
      intro k hk
      obtain ⟨j, rfl⟩ : ∃ j, k = j + 1 := ⟨k - 1, by omega⟩
      obtain ⟨sk, ek, ok, pk, live', T', C', rest', hinv', hT'⟩ :=
        cycles_steady n hn p j s2 _ _ _ xs hinv2 (by rw [hos2]; exact hos) hL
      have hch' := hinv'.tchain (SizeClass.getIndex n)
      rw [hT'] at hch'
      obtain ⟨heq, _⟩ := allocate_pop sk n p rest' hn hch'
      refine ⟨sk, ?_, by rw [ok, hos2], by rw [pk, hpc], hch'.1, _, heq, rfl, rfl, rfl, rfl⟩
      simp only [allocFreeCycles, h1, e2, ek, Option.map_some', List.replicate_succ]

/-- The theorem of C19 on a machine that refused two mappings before: the counter of
the class stands at `2 ^ 64 - 2` over an empty list, the first `allocate(2048)` of
the run takes a new span, and every `deallocate` of the run calls
`returnToCentralCache`. -/
theorem alloc_free_cycles_witness :
    Reachable (fun _ => 0) [0, 0, 0x10000] refusedTwice [] ∧
    refusedTwice.tc.freeListSize (SizeClass.getIndex 2048) = SIZE_MOD - 2 ∧
    MemoryPool.allocate refusedTwice 2048 = some (0x10000, refusedServed) ∧
    OsDisjoint refusedServed.os.mapped ∧
    returnTriggered refusedServed 0x10000 2048 = true ∧
    ∃ sk, allocFreeCycles 2048 3 refusedTwice = some (List.replicate 3 0x10000, sk) ∧
      sk.os = refusedServed.os ∧ sk.pc = refusedServed.pc ∧
      sk.tc.freeList (SizeClass.getIndex 2048) = 0x10000 ∧
      ∃ s', MemoryPool.allocate sk 2048 = some (0x10000, s') ∧
        s'.mem = sk.mem ∧ s'.cc = sk.cc ∧ s'.pc = sk.pc ∧ s'.os = sk.os :=
  have hr : Reachable (fun _ => 0) [0, 0, 0x10000] refusedTwice [] :=
    Reachable.allocNull
      (Reachable.allocNull (Reachable.init : Reachable (fun _ => 0) [0, 0, 0x10000] refusedFresh [])
        (by decide : 2048 ≤ MAX_BYTES) (rfl : MemoryPool.allocate refusedFresh 2048 = some (0, refusedOnce)))
      (by decide : 2048 ≤ MAX_BYTES) (rfl : MemoryPool.allocate refusedOnce 2048 = some (0, refusedTwice))
  have hos : OsDisjoint refusedServed.os.mapped := by
    show List.Pairwise _ [(0x10000, 32768)]
    simp
  ⟨hr, rfl, rfl, hos, rfl,
    (@alloc_free_cycles (fun _ => 0) [0, 0, 0x10000] _ _ hr 2048 (by decide)
      0x10000 refusedServed rfl (by decide) hos).2.2 3 (by decide)⟩

/-- C19 as stated fails on the code. The fresh state of a machine that refuses every
mapping is reachable; there `allocate(8)` returns null and leaves the class list
empty, the `deallocate(nullptr, 8)` of the cycle writes through the null pointer,
so the run of one cycle faults; and an `allocate(8)` after the first reaches the
central cache again and returns null again. -/
theorem alloc_free_cycle_null :
    Reachable (fun _ => 0) [] (fresh (fun _ => 0) []) [] ∧
    allocFreeCycles 8 1 (fresh (fun _ => 0) []) = none ∧
    ∃ s1, MemoryPool.allocate (fresh (fun _ => 0) []) 8 = some (0, s1) ∧
      MemoryPool.deallocate s1 0 8 = none ∧
      s1.tc.freeList (SizeClass.getIndex 8) = 0 ∧
      s1.cc.centralFreeList (SizeClass.getIndex 8) = 0 ∧
      ∃ s2, MemoryPool.allocate s1 8 = some (0, s2) :=
  ⟨Reachable.init, rfl, _, rfl, rfl, rfl, rfl, _, rfl⟩

/-! ## The association lists that stand for `std::map` -/

theorem mapFind_mapSet (m : List (Nat × Nat)) (k v k' : Nat) :
    mapFind (mapSet m k v) k' = if k' = k then some v else mapFind m k' := by
  induction m with
  | nil =>
    by_cases h : k' = k
    · simp [mapSet, mapFind, h]
    · simp [mapSet, mapFind, h, Ne.symm h]
  | cons e rest ih =>
    obtain ⟨k0, v0⟩ := e
    unfold mapSet
    by_cases h0 : k0 = k
    · subst h0
      by_cases h : k' = k0
      · simp [mapFind, h]
      · simp [mapFind, h, Ne.symm h]
    · simp only [h0, if_false]
      by_cases hlt : k < k0
      · simp only [hlt, if_true]
        by_cases h : k' = k
        · simp [mapFind, h]
        · simp only [mapFind, h, if_false, Ne.symm h]
      · simp only [hlt, if_false]
        by_cases hk : k0 = k'
        · have : ¬ k' = k := fun e => h0 (hk.trans e)
          simp [mapFind, hk, this]
        · simp only [mapFind, hk, if_false, ih]

theorem mapFind_mem {m : List (Nat × Nat)} {k v : Nat} (h : mapFind m k = some v) :
    (k, v) ∈ m := by
  induction m with
  | nil => simp [mapFind] at h
  | cons e rest ih =>
    obtain ⟨k0, v0⟩ := e
    unfold mapFind at h
    by_cases h0 : k0 = k
    · simp only [h0, if_true, Option.some.injEq] at h
      subst h0 h
      exact List.mem_cons_self _ _
    · simp only [h0, if_false] at h
      exact List.mem_cons_of_mem _ (ih h)

theorem mapFind_none_of_lt {m : List (Nat × Nat)} {k : Nat}
    (h : ∀ e ∈ m, k < e.1) : mapFind m k = none := by
  induction m with
  | nil => rfl
  | cons e rest ih =>
    obtain ⟨k0, v0⟩ := e
    have h0 : k0 ≠ k := by
      have := h (k0, v0) (List.mem_cons_self _ _)
      simp only at this
      omega
    simp only [mapFind, h0, if_false]
    exact ih (fun e he => h e (List.mem_cons_of_mem _ he))

theorem mem_mapSet {m : List (Nat × Nat)} {k v : Nat} {e : Nat × Nat}
    (he : e ∈ mapSet m k v) : e = (k, v) ∨ e ∈ m := by
  induction m with
  | nil =>
    simp only [mapSet, List.mem_singleton] at he
    exact Or.inl he
  | cons e0 rest ih =>
    obtain ⟨k0, v0⟩ := e0
    unfold mapSet at he
    split_ifs at he
    · rcases List.mem_cons.1 he with h | h
      · exact Or.inl h
      · exact Or.inr (List.mem_cons_of_mem _ h)
    · rcases List.mem_cons.1 he with h | h
      · exact Or.inl h
      · exact Or.inr h
    · rcases List.mem_cons.1 he with h | h
      · exact Or.inr (h ▸ List.mem_cons_self _ _)
      · rcases ih h with h' | h'
        · exact Or.inl h'
        · exact Or.inr (List.mem_cons_of_mem _ h')

theorem mapSorted_mapSet {m : List (Nat × Nat)} (hs : MapSorted m) (k v : Nat) :
    MapSorted (mapSet m k v) := by
  unfold MapSorted at hs ⊢
  induction m with
  | nil => simp [mapSet]
  | cons e0 rest ih =>
    obtain ⟨k0, v0⟩ := e0
    obtain ⟨h1, h2⟩ := List.pairwise_cons.1 hs
    unfold mapSet
    split_ifs with h0 hlt
    · subst h0
      exact List.pairwise_cons.2 ⟨h1, h2⟩
    · refine List.pairwise_cons.2 ⟨?_, hs⟩
      intro e he
      rcases List.mem_cons.1 he with h | h
      · rw [h]; exact hlt
      · have := h1 e h
        simp only at this ⊢
        omega
    · refine List.pairwise_cons.2 ⟨?_, ih h2⟩
      intro e he
      rcases mem_mapSet he with h | h
      · rw [h]
        simp only
        omega
      · exact h1 e h

theorem mem_mapErase {m : List (Nat × Nat)} {k : Nat} {e : Nat × Nat}
    (he : e ∈ mapErase m k) : e ∈ m := by
  induction m with
  | nil => simp [mapErase] at he
  | cons e0 rest ih =>
    obtain ⟨k0, v0⟩ := e0
    unfold mapErase at he
    split_ifs at he
    · exact List.mem_cons_of_mem _ he
    · rcases List.mem_cons.1 he with h | h
      · exact h ▸ List.mem_cons_self _ _
      · exact List.mem_cons_of_mem _ (ih h)

theorem mapSorted_mapErase {m : List (Nat × Nat)} (hs : MapSorted m) (k : Nat) :
    MapSorted (mapErase m k) := by
  unfold MapSorted at hs ⊢
  induction m with
  | nil => simp [mapErase]
  | cons e0 rest ih =>
    obtain ⟨k0, v0⟩ := e0
    obtain ⟨h1, h2⟩ := List.pairwise_cons.1 hs
    unfold mapErase
    split_ifs
    · exact h2
    · exact List.pairwise_cons.2 ⟨fun e he => h1 e (mem_mapErase he), ih h2⟩

theorem mapFind_mapErase {m : List (Nat × Nat)} (hs : MapSorted m) (k k' : Nat) :
    mapFind (mapErase m k) k' = if k' = k then none else mapFind m k' := by
  unfold MapSorted at hs
  induction m with
  | nil => simp [mapErase, mapFind]
  | cons e0 rest ih =>
    obtain ⟨k0, v0⟩ := e0
    obtain ⟨h1, h2⟩ := List.pairwise_cons.1 hs
    unfold mapErase
    by_cases h0 : k0 = k
    · subst h0
      simp only [if_true]
      by_cases h : k' = k0
      · subst h
        simp only [if_true]
        exact mapFind_none_of_lt h1
      · simp only [h, if_false, mapFind, Ne.symm h]
    · simp only [h0, if_false]
      by_cases hk : k0 = k'
      · have : ¬ k' = k := fun e => h0 (hk.trans e)
        simp [mapFind, hk, this]
      · simp only [mapFind, hk, if_false, ih h2]

theorem mapGet_mapSet (m : List (Nat × Nat)) (k v k' : Nat) :
    mapGet (mapSet m k v) k' = if k' = k then v else mapGet m k' := by
  unfold mapGet
  rw [mapFind_mapSet]
  split <;> rfl

theorem mapGet_mapErase {m : List (Nat × Nat)} (hs : MapSorted m) (k k' : Nat) :
    mapGet (mapErase m k) k' = if k' = k then 0 else mapGet m k' := by
  unfold mapGet
  rw [mapFind_mapErase hs]
  split <;> rfl

theorem mapGet_mapTouch (m : List (Nat × Nat)) (k k' : Nat) :
    mapGet (mapTouch m k) k' = mapGet m k' := by
  unfold mapTouch
  cases h : mapFind m k with
  | some v => rfl
  | none =>
    simp only
    rw [mapGet_mapSet]
    split
    · rename_i hk
      subst hk
      simp [mapGet, h]
    · rfl

theorem mapSorted_mapTouch {m : List (Nat × Nat)} (hs : MapSorted m) (k : Nat) :
    MapSorted (mapTouch m k) := by
  unfold mapTouch
  cases h : mapFind m k with
  | some v => exact hs
  | none => exact mapSorted_mapSet hs k 0

/-- A `lower_bound` hit is an entry of the map, found again under its key, and
its key is at least the bound. -/
theorem mapLowerBound_some {m : List (Nat × Nat)} {n k v : Nat}
    (h : mapLowerBound m n = some (k, v)) : n ≤ k ∧ mapFind m k = some v := by
  induction m with
  | nil => simp [mapLowerBound] at h
  | cons e0 rest ih =>
    obtain ⟨k0, v0⟩ := e0
    unfold mapLowerBound at h
    split_ifs at h with hle
    · simp only [Option.some.injEq, Prod.mk.injEq] at h
      obtain ⟨rfl, rfl⟩ := h
      exact ⟨hle, by simp [mapFind]⟩
    · obtain ⟨h1, h2⟩ := ih h
      refine ⟨h1, ?_⟩
      have : k0 ≠ k := by omega
      simp only [mapFind, this, if_false, h2]

/-- In a sorted map the key of a `lower_bound` hit is the smallest key that is at
least the bound. -/
theorem mapLowerBound_least {m : List (Nat × Nat)} (hs : MapSorted m) {n k v : Nat}
    (h : mapLowerBound m n = some (k, v)) : ∀ e ∈ m, n ≤ e.1 → k ≤ e.1 := by
  unfold MapSorted at hs
  induction m with
  | nil => simp [mapLowerBound] at h
  | cons e0 rest ih =>
    obtain ⟨k0, v0⟩ := e0
    obtain ⟨h1, h2⟩ := List.pairwise_cons.1 hs
    unfold mapLowerBound at h
    intro e he hne
    split_ifs at h with hle
    · simp only [Option.some.injEq, Prod.mk.injEq] at h
      obtain ⟨rfl, rfl⟩ := h
      rcases List.mem_cons.1 he with h' | h'
      · rw [h']
      · exact Nat.le_of_lt (h1 e h')
    · rcases List.mem_cons.1 he with h' | h'
      · rw [h'] at hne
        exact absurd hne hle
      · exact ih h2 h e h' hne

/-- A `lower_bound` miss: no key is at least the bound. -/
theorem mapLowerBound_none {m : List (Nat × Nat)} {n : Nat}
    (h : mapLowerBound m n = none) : ∀ e ∈ m, e.1 < n := by
  induction m with
  | nil => intro e he; simp at he
  | cons e0 rest ih =>
    obtain ⟨k0, v0⟩ := e0
    unfold mapLowerBound at h
    split_ifs at h with hle
    intro e he
    rcases List.mem_cons.1 he with h' | h'
    · rw [h']
      simp only
      omega
    · exact ih h e h'

/-- If some key is at least the bound, `lower_bound` hits. -/
theorem mapLowerBound_isSome {m : List (Nat × Nat)} {n : Nat} {e : Nat × Nat}
    (he : e ∈ m) (hn : n ≤ e.1) : ∃ k v, mapLowerBound m n = some (k, v) := by
  cases h : mapLowerBound m n with
  | none =>
    have := mapLowerBound_none h e he
    omega
  | some kv => exact ⟨kv.1, kv.2, rfl⟩

/-! ## Free lists of span records -/

theorem chainList_of_chain (m : Mem) : ∀ (fuel : Nat) (L : List Nat) (h : Nat),
    IsChain m h L → L.length ≤ fuel → chainList m fuel h = L
  | 0, L, h, hc, hl => by
    have : L = [] := List.length_eq_zero.1 (by omega)
    subst this
    rfl
  | fuel + 1, [], h, hc, _ => by
    have h0 : h = 0 := hc
    simp [chainList, h0]
  | fuel + 1, x :: xs, h, hc, hl => by
    obtain ⟨h1, h2, h3⟩ := hc
    subst h1
    simp only [chainList, h2, if_false]
    rw [chainList_of_chain m fuel xs (m h) h3 (by simpa using hl)]

theorem nextOf_setSpan (spans : Nat → Span) (p : Nat) (v : Span) :
    nextOf (setSpan spans p v) = store (nextOf spans) p v.next := by
  funext x
  unfold nextOf setSpan store
  split <;> rfl

theorem setSpan_same (spans : Nat → Span) (p : Nat) (v : Span) : setSpan spans p v p = v := by
  simp [setSpan]

theorem setSpan_other (spans : Nat → Span) (p : Nat) (v : Span) (q : Nat) (h : q ≠ p) :
    setSpan spans p v q = spans q := by
  simp [setSpan, h]

/-- A chain of records is not disturbed by assigning to a record outside it. -/
theorem IsSeg.setSpan_frame {spans : Nat → Span} {xs : List Nat} {h t : Nat}
    (hs : IsSeg (nextOf spans) h xs t) (p : Nat) (v : Span) (hp : p ∉ xs) :
    IsSeg (nextOf (setSpan spans p v)) h xs t := by
  rw [nextOf_setSpan]
  exact hs.frame _ _ hp

/-- The walk of `deallocateSpan` finds a record that is on the list behind the
head and unlinks it: the list is then the old one without that record, and only
the `next` field of its predecessor has changed. -/
theorem unlinkLoop_found (t : Nat) : ∀ (L1 : List Nat) (fuel : Nat) (spans : Nat → Span)
    (prev : Nat) (L2 : List Nat),
    IsChain (nextOf spans) prev (prev :: L1 ++ t :: L2) → L1.length < fuel →
    ∃ p, p ∈ prev :: L1 ∧
      PageCache.unlinkLoop t fuel spans prev =
        some (setSpan spans p { spans p with next := (spans t).next }, true) ∧
      IsChain (nextOf (setSpan spans p { spans p with next := (spans t).next })) prev
        (prev :: L1 ++ L2)
  | [], fuel, spans, prev, L2, hc, hf => by
    obtain ⟨f, rfl⟩ : ∃ f, fuel = f + 1 := ⟨fuel - 1, by simp at hf; omega⟩
    have hnd := hc.nodup
    obtain ⟨_, hp0, hc1⟩ := hc
    obtain ⟨ht, ht0, hc2⟩ := hc1
    have hpn : (spans prev).next = t := ht
    refine ⟨prev, List.mem_cons_self _ _, ?_, ?_⟩
    · simp only [PageCache.unlinkLoop, hpn, ht0, if_false, if_true]
    · refine ⟨rfl, hp0, ?_⟩
      have hnot : prev ∉ L2 := by
        intro hx
        have := (List.nodup_cons.1 hnd).1
        exact this (by simp [hx])
      have h2 : IsChain (nextOf spans) ((spans t).next) L2 := hc2
      have h3 := IsSeg.setSpan_frame h2 prev { spans prev with next := (spans t).next } hnot
      have he : nextOf (setSpan spans prev { spans prev with next := (spans t).next }) prev
          = (spans t).next := by
        simp [nextOf, setSpan]
      show IsSeg _ (nextOf (setSpan spans prev _) prev) L2 0
      rw [he]
      exact h3
  | y :: L1, fuel, spans, prev, L2, hc, hf => by
    obtain ⟨f, rfl⟩ : ∃ f, fuel = f + 1 := ⟨fuel - 1, by simp at hf; omega⟩
    have hnd := hc.nodup
    obtain ⟨_, hp0, hc1⟩ := hc
    have hy : (spans prev).next = y := hc1.1
    have hy0 : y ≠ 0 := hc1.2.1
    have hyt : y ≠ t := by
      intro e
      have h1 := (List.nodup_cons.1 (List.nodup_cons.1 hnd).2).1
      exact h1 (by simp [e])
    have hc1' : IsChain (nextOf spans) y (y :: L1 ++ t :: L2) := by
      have := hc1
      rw [show nextOf spans prev = y from hy] at this
      exact this
    obtain ⟨p, hp, hrun, hch⟩ :=
      unlinkLoop_found t L1 f spans y L2 hc1' (by simpa using hf)
    refine ⟨p, List.mem_cons_of_mem _ hp, ?_, ?_⟩
    · simp only [PageCache.unlinkLoop, hy, hy0, hyt, if_false, hrun]
    · refine ⟨rfl, hp0, ?_⟩
      have hne : prev ≠ p := by
        intro e
        have h1 := (List.nodup_cons.1 hnd).1
        apply h1
        rw [e]
        exact List.mem_append_left _ hp
      have he : nextOf (setSpan spans p { spans p with next := (spans t).next }) prev = y := by
        simp only [nextOf, setSpan, hne, if_false]
        exact hy
      show IsSeg _ (nextOf (setSpan spans p _) prev) ((y :: L1) ++ L2) 0
      rw [he]
      exact hch

/-- The walk of `deallocateSpan` over a list that does not hold the record
behind its head ends without a change. -/
theorem unlinkLoop_absent (t : Nat) (spans : Nat → Span) : ∀ (L : List Nat) (fuel prev : Nat),
    IsChain (nextOf spans) prev (prev :: L) → t ∉ L → L.length < fuel →
    PageCache.unlinkLoop t fuel spans prev = some (spans, false)
  | [], fuel, prev, hc, _, hf => by
    obtain ⟨f, rfl⟩ : ∃ f, fuel = f + 1 := ⟨fuel - 1, by simp at hf; omega⟩
    have h0 : (spans prev).next = 0 := hc.2.2
    simp only [PageCache.unlinkLoop, h0, if_true]
  | y :: L, fuel, prev, hc, ht, hf => by
    obtain ⟨f, rfl⟩ : ∃ f, fuel = f + 1 := ⟨fuel - 1, by simp at hf; omega⟩
    obtain ⟨_, hp0, hc1⟩ := hc
    have hy : (spans prev).next = y := hc1.1
    have hy0 : y ≠ 0 := hc1.2.1
    have hyt : y ≠ t := fun e => ht (by simp [e])
    have hc1' : IsChain (nextOf spans) y (y :: L) := by
      have := hc1
      rw [show nextOf spans prev = y from hy] at this
      exact this
    simp only [PageCache.unlinkLoop, hy, hy0, hyt, if_false]
    exact unlinkLoop_absent t spans L f y hc1' (fun h => ht (List.mem_cons_of_mem _ h))
      (by simpa using hf)

/-! ## The two paths of `allocateSpan` on a hit, and the list operations -/

/-- The map `allocateSpan` leaves after removing the head `h` of the list of `key`. -/
theorem pop_mapGet {fs : List (Nat × Nat)} (hs : MapSorted fs) (key nxt : Nat) (k : Nat) :
    mapGet (if nxt ≠ 0 then mapSet fs key nxt else mapErase fs key) k
      = if k = key then nxt else mapGet fs k := by
  by_cases h : nxt = 0
  · simp only [h, ne_eq, not_true_eq_false, if_false]
    rw [mapGet_mapErase hs]
  · simp only [h, ne_eq, not_false_eq_true, if_true]
    rw [mapGet_mapSet]

theorem pop_sorted {fs : List (Nat × Nat)} (hs : MapSorted fs) (key nxt : Nat) :
    MapSorted (if nxt ≠ 0 then mapSet fs key nxt else mapErase fs key) := by
  split
  · exact mapSorted_mapSet hs _ _
  · exact mapSorted_mapErase hs _

/-- Removing the head of the list of `key`: every list is as before, except that
the list of `key` has lost its head. -/
theorem pop_chains {spans : Nat → Span} {fs : List (Nat × Nat)} {F : Nat → List Nat}
    (hs : MapSorted fs) (hch : ∀ k, IsChain (nextOf spans) (mapGet fs k) (F k))
    {key h : Nat} {rest : List Nat} (hF : F key = h :: rest) :
    ∀ k, IsChain (nextOf spans)
      (mapGet (if (spans h).next ≠ 0 then mapSet fs key (spans h).next else mapErase fs key) k)
      (Function.update F key rest k) := by
  intro k
  rw [pop_mapGet hs]
  by_cases hk : k = key
  · subst hk
    simp only [if_true, Function.update_same]
    have := hch k
    rw [hF] at this
    exact this.2.2
  · simp only [hk, if_false, Function.update_noteq hk]
    exact hch k

/-- Putting the record `q`, which is on no list, at the head of the list of `k0`. -/
theorem push_chains {spans : Nat → Span} {fs : List (Nat × Nat)} {F : Nat → List Nat}
    (hch : ∀ k, IsChain (nextOf spans) (mapGet fs k) (F k))
    {q k0 : Nat} (hq0 : q ≠ 0) (hq : ∀ k, q ∉ F k) (v : Span) (hv : v.next = mapGet fs k0) :
    ∀ k, IsChain (nextOf (setSpan spans q v)) (mapGet (mapSet fs k0 q) k)
      (Function.update F k0 (q :: F k0) k) := by
  intro k
  rw [mapGet_mapSet]
  by_cases hk : k = k0
  · subst hk
    simp only [if_true, Function.update_same]
    refine ⟨rfl, hq0, ?_⟩
    have h1 : nextOf (setSpan spans q v) q = mapGet fs k := by
      simp [nextOf, setSpan, hv]
    rw [h1]
    exact IsSeg.setSpan_frame (hch k) q v (hq k)
  · simp only [hk, if_false, Function.update_noteq hk]
    exact IsSeg.setSpan_frame (hch k) q v (hq k)

/-- Assigning to a record without changing its `next` field leaves every list as it is. -/
theorem keep_chains {spans : Nat → Span} {fs : List (Nat × Nat)} {F : Nat → List Nat}
    (hch : ∀ k, IsChain (nextOf spans) (mapGet fs k) (F k))
    (q : Nat) (v : Span) (hv : v.next = (spans q).next) :
    ∀ k, IsChain (nextOf (setSpan spans q v)) (mapGet fs k) (F k) := by
  intro k
  have : nextOf (setSpan spans q v) = nextOf spans := by
    funext x
    unfold nextOf setSpan
    split
    · rename_i h
      rw [hv, h]
    · rfl
  rw [this]
  exact hch k

theorem allocateSpan_hit_exact {s : State} {n key h : Nat}
    (hlb : mapLowerBound s.pc.freeSpans n = some (key, h)) (h0 : h ≠ 0)
    (hle : (s.pc.spans h).numPages ≤ n) :
    PageCache.allocateSpan s n = some ((s.pc.spans h).pageAddr,
      { s with pc := { s.pc with
          freeSpans :=
            if (s.pc.spans h).next ≠ 0 then mapSet s.pc.freeSpans key (s.pc.spans h).next
            else mapErase s.pc.freeSpans key,
          spanMap := mapSet s.pc.spanMap (s.pc.spans h).pageAddr h } }) := by
  unfold PageCache.allocateSpan
  have hgt : ¬ (s.pc.spans h).numPages > n := by omega
  simp only [hlb, h0, if_false, hgt]

theorem allocateSpan_hit_split {s : State} {n key h : Nat}
    (hlb : mapLowerBound s.pc.freeSpans n = some (key, h)) (h0 : h ≠ 0)
    (hgt : n < (s.pc.spans h).numPages) :
    PageCache.allocateSpan s n = some ((s.pc.spans h).pageAddr,
      { s with pc :=
        { freeSpans :=
            mapSet
              (if (s.pc.spans h).next ≠ 0 then mapSet s.pc.freeSpans key (s.pc.spans h).next
                else mapErase s.pc.freeSpans key)
              ((s.pc.spans h).numPages - n) s.pc.nextSpan,
          spanMap := s.pc.spanMap,
          spans :=
            setSpan
              (setSpan s.pc.spans s.pc.nextSpan
                ⟨(s.pc.spans h).pageAddr + (n * PAGE_SIZE) % SIZE_MOD,
                  (s.pc.spans h).numPages - n,
                  mapGet
                    (if (s.pc.spans h).next ≠ 0
                      then mapSet s.pc.freeSpans key (s.pc.spans h).next
                      else mapErase s.pc.freeSpans key)
                    ((s.pc.spans h).numPages - n)⟩)
              h { s.pc.spans h with numPages := n },
          nextSpan := s.pc.nextSpan + 1 } }) := by
  unfold PageCache.allocateSpan
  have hgt' : (s.pc.spans h).numPages > n := hgt
  simp only [hlb, h0, if_false, hgt', if_true]

/-- The hit path of `allocateSpan` when the entry the lookup finds has a non-null
head `h` whose record has the key's page count (and `new Span` returns an address
other than `h`): no request goes to the operating system, the memory is
untouched, `key` is the smallest key that is at least `numPages`, `h` is taken off
its list and keeps its start address with `numPages` pages. When `key` is larger,
the new record describes the other `key - numPages` pages, starting
`numPages * PAGE_SIZE` bytes further, and heads the free list of
`key - numPages`; otherwise the records are unchanged and `h` is written to the
span map. -/
theorem allocateSpan_hit_spec (s : State) (numPages key h : Nat) (hn1 : 1 ≤ numPages)
    (hs : MapSorted s.pc.freeSpans)
    (hlb : mapLowerBound s.pc.freeSpans numPages = some (key, h))
    (h0 : h ≠ 0) (hpg : (s.pc.spans h).numPages = key) (hnew : h ≠ s.pc.nextSpan)
    (hfit : key * PAGE_SIZE < SIZE_MOD) :
    ∃ s', PageCache.allocateSpan s numPages = some ((s.pc.spans h).pageAddr, s') ∧
      s'.os = s.os ∧ s'.mem = s.mem ∧
      numPages ≤ key ∧ (∀ e ∈ s.pc.freeSpans, numPages ≤ e.1 → key ≤ e.1) ∧
      mapGet s'.pc.freeSpans key = (s.pc.spans h).next ∧
      (s'.pc.spans h).pageAddr = (s.pc.spans h).pageAddr ∧
      (s'.pc.spans h).numPages = numPages ∧
      (numPages < key →
        mapGet s'.pc.freeSpans (key - numPages) = s.pc.nextSpan ∧
        s'.pc.spans s.pc.nextSpan =
          ⟨(s.pc.spans h).pageAddr + numPages * PAGE_SIZE, key - numPages,
            mapGet s.pc.freeSpans (key - numPages)⟩ ∧
        numPages * PAGE_SIZE + (key - numPages) * PAGE_SIZE = key * PAGE_SIZE ∧
        s'.pc.spanMap = s.pc.spanMap) ∧
      (numPages = key →
        s'.pc.spans = s.pc.spans ∧
        s'.pc.spanMap = mapSet s.pc.spanMap (s.pc.spans h).pageAddr h) := by
  obtain ⟨hle, _⟩ := mapLowerBound_some hlb
  have hleast := mapLowerBound_least hs hlb
  have hP : PAGE_SIZE = 4096 := rfl
  by_cases hgt : numPages < key
  · have hmod : (numPages * PAGE_SIZE) % SIZE_MOD = numPages * PAGE_SIZE := by
      apply Nat.mod_eq_of_lt
      rw [hP] at hfit ⊢
      omega
    have hne : key - numPages ≠ key := by omega
    refine ⟨_, allocateSpan_hit_split hlb h0 (by rw [hpg]; exact hgt), rfl, rfl, hle, hleast,
      ?_, ?_, ?_, fun _ => ⟨?_, ?_, ?_, rfl⟩, fun e => absurd e (by omega)⟩
    · show mapGet (mapSet _ _ _) key = _
      rw [hpg, mapGet_mapSet, if_neg (Ne.symm hne), pop_mapGet hs, if_pos rfl]
    · show (setSpan _ h _ h).pageAddr = _
      rw [setSpan_same]
    · show (setSpan _ h _ h).numPages = _
      rw [setSpan_same]
    · show mapGet (mapSet _ _ _) (key - numPages) = _
      rw [hpg, mapGet_mapSet, if_pos rfl]
    · show setSpan (setSpan _ _ _) h _ s.pc.nextSpan = _
      rw [setSpan_other _ _ _ _ (Ne.symm hnew), setSpan_same, hpg, hmod, pop_mapGet hs,
        if_neg hne]
    · rw [hP]
      omega
  · have hk : numPages = key := by omega
    refine ⟨_, allocateSpan_hit_exact hlb h0 (by rw [hpg]; omega), rfl, rfl, hle, hleast,
      ?_, rfl, ?_, fun e => absurd e hgt, fun _ => ⟨rfl, rfl⟩⟩
    · show mapGet (if _ then _ else _) key = _
      rw [pop_mapGet hs, if_pos rfl]
    · show (s.pc.spans h).numPages = numPages
      rw [hpg, hk]

/-! ## The page-cache invariant is kept -/

theorem PAGE_SIZE_pos : 0 < PAGE_SIZE := by decide

/-- A span of positive length inside the old mappings is disjoint from a new
mapping that is disjoint from all of them. -/
theorem disj_of_covered {mapped : List (Nat × Nat)} {a la p len : Nat}
    (hc : Covered mapped a la) (hla : 0 < la) (hlen : 0 < len)
    (hd : ∀ reg ∈ mapped, p + len ≤ reg.1 ∨ reg.1 + reg.2 ≤ p) :
    p + len ≤ a ∨ a + la ≤ p := by
  by_contra hcon
  have h1 : a < p + len := by omega
  have h2 : p < a + la := by omega
  obtain ⟨reg, hreg, hx1, hx2⟩ := hc (max p a) (le_max_right _ _) (by
    rcases le_total p a with h | h
    · rw [max_eq_right h]; omega
    · rw [max_eq_left h]; omega)
  rcases hd reg hreg with h | h
  · rcases le_total p a with h' | h'
    · rw [max_eq_right h'] at hx1 hx2; omega
    · rw [max_eq_left h'] at hx1 hx2; omega
  · have : p ≤ max p a := le_max_left _ _
    omega

theorem Covered.mono {mapped mapped' : List (Nat × Nat)} {a len a' len' : Nat}
    (hc : Covered mapped a len) (hsub : ∀ reg ∈ mapped, reg ∈ mapped')
    (h1 : a ≤ a') (h2 : a' + len' ≤ a + len) : Covered mapped' a' len' := by
  intro x hx1 hx2
  obtain ⟨reg, hreg, h⟩ := hc x (by omega) (by omega)
  exact ⟨reg, hsub reg hreg, h⟩

/-- Two records in use that start at the same address are the same record. -/
theorem PcInv.addr_inj {s : State} {al : List (Nat × Nat)} {F : Nat → List Nat} {H : List Nat}
    (hinv : PcInv s al F H) {r r' : Nat} (hr : Owned F H r) (hr' : Owned F H r')
    (he : (s.pc.spans r).pageAddr = (s.pc.spans r').pageAddr) : r = r' := by
  by_contra hne
  have hd := hinv.geom r r' hr hr' hne
  have h1 := (hinv.shape r hr).1
  have h2 := (hinv.shape r' hr').1
  have hP := PAGE_SIZE_pos
  have e1 : 0 < (s.pc.spans r).numPages * PAGE_SIZE := Nat.mul_pos (by omega) hP
  have e2 : 0 < (s.pc.spans r').numPages * PAGE_SIZE := Nat.mul_pos (by omega) hP
  unfold SpanDisj at hd
  omega

/-- A record on a free list is on the list of its own page count only. -/
theorem PcInv.free_key {s : State} {al : List (Nat × Nat)} {F : Nat → List Nat} {H : List Nat}
    (hinv : PcInv s al F H) {r k k' : Nat} (hr : r ∈ F k) (hr' : r ∈ F k') : k = k' := by
  rw [← hinv.pages k r hr, ← hinv.pages k' r hr']

/-- What a `lower_bound` hit means in a state that satisfies the invariant. -/
theorem PcInv.hit {s : State} {al : List (Nat × Nat)} {F : Nat → List Nat} {H : List Nat}
    (hinv : PcInv s al F H) {n key h : Nat}
    (hlb : mapLowerBound s.pc.freeSpans n = some (key, h)) :
    n ≤ key ∧ mapGet s.pc.freeSpans key = h ∧
    (h ≠ 0 → ∃ rest, F key = h :: rest ∧ (s.pc.spans h).numPages = key) := by
  obtain ⟨h1, h2⟩ := mapLowerBound_some hlb
  have hg : mapGet s.pc.freeSpans key = h := by simp [mapGet, h2]
  refine ⟨h1, hg, fun h0 => ?_⟩
  have hch := hinv.chains key
  rw [hg] at hch
  cases hF : F key with
  | nil =>
    rw [hF] at hch
    exact absurd hch h0
  | cons x rest =>
    rw [hF] at hch
    have hx : h = x := hch.1
    subst hx
    exact ⟨rest, rfl, hinv.pages key h (by rw [hF]; exact List.mem_cons_self _ _)⟩

/-- The invariant only looks at the page cache and at the log of mappings. -/
theorem PcInv.of_same_pc {s s' : State} {al : List (Nat × Nat)} {F : Nat → List Nat} {H : List Nat}
    (hinv : PcInv s al F H) (hpc : s'.pc = s.pc) (hos : s'.os.mapped = s.os.mapped) :
    PcInv s' al F H := by
  obtain ⟨a1, a2, a3, a4, a5, a6, a7, a8, a9, a10, a11, a12, a13⟩ := hinv
  refine ⟨?_, ?_, ?_, ?_, ?_, a6, a7, ?_, ?_, ?_, ?_, a12, ?_⟩
  all_goals rw [hpc]
  · exact a1
  · exact a2
  · exact a3
  · exact a4
  · exact a5
  · exact a8
  · rw [hos]; exact a9
  · exact a10
  · exact a11
  · exact a13

theorem PcInv.at_start (m0 : Mem) (pending : List Nat) :
    PcInv (fresh m0 pending) [] (fun _ => []) [] := by
  refine ⟨List.Pairwise.nil, List.Pairwise.nil, Nat.one_pos, fun _ => rfl, ?_, List.nodup_nil,
    ?_, ?_, ?_, ?_, ?_, List.nodup_nil, ?_⟩
  · intro k r hr; simp at hr
  · intro r hr; simp at hr
  · intro r hr
    rcases hr with h | ⟨k, h⟩ <;> simp at h
  · intro r hr
    rcases hr with h | ⟨k, h⟩ <;> simp at h
  · intro r r' hr
    rcases hr with h | ⟨k, h⟩ <;> simp at h
  · intro x r h
    simp [fresh, mapFind] at h
  · intro e he; simp at he

/-- Moving the head of a free list to the records in use does not change which
records are in use. -/
theorem owned_pop {F : Nat → List Nat} {H : List Nat} {key h : Nat} {rest : List Nat}
    (hF : F key = h :: rest) (r : Nat) :
    Owned (Function.update F key rest) (h :: H) r ↔ Owned F H r := by
  constructor
  · rintro (hr | ⟨k, hr⟩)
    · rcases List.mem_cons.1 hr with e | e
      · exact Or.inr ⟨key, by rw [hF, e]; exact List.mem_cons_self _ _⟩
      · exact Or.inl e
    · by_cases hk : k = key
      · subst hk
        rw [Function.update_same] at hr
        exact Or.inr ⟨k, by rw [hF]; exact List.mem_cons_of_mem _ hr⟩
      · rw [Function.update_noteq hk] at hr
        exact Or.inr ⟨k, hr⟩
  · rintro (hr | ⟨k, hr⟩)
    · exact Or.inl (List.mem_cons_of_mem _ hr)
    · by_cases hh : r = h
      · exact Or.inl (by rw [hh]; exact List.mem_cons_self _ _)
      · by_cases hk : k = key
        · subst hk
          rw [hF] at hr
          rcases List.mem_cons.1 hr with e | e
          · exact absurd e hh
          · exact Or.inr ⟨k, by rw [Function.update_same]; exact e⟩
        · exact Or.inr ⟨k, by rw [Function.update_noteq hk]; exact hr⟩

theorem mem_update_pop {F : Nat → List Nat} {key h : Nat} {rest : List Nat}
    (hF : F key = h :: rest) {k r : Nat} (hr : r ∈ Function.update F key rest k) : r ∈ F k := by
  by_cases hk : k = key
  · subst hk
    rw [Function.update_same] at hr
    rw [hF]
    exact List.mem_cons_of_mem _ hr
  · rw [Function.update_noteq hk] at hr
    exact hr

/-- The head of a free list is on no list once it has been removed. -/
theorem PcInv.head_gone {s : State} {al : List (Nat × Nat)} {F : Nat → List Nat} {H : List Nat}
    (hinv : PcInv s al F H) {key h : Nat} {rest : List Nat} (hF : F key = h :: rest) :
    ∀ k, h ∉ Function.update F key rest k := by
  intro k hr
  have hnd := (hinv.chains key).nodup
  rw [hF] at hnd
  by_cases hk : k = key
  · subst hk
    rw [Function.update_same] at hr
    exact (List.nodup_cons.1 hnd).1 hr
  · rw [Function.update_noteq hk] at hr
    exact hk (hinv.free_key hr (by rw [hF]; exact List.mem_cons_self _ _))

/-- The invariant after `allocateSpan` has handed out the head `h` of the list of
`n` pages whole. -/
theorem PcInv.alloc_exact {s s' : State} {al : List (Nat × Nat)} {F : Nat → List Nat}
    {H : List Nat} (hinv : PcInv s al F H) {n h : Nat} {rest : List Nat}
    (hF : F n = h :: rest)
    (hfs : s'.pc.freeSpans =
      if (s.pc.spans h).next ≠ 0 then mapSet s.pc.freeSpans n (s.pc.spans h).next
      else mapErase s.pc.freeSpans n)
    (hsm : s'.pc.spanMap = mapSet s.pc.spanMap (s.pc.spans h).pageAddr h)
    (hsp : s'.pc.spans = s.pc.spans) (hns : s'.pc.nextSpan = s.pc.nextSpan)
    (hos : s'.os.mapped = s.os.mapped) :
    PcInv s' (((s.pc.spans h).pageAddr, n) :: al) (Function.update F n rest) (h :: H) := by
  have hhF : h ∈ F n := by rw [hF]; exact List.mem_cons_self _ _
  have hnotH : h ∉ H := fun hh => hinv.heldFree h hh n hhF
  have hgone := hinv.head_gone hF
  have hown := @owned_pop F H _ _ _ hF
  have hpg : (s.pc.spans h).numPages = n := hinv.pages n h hhF
  refine ⟨?_, ?_, ?_, ?_, ?_, ?_, ?_, ?_, ?_, ?_, ?_, ?_, ?_⟩
  · rw [hfs]; exact pop_sorted hinv.sortedF _ _
  · rw [hsm]; exact mapSorted_mapSet hinv.sortedM _ _
  · rw [hns]; exact hinv.posNext
  · rw [hfs, hsp]; exact pop_chains hinv.sortedF hinv.chains hF
  · intro k r hr
    rw [hsp]
    exact hinv.pages k r (mem_update_pop hF hr)
  · exact List.nodup_cons.2 ⟨hnotH, hinv.heldNodup⟩
  · intro r hr k hk
    rcases List.mem_cons.1 hr with e | e
    · rw [e] at hk; exact hgone k hk
    · exact hinv.heldFree r e k (mem_update_pop hF hk)
  · intro r hr
    rw [hns]
    exact hinv.ids r ((hown r).1 hr)
  · intro r hr
    rw [hsp, hos]
    exact hinv.shape r ((hown r).1 hr)
  · intro r r' hr hr' hne
    rw [hsp]
    exact hinv.geom r r' ((hown r).1 hr) ((hown r').1 hr') hne
  · intro x r hx
    rw [hsm, mapFind_mapSet] at hx
    rw [hsp]
    split_ifs at hx with hxa
    · simp only [Option.some.injEq] at hx
      subst hx
      exact ⟨Or.inl (List.mem_cons_self _ _), hxa.symm⟩
    · obtain ⟨h1, h2⟩ := hinv.reg x r hx
      exact ⟨(hown r).2 h1, h2⟩
  · refine List.nodup_cons.2 ⟨?_, hinv.allocNodup⟩
    intro hmem
    obtain ⟨r0, hr0, ha, _⟩ := hinv.allocHeld _ hmem
    have : r0 = h := hinv.addr_inj (Or.inl hr0) (Or.inr ⟨n, hhF⟩) ha
    exact hnotH (this ▸ hr0)
  · intro e he
    rw [hsp]
    rcases List.mem_cons.1 he with h1 | h1
    · exact ⟨h, List.mem_cons_self _ _, by rw [h1], by rw [h1]; exact hpg⟩
    · obtain ⟨r0, hr0, ha⟩ := hinv.allocHeld e h1
      exact ⟨r0, List.mem_cons_of_mem _ hr0, ha⟩

theorem mem_update_push {F : Nat → List Nat} {k0 q k r : Nat} :
    r ∈ Function.update F k0 (q :: F k0) k ↔ (k = k0 ∧ r = q) ∨ r ∈ F k := by
  by_cases hk : k = k0
  · subst hk
    rw [Function.update_same, List.mem_cons]
    constructor
    · rintro (h | h)
      · exact Or.inl ⟨rfl, h⟩
      · exact Or.inr h
    · rintro (⟨_, h⟩ | h)
      · exact Or.inl h
      · exact Or.inr h
  · rw [Function.update_noteq hk]
    constructor
    · exact fun h => Or.inr h
    · rintro (⟨h, _⟩ | h)
      · exact absurd h hk
      · exact h

/-- The invariant after `allocateSpan` has split the head `h` of the list of `key`
pages: `h` keeps the first `n` pages and goes to the client, the new record holds
the other `key - n` pages and heads the list of `key - n`. -/
theorem PcInv.alloc_split {s s' : State} {al : List (Nat × Nat)} {F : Nat → List Nat}
    {H : List Nat} (hinv : PcInv s al F H) {n key h : Nat} {rest : List Nat}
    (hn1 : 1 ≤ n) (hlt : n < key) (hF : F key = h :: rest)
    (hfs : s'.pc.freeSpans =
      mapSet
        (if (s.pc.spans h).next ≠ 0 then mapSet s.pc.freeSpans key (s.pc.spans h).next
          else mapErase s.pc.freeSpans key)
        (key - n) s.pc.nextSpan)
    (hsm : s'.pc.spanMap = s.pc.spanMap)
    (hsp : s'.pc.spans =
      setSpan
        (setSpan s.pc.spans s.pc.nextSpan
          ⟨(s.pc.spans h).pageAddr + (n * PAGE_SIZE) % SIZE_MOD, key - n,
            mapGet
              (if (s.pc.spans h).next ≠ 0 then mapSet s.pc.freeSpans key (s.pc.spans h).next
                else mapErase s.pc.freeSpans key)
              (key - n)⟩)
        h { s.pc.spans h with numPages := n })
    (hns : s'.pc.nextSpan = s.pc.nextSpan + 1)
    (hos : s'.os.mapped = s.os.mapped) :
    PcInv s' (((s.pc.spans h).pageAddr, n) :: al)
      (Function.update (Function.update F key rest) (key - n)
        (s.pc.nextSpan :: Function.update F key rest (key - n)))
      (h :: H) := by
  have hhF : h ∈ F key := by rw [hF]; exact List.mem_cons_self _ _
  have hhO : Owned F H h := Or.inr ⟨key, hhF⟩
  have hnotH : h ∉ H := fun hh => hinv.heldFree h hh key hhF
  have hgone := hinv.head_gone hF
  have hown := @owned_pop F H _ _ _ hF
  have hpg : (s.pc.spans h).numPages = key := hinv.pages key h hhF
  have hqO : ¬ Owned F H s.pc.nextSpan := fun ho => by
    have := (hinv.ids _ ho).2
    omega
  have hq0 : s.pc.nextSpan ≠ 0 := by have := hinv.posNext; omega
  have hqh : s.pc.nextSpan ≠ h := fun e => hqO (e ▸ hhO)
  have hqF' : ∀ k, s.pc.nextSpan ∉ Function.update F key rest k :=
    fun k hk => hqO (Or.inr ⟨k, mem_update_pop hF hk⟩)
  obtain ⟨sh1, sh2, sh3, sh4⟩ := hinv.shape h hhO
  rw [hpg] at sh1 sh3 sh4
  have hP : PAGE_SIZE = 4096 := rfl
  have hmod : (n * PAGE_SIZE) % SIZE_MOD = n * PAGE_SIZE := by
    apply Nat.mod_eq_of_lt
    rw [hP] at sh3 ⊢
    omega
  rw [hmod] at hsp
  have vq : s'.pc.spans s.pc.nextSpan =
      ⟨(s.pc.spans h).pageAddr + n * PAGE_SIZE, key - n,
        mapGet
          (if (s.pc.spans h).next ≠ 0 then mapSet s.pc.freeSpans key (s.pc.spans h).next
            else mapErase s.pc.freeSpans key)
          (key - n)⟩ := by
    rw [hsp, setSpan_other _ _ _ _ hqh, setSpan_same]
  have vh : s'.pc.spans h = { s.pc.spans h with numPages := n } := by
    rw [hsp, setSpan_same]
  have vo : ∀ r, r ≠ s.pc.nextSpan → r ≠ h → s'.pc.spans r = s.pc.spans r := by
    intro r h1 h2
    rw [hsp, setSpan_other _ _ _ _ h2, setSpan_other _ _ _ _ h1]
  have hown2 : ∀ r, Owned (Function.update (Function.update F key rest) (key - n)
        (s.pc.nextSpan :: Function.update F key rest (key - n))) (h :: H) r ↔
      r = s.pc.nextSpan ∨ Owned F H r := by
    intro r
    constructor
    · rintro (hr | ⟨k, hr⟩)
      · exact Or.inr ((hown r).1 (Or.inl hr))
      · rcases mem_update_push.1 hr with ⟨_, e⟩ | e
        · exact Or.inl e
        · exact Or.inr ((hown r).1 (Or.inr ⟨k, e⟩))
    · rintro (e | ho)
      · exact Or.inr ⟨key - n, mem_update_push.2 (Or.inl ⟨rfl, e⟩)⟩
      · rcases (hown r).2 ho with h1 | ⟨k, h1⟩
        · exact Or.inl h1
        · exact Or.inr ⟨k, mem_update_push.2 (Or.inr h1)⟩
  refine ⟨?_, ?_, ?_, ?_, ?_, ?_, ?_, ?_, ?_, ?_, ?_, ?_, ?_⟩
  · rw [hfs]; exact mapSorted_mapSet (pop_sorted hinv.sortedF _ _) _ _
  · rw [hsm]; exact hinv.sortedM
  · rw [hns]; omega
  · rw [hfs, hsp]
    have c1 := pop_chains hinv.sortedF hinv.chains hF
    have c2 := push_chains c1 hq0 hqF'
      ⟨(s.pc.spans h).pageAddr + n * PAGE_SIZE, key - n,
        mapGet
          (if (s.pc.spans h).next ≠ 0 then mapSet s.pc.freeSpans key (s.pc.spans h).next
            else mapErase s.pc.freeSpans key)
          (key - n)⟩ rfl
    exact keep_chains c2 h _ (by rw [setSpan_other _ _ _ _ hqh.symm])
  · intro k r hr
    rcases mem_update_push.1 hr with ⟨e1, e2⟩ | e
    · rw [e2, vq, e1]
    · have hr1 : r ≠ s.pc.nextSpan := fun e' => hqF' k (e' ▸ e)
      have hr2 : r ≠ h := fun e' => hgone k (e' ▸ e)
      rw [vo r hr1 hr2]
      exact hinv.pages k r (mem_update_pop hF e)
  · exact List.nodup_cons.2 ⟨hnotH, hinv.heldNodup⟩
  · intro r hr k hk
    rcases mem_update_push.1 hk with ⟨_, e2⟩ | e
    · rcases List.mem_cons.1 hr with e' | e'
      · exact hqh (e2.symm.trans e')
      · exact hqO (Or.inl (e2 ▸ e'))
    · rcases List.mem_cons.1 hr with e' | e'
      · rw [e'] at e; exact hgone k e
      · exact hinv.heldFree r e' k (mem_update_pop hF e)
  · intro r hr
    rw [hns]
    rcases (hown2 r).1 hr with e | ho
    · rw [e]; exact ⟨hq0, by omega⟩
    · have := hinv.ids r ho
      exact ⟨this.1, by omega⟩
  · intro r hr
    rw [hos]
    rcases (hown2 r).1 hr with e | ho
    · rw [e, vq]
      refine ⟨by show 1 ≤ key - n; omega, ?_, ?_, ?_⟩
      · show (s.pc.spans h).pageAddr + n * PAGE_SIZE ≠ 0
        omega
      · show (s.pc.spans h).pageAddr + n * PAGE_SIZE + (key - n) * PAGE_SIZE ≤ SIZE_MOD
        rw [hP] at sh3 ⊢
        omega
      · show Covered _ ((s.pc.spans h).pageAddr + n * PAGE_SIZE) ((key - n) * PAGE_SIZE)
        refine sh4.mono (fun _ h => h) (by omega) ?_
        rw [hP]
        omega
    · by_cases hrh : r = h
      · rw [hrh, vh]
        refine ⟨hn1, sh2, ?_, ?_⟩
        · show (s.pc.spans h).pageAddr + n * PAGE_SIZE ≤ SIZE_MOD
          rw [hP] at sh3 ⊢
          omega
        · show Covered _ (s.pc.spans h).pageAddr (n * PAGE_SIZE)
          refine sh4.mono (fun _ h => h) (le_refl _) ?_
          rw [hP]
          omega
      · have hrq : r ≠ s.pc.nextSpan := fun e => hqO (e ▸ ho)
        rw [vo r hrq hrh]
        exact hinv.shape r ho
  · intro r r' hr hr' hne
    have key1 : ∀ x, Owned F H x → x ≠ h →
        SpanDisj (s.pc.spans x) ⟨(s.pc.spans h).pageAddr, key, 0⟩ := by
      intro x hx hxh
      have := hinv.geom x h hx hhO hxh
      unfold SpanDisj at this ⊢
      rw [hpg] at this
      exact this
    unfold SpanDisj
    rcases (hown2 r).1 hr with e | ho <;> rcases (hown2 r').1 hr' with e' | ho'
    · exact absurd (e.trans e'.symm) hne
    · rw [e, vq]
      by_cases hrh : r' = h
      · rw [hrh, vh]
        right
        show (s.pc.spans h).pageAddr + n * PAGE_SIZE ≤ (s.pc.spans h).pageAddr + n * PAGE_SIZE
        exact le_refl _
      · have hrq : r' ≠ s.pc.nextSpan := fun e => hqO (e ▸ ho')
        rw [vo r' hrq hrh]
        have := key1 r' ho' hrh
        unfold SpanDisj at this
        simp only [hP] at this ⊢
        omega
    · rw [e', vq]
      by_cases hrh : r = h
      · rw [hrh, vh]
        left
        show (s.pc.spans h).pageAddr + n * PAGE_SIZE ≤ (s.pc.spans h).pageAddr + n * PAGE_SIZE
        exact le_refl _
      · have hrq : r ≠ s.pc.nextSpan := fun e => hqO (e ▸ ho)
        rw [vo r hrq hrh]
        have := key1 r ho hrh
        unfold SpanDisj at this
        simp only [hP] at this ⊢
        omega
    · have hrq : r ≠ s.pc.nextSpan := fun e => hqO (e ▸ ho)
      have hrq' : r' ≠ s.pc.nextSpan := fun e => hqO (e ▸ ho')
      by_cases hrh : r = h
      · have hrh' : r' ≠ h := fun e => hne (hrh.trans e.symm)
        rw [hrh, vh, vo r' hrq' hrh']
        have := key1 r' ho' hrh'
        unfold SpanDisj at this
        simp only [hP] at this ⊢
        omega
      · by_cases hrh' : r' = h
        · rw [hrh', vh, vo r hrq hrh]
          have := key1 r ho hrh
          unfold SpanDisj at this
          simp only [hP] at this ⊢
          omega
        · rw [vo r hrq hrh, vo r' hrq' hrh']
          exact hinv.geom r r' ho ho' hne
  · intro x r hx
    rw [hsm] at hx
    obtain ⟨h1, h2⟩ := hinv.reg x r hx
    refine ⟨(hown2 r).2 (Or.inr h1), ?_⟩
    have hrq : r ≠ s.pc.nextSpan := fun e => hqO (e ▸ h1)
    by_cases hrh : r = h
    · rw [hrh, vh]
      rw [hrh] at h2
      exact h2
    · rw [vo r hrq hrh]
      exact h2
  · refine List.nodup_cons.2 ⟨?_, hinv.allocNodup⟩
    intro hmem
    obtain ⟨r0, hr0, ha, _⟩ := hinv.allocHeld _ hmem
    have : r0 = h := hinv.addr_inj (Or.inl hr0) hhO ha
    exact hnotH (this ▸ hr0)
  · intro e he
    rcases List.mem_cons.1 he with h1 | h1
    · refine ⟨h, List.mem_cons_self _ _, ?_, ?_⟩
      · rw [vh, h1]
      · rw [vh, h1]
    · obtain ⟨r0, hr0, ha⟩ := hinv.allocHeld e h1
      have hrq : r0 ≠ s.pc.nextSpan := fun e => hqO (e ▸ Or.inl hr0)
      have hrh : r0 ≠ h := fun e => hnotH (e ▸ hr0)
      refine ⟨r0, List.mem_cons_of_mem _ hr0, ?_⟩
      rw [vo r0 hrq hrh]
      exact ha

/-- The two outcomes of `allocateSpan` when no free span fits. -/
theorem allocateSpan_miss_cases {s s' : State} {n a : Nat}
    (hmiss : mapLowerBound s.pc.freeSpans n = none)
    (h : PageCache.allocateSpan s n = some (a, s')) :
    (a = 0 ∧ s'.pc = s.pc ∧ s'.os.mapped = s.os.mapped) ∨
    (a ≠ 0 ∧ s'.pc.freeSpans = s.pc.freeSpans ∧
      s'.pc.spanMap = mapSet s.pc.spanMap a s.pc.nextSpan ∧
      s'.pc.spans = setSpan s.pc.spans s.pc.nextSpan ⟨a, n, 0⟩ ∧
      s'.pc.nextSpan = s.pc.nextSpan + 1 ∧
      s'.os.mapped = (a, (n * PAGE_SIZE) % SIZE_MOD) :: s.os.mapped) := by
  unfold PageCache.allocateSpan at h
  simp only [hmiss] at h
  unfold PageCache.systemAlloc at h
  cases hp : s.os.pending with
  | nil =>
    simp only [hp, if_true, Option.some.injEq, Prod.mk.injEq] at h
    obtain ⟨rfl, rfl⟩ := h
    exact Or.inl ⟨rfl, rfl, rfl⟩
  | cons p rest =>
    simp only [hp] at h
    by_cases h0 : p = 0
    · simp only [h0, if_true, Option.some.injEq, Prod.mk.injEq] at h
      obtain ⟨rfl, rfl⟩ := h
      exact Or.inl ⟨rfl, rfl, rfl⟩
    · simp only [h0, if_false, Option.some.injEq, Prod.mk.injEq] at h
      obtain ⟨rfl, rfl⟩ := h
      exact Or.inr ⟨h0, rfl, rfl, rfl, rfl, rfl⟩

/-- The invariant after `allocateSpan` has mapped a new span at `ptr`. -/
theorem PcInv.alloc_miss {s s' : State} {al : List (Nat × Nat)} {F : Nat → List Nat}
    {H : List Nat} (hinv : PcInv s al F H) {n ptr : Nat}
    (hn1 : 1 ≤ n) (hptr : ptr ≠ 0)
    (hfs : s'.pc.freeSpans = s.pc.freeSpans)
    (hsm : s'.pc.spanMap = mapSet s.pc.spanMap ptr s.pc.nextSpan)
    (hsp : s'.pc.spans = setSpan s.pc.spans s.pc.nextSpan ⟨ptr, n, 0⟩)
    (hns : s'.pc.nextSpan = s.pc.nextSpan + 1)
    (hos : s'.os.mapped = (ptr, n * PAGE_SIZE) :: s.os.mapped)
    (hfit : OsFits s'.os.mapped) :
    PcInv s' ((ptr, n) :: al) F (s.pc.nextSpan :: H) := by
  have hqO : ¬ Owned F H s.pc.nextSpan := fun ho => by
    have := (hinv.ids _ ho).2
    omega
  have hq0 : s.pc.nextSpan ≠ 0 := by have := hinv.posNext; omega
  have hqF : ∀ k, s.pc.nextSpan ∉ F k := fun k hk => hqO (Or.inr ⟨k, hk⟩)
  have hqH : s.pc.nextSpan ∉ H := fun hk => hqO (Or.inl hk)
  have vq : s'.pc.spans s.pc.nextSpan = ⟨ptr, n, 0⟩ := by rw [hsp, setSpan_same]
  have vo : ∀ r, r ≠ s.pc.nextSpan → s'.pc.spans r = s.pc.spans r := by
    intro r h1
    rw [hsp, setSpan_other _ _ _ _ h1]
  have hown : ∀ r, Owned F (s.pc.nextSpan :: H) r ↔ r = s.pc.nextSpan ∨ Owned F H r := by
    intro r
    constructor
    · rintro (hr | hr)
      · rcases List.mem_cons.1 hr with e | e
        · exact Or.inl e
        · exact Or.inr (Or.inl e)
      · exact Or.inr (Or.inr hr)
    · rintro (e | hr | hr)
      · exact Or.inl (e ▸ List.mem_cons_self _ _)
      · exact Or.inl (List.mem_cons_of_mem _ hr)
      · exact Or.inr hr
  have hP : PAGE_SIZE = 4096 := rfl
  have hlen : 0 < n * PAGE_SIZE := Nat.mul_pos (by omega) PAGE_SIZE_pos
  rw [hos] at hfit
  obtain ⟨hdis, hin⟩ := hfit
  have hnew : ∀ reg ∈ s.os.mapped, ptr + n * PAGE_SIZE ≤ reg.1 ∨ reg.1 + reg.2 ≤ ptr :=
    fun reg hreg => (List.pairwise_cons.1 hdis).1 reg hreg
  have hold : ∀ r, Owned F H r →
      ptr + n * PAGE_SIZE ≤ (s.pc.spans r).pageAddr ∨
      (s.pc.spans r).pageAddr + (s.pc.spans r).numPages * PAGE_SIZE ≤ ptr := by
    intro r hr
    obtain ⟨s1, _, _, s4⟩ := hinv.shape r hr
    exact disj_of_covered s4 (Nat.mul_pos (by omega) PAGE_SIZE_pos) hlen hnew
  refine ⟨?_, ?_, ?_, ?_, ?_, ?_, ?_, ?_, ?_, ?_, ?_, ?_, ?_⟩
  · rw [hfs]; exact hinv.sortedF
  · rw [hsm]; exact mapSorted_mapSet hinv.sortedM _ _
  · rw [hns]; omega
  · intro k
    rw [hfs, hsp]
    exact IsSeg.setSpan_frame (hinv.chains k) _ _ (hqF k)
  · intro k r hr
    rw [vo r (fun e => hqF k (e ▸ hr))]
    exact hinv.pages k r hr
  · exact List.nodup_cons.2 ⟨hqH, hinv.heldNodup⟩
  · intro r hr k hk
    rcases List.mem_cons.1 hr with e | e
    · exact hqF k (e ▸ hk)
    · exact hinv.heldFree r e k hk
  · intro r hr
    rw [hns]
    rcases (hown r).1 hr with e | ho
    · rw [e]; exact ⟨hq0, by omega⟩
    · have := hinv.ids r ho
      exact ⟨this.1, by omega⟩
  · intro r hr
    rw [hos]
    rcases (hown r).1 hr with e | ho
    · rw [e, vq]
      refine ⟨hn1, hptr, hin (ptr, n * PAGE_SIZE) (List.mem_cons_self _ _), ?_⟩
      intro x hx1 hx2
      exact ⟨(ptr, n * PAGE_SIZE), List.mem_cons_self _ _, hx1, hx2⟩
    · rw [vo r (fun e => hqO (e ▸ ho))]
      obtain ⟨s1, s2, s3, s4⟩ := hinv.shape r ho
      exact ⟨s1, s2, s3, s4.mono (fun _ h => List.mem_cons_of_mem _ h) (le_refl _) (le_refl _)⟩
  · intro r r' hr hr' hne
    unfold SpanDisj
    rcases (hown r).1 hr with e | ho <;> rcases (hown r').1 hr' with e' | ho'
    · exact absurd (e.trans e'.symm) hne
    · rw [e, vq, vo r' (fun e => hqO (e ▸ ho'))]
      exact hold r' ho'
    · rw [e', vq, vo r (fun e => hqO (e ▸ ho))]
      exact (hold r ho).symm
    · rw [vo r (fun e => hqO (e ▸ ho)), vo r' (fun e => hqO (e ▸ ho'))]
      exact hinv.geom r r' ho ho' hne
  · intro x r hx
    rw [hsm, mapFind_mapSet] at hx
    split_ifs at hx with hxa
    · simp only [Option.some.injEq] at hx
      subst hx
      exact ⟨Or.inl (List.mem_cons_self _ _), by rw [vq, hxa]⟩
    · obtain ⟨h1, h2⟩ := hinv.reg x r hx
      refine ⟨(hown r).2 (Or.inr h1), ?_⟩
      rw [vo r (fun e => hqO (e ▸ h1))]
      exact h2
  · refine List.nodup_cons.2 ⟨?_, hinv.allocNodup⟩
    intro hmem
    obtain ⟨r0, hr0, ha, _⟩ := hinv.allocHeld _ hmem
    have h1 := hold r0 (Or.inl hr0)
    have h2 := (hinv.shape r0 (Or.inl hr0)).1
    have h3 : 0 < (s.pc.spans r0).numPages * PAGE_SIZE := Nat.mul_pos (by omega) PAGE_SIZE_pos
    simp only at ha
    omega
  · intro e he
    rcases List.mem_cons.1 he with h1 | h1
    · exact ⟨_, List.mem_cons_self _ _, by rw [vq, h1], by rw [vq, h1]⟩
    · obtain ⟨r0, hr0, ha⟩ := hinv.allocHeld e h1
      refine ⟨r0, List.mem_cons_of_mem _ hr0, ?_⟩
      rw [vo r0 (fun e => hqH (e ▸ hr0))]
      exact ha

/-- One `allocateSpan(n)` from a state that satisfies the invariant, for `n ≥ 1`
pages whose byte size fits `size_t`: a null result leaves the invariant as it
is; otherwise the invariant holds again with the span added to those the
clients hold, and the record taken is in use, starts at the address returned,
and has `n` pages. -/
theorem PcInv.allocateSpan {s s' : State} {al : List (Nat × Nat)} {F : Nat → List Nat}
    {H : List Nat} (hinv : PcInv s al F H) {n a : Nat} (hn1 : 1 ≤ n)
    (hnb : n * PAGE_SIZE < SIZE_MOD)
    (h : PageCache.allocateSpan s n = some (a, s')) (hfit : OsFits s'.os.mapped) :
    (a = 0 → PcInv s' al F H) ∧
    (a ≠ 0 → ∃ F' H', PcInv s' ((a, n) :: al) F' H' ∧ takenSpan s n ∈ H' ∧
      (s'.pc.spans (takenSpan s n)).pageAddr = a ∧
      (s'.pc.spans (takenSpan s n)).numPages = n) := by
  cases hlb : mapLowerBound s.pc.freeSpans n with
  | none =>
    have ht : takenSpan s n = s.pc.nextSpan := by simp [takenSpan, hlb]
    rcases allocateSpan_miss_cases hlb h with ⟨h0, hpc, hos⟩ | ⟨h0, e1, e2, e3, e4, e5⟩
    · exact ⟨fun _ => hinv.of_same_pc hpc hos, fun hne => absurd h0 hne⟩
    · refine ⟨fun e => absurd e h0, fun _ => ?_⟩
      rw [Nat.mod_eq_of_lt hnb] at e5
      refine ⟨_, _, hinv.alloc_miss hn1 h0 e1 e2 e3 e4 e5 hfit, ?_, ?_, ?_⟩
      · rw [ht]; exact List.mem_cons_self _ _
      · rw [ht, e3, setSpan_same]
      · rw [ht, e3, setSpan_same]
  | some kv =>
    obtain ⟨key, hd⟩ := kv
    have ht : takenSpan s n = hd := by simp [takenSpan, hlb]
    obtain ⟨hle, hget, hcons⟩ := hinv.hit hlb
    have hd0 : hd ≠ 0 := by
      intro e
      unfold PageCache.allocateSpan at h
      simp [hlb, e] at h
    obtain ⟨rest, hF, hpg⟩ := hcons hd0
    have hO : Owned F H hd := Or.inr ⟨key, by rw [hF]; exact List.mem_cons_self _ _⟩
    have ha0 := (hinv.shape hd hO).2.1
    by_cases hgt : n < (s.pc.spans hd).numPages
    · rw [allocateSpan_hit_split hlb hd0 hgt] at h
      simp only [Option.some.injEq, Prod.mk.injEq] at h
      obtain ⟨rfl, rfl⟩ := h
      refine ⟨fun e => absurd e ha0, fun _ => ?_⟩
      rw [hpg] at hgt
      refine ⟨_, _, hinv.alloc_split hn1 hgt hF (by rw [hpg]) rfl (by rw [hpg]) rfl rfl,
        ?_, ?_, ?_⟩
      · rw [ht]; exact List.mem_cons_self _ _
      · rw [ht]
        show (setSpan _ hd _ hd).pageAddr = _
        rw [setSpan_same]
      · rw [ht]
        show (setSpan _ hd _ hd).numPages = _
        rw [setSpan_same]
    · rw [allocateSpan_hit_exact hlb hd0 (by omega)] at h
      simp only [Option.some.injEq, Prod.mk.injEq] at h
      obtain ⟨rfl, rfl⟩ := h
      refine ⟨fun e => absurd e ha0, fun _ => ?_⟩
      have hkn : key = n := by omega
      subst hkn
      refine ⟨_, _, hinv.alloc_exact hF rfl rfl rfl rfl rfl, ?_, ?_, ?_⟩
      · rw [ht]; exact List.mem_cons_self _ _
      · rw [ht]
      · rw [ht]; exact hpg

/-! ## `deallocateSpan` keeps the invariant -/

/-- The function `deallocateSpan` when both lookups in the span map succeed: the search
for the right neighbour, then the merge and the insertion. -/
theorem deallocateSpan_eq {s : State} {ptr n span nx : Nat}
    (h1 : mapFind s.pc.spanMap ptr = some span)
    (h2 : mapFind s.pc.spanMap (ptr + (n * PAGE_SIZE) % SIZE_MOD) = some nx)
    (hs0 : span ≠ 0) (hn0 : nx ≠ 0) :
    PageCache.deallocateSpan s ptr n = (searchNext s nx).map (finishFree s span nx) := by
  unfold PageCache.deallocateSpan
  have hg : ¬ (span = 0 ∨ nx = 0) := by
    rintro (h | h)
    · exact hs0 h
    · exact hn0 h
  simp only [h1, h2, hg, if_false]
  unfold searchNext
  dsimp only
  split_ifs
  · rfl
  · cases PageCache.unlinkLoop nx (s.pc.nextSpan + 1) s.pc.spans
        (mapGet s.pc.freeSpans (s.pc.spans nx).numPages) with
    | none => rfl
    | some r => rfl
  · rfl

/-- Fewer records are on a free list than have been created. -/
theorem PcInv.length_lt {s : State} {al : List (Nat × Nat)} {F : Nat → List Nat} {H : List Nat}
    (hinv : PcInv s al F H) (k : Nat) : (F k).length < s.pc.nextSpan := by
  have hnd : (0 :: F k).Nodup := by
    refine List.nodup_cons.2 ⟨?_, (hinv.chains k).nodup⟩
    intro h0
    exact (hinv.ids 0 (Or.inr ⟨k, h0⟩)).1 rfl
  have hsub : (0 :: F k) ⊆ List.range s.pc.nextSpan := by
    intro r hr
    rw [List.mem_range]
    rcases List.mem_cons.1 hr with e | e
    · rw [e]; exact hinv.posNext
    · exact (hinv.ids r (Or.inr ⟨k, e⟩)).2
  have := (List.subperm_of_subset hnd hsub).length_le
  simp only [List.length_cons, List.length_range] at this
  omega

/-- The records met on the free list of `k` are exactly those of `F k`. -/
theorem PcInv.freeListOf_eq {s : State} {al : List (Nat × Nat)} {F : Nat → List Nat}
    {H : List Nat} (hinv : PcInv s al F H) (k : Nat) : freeListOf s k = F k :=
  chainList_of_chain _ _ _ _ (hinv.chains k) (Nat.le_of_lt (hinv.length_lt k))

theorem PcInv.onFreeList_iff {s : State} {al : List (Nat × Nat)} {F : Nat → List Nat}
    {H : List Nat} (hinv : PcInv s al F H) (r : Nat) : OnFreeList s r ↔ ∃ k, r ∈ F k := by
  unfold OnFreeList
  constructor
  · rintro ⟨k, hk⟩
    exact ⟨k, by rw [← hinv.freeListOf_eq k]; exact hk⟩
  · rintro ⟨k, hk⟩
    exact ⟨k, by rw [hinv.freeListOf_eq k]; exact hk⟩

/-- The search for a right neighbour that is on no free list finds nothing and
changes no record. -/
theorem PcInv.search_absent {s : State} {al : List (Nat × Nat)} {F : Nat → List Nat}
    {H : List Nat} (hinv : PcInv s al F H) {nx : Nat} (hnx0 : nx ≠ 0)
    (habs : ∀ k, nx ∉ F k) :
    searchNext s nx
      = some (mapTouch s.pc.freeSpans (s.pc.spans nx).numPages, s.pc.spans, false) := by
  unfold searchNext
  dsimp only
  have hch := hinv.chains (s.pc.spans nx).numPages
  have hlen := hinv.length_lt (s.pc.spans nx).numPages
  by_cases h1 : mapGet s.pc.freeSpans (s.pc.spans nx).numPages = nx
  · exfalso
    rw [h1] at hch
    cases hF : F (s.pc.spans nx).numPages with
    | nil =>
      rw [hF] at hch
      exact hnx0 hch
    | cons x xs =>
      rw [hF] at hch
      have : nx = x := hch.1
      exact habs _ (by rw [hF, this]; exact List.mem_cons_self _ _)
  · simp only [h1, if_false]
    by_cases h2 : mapGet s.pc.freeSpans (s.pc.spans nx).numPages = 0
    · simp only [h2, ne_eq, not_true_eq_false, if_false]
    · simp only [h2, ne_eq, not_false_eq_true, if_true]
      cases hF : F (s.pc.spans nx).numPages with
      | nil =>
        rw [hF] at hch
        exact absurd hch h2
      | cons x xs =>
        rw [hF] at hch hlen
        have hx : mapGet s.pc.freeSpans (s.pc.spans nx).numPages = x := hch.1
        rw [hx] at hch ⊢
        rw [unlinkLoop_absent nx s.pc.spans xs (s.pc.nextSpan + 1) x hch
          (fun hm => habs _ (by rw [hF]; exact List.mem_cons_of_mem _ hm))
          (by simp only [List.length_cons] at hlen; omega)]
        rfl

/-- The search for a right neighbour that is on the free list `F key` finds it and
unlinks it: the list of `key` loses that record, the other lists stay, and no
record changes its address or page count. -/
theorem PcInv.search_found {s : State} {al : List (Nat × Nat)} {F : Nat → List Nat}
    {H : List Nat} (hinv : PcInv s al F H) {nx key : Nat} (hmem : nx ∈ F key) :
    ∃ fs1 spans1 Lrem, searchNext s nx = some (fs1, spans1, true) ∧ MapSorted fs1 ∧
      (∀ k, IsChain (nextOf spans1) (mapGet fs1 k) (Function.update F key Lrem k)) ∧
      (∀ r, r ∈ Lrem ↔ r ∈ F key ∧ r ≠ nx) ∧
      (∀ r, (spans1 r).pageAddr = (s.pc.spans r).pageAddr ∧
        (spans1 r).numPages = (s.pc.spans r).numPages) ∧
      (∀ r, r ∉ F key → spans1 r = s.pc.spans r) ∧ spans1 nx = s.pc.spans nx := by
  have hpg : (s.pc.spans nx).numPages = key := hinv.pages key nx hmem
  have hch := hinv.chains key
  have hnd := hch.nodup
  have hlen := hinv.length_lt key
  have hsort0 := mapSorted_mapTouch hinv.sortedF key
  unfold searchNext
  dsimp only
  rw [hpg]
  cases hF : F key with
  | nil => rw [hF] at hmem; simp at hmem
  | cons x xs =>
    rw [hF] at hch hnd hlen hmem
    have hx : mapGet s.pc.freeSpans key = x := hch.1
    have hx0 : x ≠ 0 := hch.2.1
    by_cases h1 : x = nx
    · subst h1
      refine ⟨mapSet (mapTouch s.pc.freeSpans key) key (s.pc.spans x).next, s.pc.spans, xs,
        by simp only [hx, if_true], mapSorted_mapSet hsort0 _ _, ?_, ?_,
        fun r => ⟨rfl, rfl⟩, fun r _ => rfl, rfl⟩
      · intro k
        rw [mapGet_mapSet, mapGet_mapTouch]
        by_cases hk : k = key
        · subst hk
          simp only [if_true, Function.update_same]
          exact hch.2.2
        · simp only [hk, if_false, Function.update_noteq hk]
          exact hinv.chains k
      · intro r
        constructor
        · intro hr
          exact ⟨List.mem_cons_of_mem _ hr, fun e => (List.nodup_cons.1 hnd).1 (e ▸ hr)⟩
        · rintro ⟨hr, hne⟩
          rcases List.mem_cons.1 hr with e | e
          · exact absurd e hne
          · exact e
    · have hin : nx ∈ xs := by
        rcases List.mem_cons.1 hmem with e | e
        · exact absurd e.symm h1
        · exact e
      obtain ⟨L1, L2, hsplit⟩ := List.append_of_mem hin
      rw [hsplit] at hch hnd hlen
      rw [hx] at hch
      obtain ⟨p, hp, hrun, hch'⟩ :=
        unlinkLoop_found nx L1 (s.pc.nextSpan + 1) s.pc.spans x L2 hch
          (by simp only [List.length_cons, List.length_append] at hlen; omega)
      have hnd' : (x :: L1 ++ nx :: L2).Nodup := hnd
      have hnx1 : nx ∉ x :: L1 := by
        intro hh
        have := (List.nodup_append.1 hnd').2.2
        exact this hh (List.mem_cons_self _ _)
      have hnx2 : nx ∉ L2 := by
        have := (List.nodup_append.1 hnd').2.1
        exact (List.nodup_cons.1 this).1
      have hpF : p ∈ F key := by
        rw [hF, hsplit]
        rcases List.mem_cons.1 hp with e | e
        · rw [e]; exact List.mem_cons_self _ _
        · exact List.mem_cons_of_mem _ (List.mem_append_left _ e)
      have hpnx : p ≠ nx := fun e => hnx1 (e ▸ hp)
      have hpF' : p ∈ x :: xs := by rw [← hF]; exact hpF
      refine ⟨mapTouch s.pc.freeSpans key,
        setSpan s.pc.spans p { s.pc.spans p with next := (s.pc.spans nx).next },
        x :: L1 ++ L2, ?_, hsort0, ?_, ?_, ?_, ?_, ?_⟩
      · have hne : ¬ (mapGet s.pc.freeSpans key = nx) := by rw [hx]; exact h1
        have hne0 : mapGet s.pc.freeSpans key ≠ 0 := by rw [hx]; exact hx0
        rw [if_neg hne, if_pos hne0, hx, hrun]
        rfl
      · intro k
        rw [mapGet_mapTouch]
        by_cases hk : k = key
        · subst hk
          rw [Function.update_same, hx]
          exact hch'
        · rw [Function.update_noteq hk]
          exact IsSeg.setSpan_frame (hinv.chains k) _ _
            (fun hh => hk (hinv.free_key hh hpF))
      · intro r
        rw [hsplit]
        simp only [List.cons_append, List.mem_cons, List.mem_append]
        constructor
        · rintro (e | e | e)
          · exact ⟨Or.inl e, fun e' => hnx1 (by rw [← e', e]; exact List.mem_cons_self _ _)⟩
          · exact ⟨Or.inr (Or.inl e), fun e' => hnx1 (e' ▸ List.mem_cons_of_mem _ e)⟩
          · exact ⟨Or.inr (Or.inr (Or.inr e)), fun e' => hnx2 (e' ▸ e)⟩
        · rintro ⟨e | e | e | e, hne⟩
          · exact Or.inl e
          · exact Or.inr (Or.inl e)
          · exact absurd e hne
          · exact Or.inr (Or.inr e)
      · intro r
        by_cases hr : r = p
        · subst hr
          simp [setSpan]
        · rw [setSpan_other _ _ _ _ hr]
          exact ⟨rfl, rfl⟩
      · intro r hr
        exact setSpan_other _ _ _ _ (fun e => hr (e ▸ hpF'))
      · exact setSpan_other _ _ _ _ hpnx.symm

theorem mem_erase_pair {al : List (Nat × Nat)} (hnd : al.Nodup) {e x : Nat × Nat} :
    e ∈ al.erase x ↔ e ≠ x ∧ e ∈ al := by
  induction al with
  | nil => simp
  | cons y ys ih =>
    obtain ⟨h1, h2⟩ := List.nodup_cons.1 hnd
    by_cases hyx : y = x
    · subst hyx
      have : (y :: ys).erase y = ys := List.erase_cons_head _ _
      rw [this]
      constructor
      · intro he
        exact ⟨fun e' => h1 (e' ▸ he), List.mem_cons_of_mem _ he⟩
      · rintro ⟨hne, he⟩
        rcases List.mem_cons.1 he with e' | e'
        · exact absurd e' hne
        · exact e'
    · have : (y :: ys).erase x = y :: ys.erase x :=
        List.erase_cons_tail (by simpa using hyx)
      rw [this, List.mem_cons, ih h2, List.mem_cons]
      constructor
      · rintro (e' | ⟨hne, he⟩)
        · exact ⟨by rw [e']; exact hyx, Or.inl e'⟩
        · exact ⟨hne, Or.inr he⟩
      · rintro ⟨hne, e' | he⟩
        · exact Or.inl e'
        · exact Or.inr ⟨hne, he⟩

theorem nodup_erase_pair {al : List (Nat × Nat)} (hnd : al.Nodup) (x : Nat × Nat) :
    (al.erase x).Nodup := by
  induction al with
  | nil => simp
  | cons y ys ih =>
    obtain ⟨h1, h2⟩ := List.nodup_cons.1 hnd
    by_cases hyx : y = x
    · subst hyx
      have : (y :: ys).erase y = ys := List.erase_cons_head _ _
      rw [this]
      exact h2
    · have : (y :: ys).erase x = y :: ys.erase x :=
        List.erase_cons_tail (by simpa using hyx)
      rw [this]
      exact List.nodup_cons.2 ⟨fun hm => h1 ((mem_erase_pair h2).1 hm).2, ih h2⟩

/-- Giving back a span the page cache cannot free (its address or the address
behind it is not in the span map) only takes it off the clients' list. -/
theorem PcInv.forget {s : State} {al : List (Nat × Nat)} {F : Nat → List Nat} {H : List Nat}
    (hinv : PcInv s al F H) (x : Nat × Nat) : PcInv s (al.erase x) F H := by
  obtain ⟨a1, a2, a3, a4, a5, a6, a7, a8, a9, a10, a11, a12, a13⟩ := hinv
  refine ⟨a1, a2, a3, a4, a5, a6, a7, a8, a9, a10, a11, nodup_erase_pair a12 x, ?_⟩
  intro e he
  exact a13 e ((mem_erase_pair a12).1 he).2

/-- Moving a record from the records in use to the head of a free list does not
change which records are in use. -/
theorem owned_push {F : Nat → List Nat} {H : List Nat} (hnd : H.Nodup) {k0 span : Nat}
    (hs : span ∈ H) (r : Nat) :
    Owned (Function.update F k0 (span :: F k0)) (H.erase span) r ↔ Owned F H r := by
  constructor
  · rintro (hr | ⟨k, hr⟩)
    · exact Or.inl (List.mem_of_mem_erase hr)
    · rcases mem_update_push.1 hr with ⟨_, e⟩ | e
      · exact Or.inl (e ▸ hs)
      · exact Or.inr ⟨k, e⟩
  · rintro (hr | ⟨k, hr⟩)
    · by_cases e : r = span
      · exact Or.inr ⟨k0, mem_update_push.2 (Or.inl ⟨rfl, e⟩)⟩
      · exact Or.inl ((hnd.mem_erase_iff).2 ⟨e, hr⟩)
    · exact Or.inr ⟨k, mem_update_push.2 (Or.inr hr)⟩

/-- The invariant after `deallocateSpan` has put the span `span` on the free list
of its `n` pages without a merge. -/
theorem PcInv.free_plain {s s' : State} {al : List (Nat × Nat)} {F : Nat → List Nat}
    {H : List Nat} (hinv : PcInv s al F H) {a n span : Nat} {fs0 : List (Nat × Nat)}
    (hsH : span ∈ H) (hsa : (s.pc.spans span).pageAddr = a)
    (hsn : (s.pc.spans span).numPages = n)
    (hfs0 : ∀ k, mapGet fs0 k = mapGet s.pc.freeSpans k) (hsort0 : MapSorted fs0)
    (hfs : s'.pc.freeSpans = mapSet fs0 n span)
    (hsm : s'.pc.spanMap = s.pc.spanMap)
    (hsp : s'.pc.spans = setSpan s.pc.spans span { s.pc.spans span with next := mapGet fs0 n })
    (hns : s'.pc.nextSpan = s.pc.nextSpan) (hos : s'.os.mapped = s.os.mapped) :
    PcInv s' (al.erase (a, n)) (Function.update F n (span :: F n)) (H.erase span) := by
  have hsO : Owned F H span := Or.inl hsH
  have hs0 : span ≠ 0 := (hinv.ids span hsO).1
  have hsF : ∀ k, span ∉ F k := hinv.heldFree span hsH
  have hown := @owned_push F H hinv.heldNodup n span hsH
  have va : ∀ r, (s'.pc.spans r).pageAddr = (s.pc.spans r).pageAddr := by
    intro r
    rw [hsp]
    by_cases e : r = span
    · rw [e, setSpan_same]
    · rw [setSpan_other _ _ _ _ e]
  have vn : ∀ r, (s'.pc.spans r).numPages = (s.pc.spans r).numPages := by
    intro r
    rw [hsp]
    by_cases e : r = span
    · rw [e, setSpan_same]
    · rw [setSpan_other _ _ _ _ e]
  refine ⟨?_, ?_, ?_, ?_, ?_, ?_, ?_, ?_, ?_, ?_, ?_, ?_, ?_⟩
  · rw [hfs]; exact mapSorted_mapSet hsort0 _ _
  · rw [hsm]; exact hinv.sortedM
  · rw [hns]; exact hinv.posNext
  · rw [hfs, hsp]
    have c0 : ∀ k, IsChain (nextOf s.pc.spans) (mapGet fs0 k) (F k) := by
      intro k; rw [hfs0]; exact hinv.chains k
    exact push_chains c0 hs0 hsF _ rfl
  · intro k r hr
    rw [vn]
    rcases mem_update_push.1 hr with ⟨e1, e2⟩ | e
    · rw [e1, e2]; exact hsn
    · exact hinv.pages k r e
  · exact hinv.heldNodup.erase _
  · intro r hr k hk
    obtain ⟨hne, hrH⟩ := (hinv.heldNodup.mem_erase_iff).1 hr
    rcases mem_update_push.1 hk with ⟨_, e2⟩ | e
    · exact hne e2
    · exact hinv.heldFree r hrH k e
  · intro r hr
    rw [hns]
    exact hinv.ids r ((hown r).1 hr)
  · intro r hr
    rw [va, vn, hos]
    exact hinv.shape r ((hown r).1 hr)
  · intro r r' hr hr' hne
    unfold SpanDisj
    rw [va, vn, va, vn]
    exact hinv.geom r r' ((hown r).1 hr) ((hown r').1 hr') hne
  · intro x r hx
    rw [hsm] at hx
    obtain ⟨h1, h2⟩ := hinv.reg x r hx
    exact ⟨(hown r).2 h1, by rw [va]; exact h2⟩
  · exact nodup_erase_pair hinv.allocNodup _
  · intro e he
    obtain ⟨hne, hmem⟩ := (mem_erase_pair hinv.allocNodup).1 he
    obtain ⟨r0, hr0, ha, hb⟩ := hinv.allocHeld e hmem
    have hr0s : r0 ≠ span := by
      intro e'
      apply hne
      rw [e'] at ha hb
      rw [hsa] at ha
      rw [hsn] at hb
      exact Prod.ext ha.symm hb.symm
    exact ⟨r0, (hinv.heldNodup.mem_erase_iff).2 ⟨hr0s, hr0⟩, by rw [va]; exact ha,
      by rw [vn]; exact hb⟩

/-- The invariant after `deallocateSpan` has absorbed the free right neighbour
`nx` (of `key` pages) into the span `span` (of `n` pages) and put `span` on the
free list of `n + key` pages. -/
theorem PcInv.free_merge {s s' : State} {al : List (Nat × Nat)} {F : Nat → List Nat}
    {H : List Nat} (hinv : PcInv s al F H) {a n span nx key : Nat}
    {fs1 : List (Nat × Nat)} {spans1 : Nat → Span} {Lrem : List Nat}
    (hsH : span ∈ H) (hsa : (s.pc.spans span).pageAddr = a)
    (hsn : (s.pc.spans span).numPages = n)
    (hnx : nx ∈ F key) (hnxa : (s.pc.spans nx).pageAddr = a + n * PAGE_SIZE)
    (hsort1 : MapSorted fs1)
    (hch1 : ∀ k, IsChain (nextOf spans1) (mapGet fs1 k) (Function.update F key Lrem k))
    (hrem : ∀ r, r ∈ Lrem ↔ r ∈ F key ∧ r ≠ nx)
    (hval : ∀ r, (spans1 r).pageAddr = (s.pc.spans r).pageAddr ∧
      (spans1 r).numPages = (s.pc.spans r).numPages)
    (hout : ∀ r, r ∉ F key → spans1 r = s.pc.spans r)
    (hfs : s'.pc.freeSpans = mapSet fs1 (n + key) span)
    (hsm : s'.pc.spanMap = mapErase s.pc.spanMap (a + n * PAGE_SIZE))
    (hsp : s'.pc.spans =
      setSpan (setSpan spans1 span { spans1 span with numPages := n + key }) span
        { setSpan spans1 span { spans1 span with numPages := n + key } span with
          next := mapGet fs1 (n + key) })
    (hns : s'.pc.nextSpan = s.pc.nextSpan) (hos : s'.os.mapped = s.os.mapped) :
    PcInv s' (al.erase (a, n))
      (Function.update (Function.update F key Lrem) (n + key)
        (span :: Function.update F key Lrem (n + key)))
      (H.erase span) := by
  have hsO : Owned F H span := Or.inl hsH
  have hnO : Owned F H nx := Or.inr ⟨key, hnx⟩
  have hs0 : span ≠ 0 := (hinv.ids span hsO).1
  have hsF : ∀ k, span ∉ F k := hinv.heldFree span hsH
  have hnH : nx ∉ H := fun hh => hinv.heldFree nx hh key hnx
  have hsnx : span ≠ nx := fun e => hnH (e ▸ hsH)
  have hnk : (s.pc.spans nx).numPages = key := hinv.pages key nx hnx
  have hF1 : ∀ k r, r ∈ Function.update F key Lrem k ↔ r ∈ F k ∧ r ≠ nx := by
    intro k r
    by_cases hk : k = key
    · subst hk
      rw [Function.update_same]
      exact hrem r
    · rw [Function.update_noteq hk]
      constructor
      · intro hr
        exact ⟨hr, fun e => hk (hinv.free_key (e ▸ hr) hnx)⟩
      · exact fun hr => hr.1
  have hsF1 : ∀ k, span ∉ Function.update F key Lrem k :=
    fun k hk => hsF k ((hF1 k span).1 hk).1
  have hown : ∀ r, Owned (Function.update (Function.update F key Lrem) (n + key)
        (span :: Function.update F key Lrem (n + key))) (H.erase span) r ↔
      Owned F H r ∧ r ≠ nx := by
    intro r
    constructor
    · rintro (hr | ⟨k, hr⟩)
      · have := List.mem_of_mem_erase hr
        exact ⟨Or.inl this, fun e => hnH (e ▸ this)⟩
      · rcases mem_update_push.1 hr with ⟨_, e⟩ | e
        · rw [e]; exact ⟨hsO, hsnx⟩
        · have := (hF1 k r).1 e
          exact ⟨Or.inr ⟨k, this.1⟩, this.2⟩
    · rintro ⟨hr | ⟨k, hr⟩, hne⟩
      · by_cases e : r = span
        · exact Or.inr ⟨n + key, mem_update_push.2 (Or.inl ⟨rfl, e⟩)⟩
        · exact Or.inl ((hinv.heldNodup.mem_erase_iff).2 ⟨e, hr⟩)
      · exact Or.inr ⟨k, mem_update_push.2 (Or.inr ((hF1 k r).2 ⟨hr, hne⟩))⟩
  have hs1 : spans1 span = s.pc.spans span := hout span (hsF key)
  have vsa : (s'.pc.spans span).pageAddr = a := by
    rw [hsp, setSpan_same, setSpan_same, hs1]
    exact hsa
  have vsn : (s'.pc.spans span).numPages = n + key := by
    rw [hsp, setSpan_same, setSpan_same]
  have voa : ∀ r, r ≠ span → (s'.pc.spans r).pageAddr = (s.pc.spans r).pageAddr := by
    intro r hr
    rw [hsp, setSpan_other _ _ _ _ hr, setSpan_other _ _ _ _ hr]
    exact (hval r).1
  have von : ∀ r, r ≠ span → (s'.pc.spans r).numPages = (s.pc.spans r).numPages := by
    intro r hr
    rw [hsp, setSpan_other _ _ _ _ hr, setSpan_other _ _ _ _ hr]
    exact (hval r).2
  have hP : PAGE_SIZE = 4096 := rfl
  obtain ⟨ss1, ss2, ss3, ss4⟩ := hinv.shape span hsO
  obtain ⟨sn1, sn2, sn3, sn4⟩ := hinv.shape nx hnO
  rw [hsa, hsn] at ss3 ss4
  rw [hsn] at ss1
  rw [hnxa, hnk] at sn3 sn4
  rw [hnk] at sn1
  refine ⟨?_, ?_, ?_, ?_, ?_, ?_, ?_, ?_, ?_, ?_, ?_, ?_, ?_⟩
  · rw [hfs]; exact mapSorted_mapSet hsort1 _ _
  · rw [hsm]; exact mapSorted_mapErase hinv.sortedM _
  · rw [hns]; exact hinv.posNext
  · rw [hfs, hsp]
    have c2 := keep_chains hch1 span { spans1 span with numPages := n + key } rfl
    exact push_chains c2 hs0 hsF1 _ rfl
  · intro k r hr
    rcases mem_update_push.1 hr with ⟨e1, e2⟩ | e
    · rw [e1, e2]; exact vsn
    · have hrs : r ≠ span := fun e' => hsF1 k (e' ▸ e)
      rw [von r hrs]
      exact hinv.pages k r ((hF1 k r).1 e).1
  · exact hinv.heldNodup.erase _
  · intro r hr k hk
    obtain ⟨hne, hrH⟩ := (hinv.heldNodup.mem_erase_iff).1 hr
    rcases mem_update_push.1 hk with ⟨_, e2⟩ | e
    · exact hne e2
    · exact hinv.heldFree r hrH k ((hF1 k r).1 e).1
  · intro r hr
    rw [hns]
    exact hinv.ids r ((hown r).1 hr).1
  · intro r hr
    rw [hos]
    by_cases e : r = span
    · rw [e, vsa, vsn]
      refine ⟨by omega, by rw [← hsa]; exact ss2, ?_, ?_⟩
      · rw [hP] at sn3 ⊢
        omega
      · intro x hx1 hx2
        by_cases hx : x < a + n * PAGE_SIZE
        · exact ss4 x hx1 hx
        · refine sn4 x (by omega) ?_
          rw [hP] at hx2 ⊢
          omega
    · rw [voa r e, von r e]
      exact hinv.shape r ((hown r).1 hr).1
  · intro r r' hr hr' hne
    obtain ⟨ho, hn⟩ := (hown r).1 hr
    obtain ⟨ho', hn'⟩ := (hown r').1 hr'
    unfold SpanDisj
    by_cases e : r = span
    · have e' : r' ≠ span := fun e' => hne (e.trans e'.symm)
      rw [e, vsa, vsn, voa r' e', von r' e']
      have g0 := (hinv.shape r' ho').1
      have g1 := hinv.geom r' span ho' hsO e'
      have g2 := hinv.geom r' nx ho' hnO hn'
      unfold SpanDisj at g1 g2
      rw [hsa, hsn] at g1
      rw [hnxa, hnk] at g2
      simp only [hP] at g1 g2 ⊢
      omega
    · by_cases e' : r' = span
      · rw [e', vsa, vsn, voa r e, von r e]
        have g0 := (hinv.shape r ho).1
        have g1 := hinv.geom r span ho hsO e
        have g2 := hinv.geom r nx ho hnO hn
        unfold SpanDisj at g1 g2
        rw [hsa, hsn] at g1
        rw [hnxa, hnk] at g2
        simp only [hP] at g1 g2 ⊢
        omega
      · rw [voa r e, von r e, voa r' e', von r' e']
        exact hinv.geom r r' ho ho' hne
  · intro x r hx
    rw [hsm, mapFind_mapErase hinv.sortedM] at hx
    split_ifs at hx with hxa
    obtain ⟨h1, h2⟩ := hinv.reg x r hx
    have hrn : r ≠ nx := by
      intro e
      rw [e, hnxa] at h2
      exact hxa h2.symm
    refine ⟨(hown r).2 ⟨h1, hrn⟩, ?_⟩
    by_cases e : r = span
    · rw [e, vsa]
      rw [e, hsa] at h2
      exact h2
    · rw [voa r e]
      exact h2
  · exact nodup_erase_pair hinv.allocNodup _
  · intro e he
    obtain ⟨hne, hmem⟩ := (mem_erase_pair hinv.allocNodup).1 he
    obtain ⟨r0, hr0, ha, hb⟩ := hinv.allocHeld e hmem
    have hr0s : r0 ≠ span := by
      intro e'
      apply hne
      rw [e'] at ha hb
      rw [hsa] at ha
      rw [hsn] at hb
      exact Prod.ext ha.symm hb.symm
    exact ⟨r0, (hinv.heldNodup.mem_erase_iff).2 ⟨hr0s, hr0⟩, by rw [voa r0 hr0s]; exact ha,
      by rw [von r0 hr0s]; exact hb⟩

theorem deallocateSpan_unknown {s : State} {ptr n : Nat}
    (h1 : mapFind s.pc.spanMap ptr = none) : PageCache.deallocateSpan s ptr n = some s := by
  unfold PageCache.deallocateSpan
  simp only [h1]

theorem deallocateSpan_no_next {s : State} {ptr n span : Nat}
    (h1 : mapFind s.pc.spanMap ptr = some span)
    (h2 : mapFind s.pc.spanMap (ptr + (n * PAGE_SIZE) % SIZE_MOD) = none) :
    PageCache.deallocateSpan s ptr n = some s := by
  unfold PageCache.deallocateSpan
  simp only [h1, h2]

/-- One `deallocateSpan(a, n)` of a span a client holds, from a state that
satisfies the invariant: the call returns, the invariant holds again with the
span taken off the clients' list, and nothing changes when the address or the
address right behind the span is not in the span map. When both are, with
records `sp` and `nx`: afterwards `nx` is on no free list, `sp` is the head of the
free list of its page count and still starts at `a`; if `nx` was on a free list,
`sp` has grown by the pages of `nx` and the map entry of `nx` is erased; if not,
`sp` still has `n` pages and the span map is unchanged. -/
theorem PcInv.deallocateSpan {s : State} {al : List (Nat × Nat)} {F : Nat → List Nat}
    {H : List Nat} (hinv : PcInv s al F H) {a n : Nat} (hmem : (a, n) ∈ al) :
    ∃ s' F' H', PageCache.deallocateSpan s a n = some s' ∧
      PcInv s' (al.erase (a, n)) F' H' ∧ s'.os = s.os ∧ s'.pc.nextSpan = s.pc.nextSpan ∧
      ((mapFind s.pc.spanMap a = none ∨ mapFind s.pc.spanMap (a + n * PAGE_SIZE) = none) →
        s' = s) ∧
      (∀ sp nx, mapFind s.pc.spanMap a = some sp →
        mapFind s.pc.spanMap (a + n * PAGE_SIZE) = some nx →
        (∀ k, nx ∉ F' k) ∧
        (∃ tl, F' (s'.pc.spans sp).numPages = sp :: tl) ∧
        (s'.pc.spans sp).pageAddr = a ∧
        ((∃ k, nx ∈ F k) →
          (s'.pc.spans sp).numPages = n + (s.pc.spans nx).numPages ∧
          mapFind s'.pc.spanMap (a + n * PAGE_SIZE) = none) ∧
        ((∀ k, nx ∉ F k) →
          (s'.pc.spans sp).numPages = n ∧ s'.pc.spanMap = s.pc.spanMap)) := by
  obtain ⟨r0, hr0, hra, hrn⟩ := hinv.allocHeld _ hmem
  simp only at hra hrn
  obtain ⟨sh1, sh2, sh3, sh4⟩ := hinv.shape r0 (Or.inl hr0)
  have hP : PAGE_SIZE = 4096 := rfl
  have hmod : (n * PAGE_SIZE) % SIZE_MOD = n * PAGE_SIZE := by
    apply Nat.mod_eq_of_lt
    rw [hrn, hP] at sh3
    rw [hP]
    omega
  cases h1 : mapFind s.pc.spanMap a with
  | none =>
    refine ⟨s, F, H, deallocateSpan_unknown h1, hinv.forget _, rfl, rfl, fun _ => rfl, ?_⟩
    intro sp nx hsp
    exact absurd hsp (by simp)
  | some span =>
    obtain ⟨hsO, hsa⟩ := hinv.reg a span h1
    have hsr : span = r0 := hinv.addr_inj hsO (Or.inl hr0) (hsa.trans hra.symm)
    subst hsr
    cases h2 : mapFind s.pc.spanMap (a + n * PAGE_SIZE) with
    | none =>
      refine ⟨s, F, H, deallocateSpan_no_next h1 (by rw [hmod]; exact h2), hinv.forget _,
        rfl, rfl, fun _ => rfl, ?_⟩
      intro sp nx _ hnx
      exact absurd hnx (by simp)
    | some nx =>
      obtain ⟨hnO, hna⟩ := hinv.reg _ nx h2
      have hs0 : span ≠ 0 := (hinv.ids span hsO).1
      have hn0 : nx ≠ 0 := (hinv.ids nx hnO).1
      have hsnx : span ≠ nx := by
        intro e
        rw [← e, hra] at hna
        have : 0 < n * PAGE_SIZE := Nat.mul_pos (by omega) PAGE_SIZE_pos
        omega
      have heq := @deallocateSpan_eq s a n span nx h1 (by rw [hmod]; exact h2) hs0 hn0
      rcases hnO with hnH | ⟨key, hnF⟩
      · have habs : ∀ k, nx ∉ F k := hinv.heldFree nx hnH
        rw [hinv.search_absent hn0 habs] at heq
        have hpl := @PcInv.free_plain s
          (finishFree s span nx
            (mapTouch s.pc.freeSpans (s.pc.spans nx).numPages, s.pc.spans, false))
          al F H hinv a n span (mapTouch s.pc.freeSpans (s.pc.spans nx).numPages)
          hr0 hra hrn (fun k => mapGet_mapTouch _ _ k) (mapSorted_mapTouch hinv.sortedF _)
          (by simp only [finishFree, Bool.false_eq_true, if_false, hrn])
          (by simp only [finishFree, Bool.false_eq_true, if_false])
          (by simp only [finishFree, Bool.false_eq_true, if_false, hrn])
          rfl rfl
        have hnp : ((finishFree s span nx
            (mapTouch s.pc.freeSpans (s.pc.spans nx).numPages, s.pc.spans, false)).pc.spans
              span).numPages = n := by
          simp only [finishFree, Bool.false_eq_true, if_false, setSpan_same, hrn]
        refine ⟨_, _, _, heq, hpl, rfl, rfl, ?_, ?_⟩
        · rintro (h | h)
          · exact absurd h (by simp)
          · exact absurd h (by simp)
        · intro sp nx' hsp hnx'
          simp only [Option.some.injEq] at hsp hnx'
          subst hsp hnx'
          refine ⟨?_, ⟨F n, ?_⟩, ?_, ?_, ?_⟩
          · intro k hk
            rcases mem_update_push.1 hk with ⟨_, e⟩ | e
            · exact hsnx e.symm
            · exact habs k e
          · rw [hnp, Function.update_same]
          · simp only [finishFree, Bool.false_eq_true, if_false, setSpan_same, hra]
          · rintro ⟨k, hk⟩
            exact absurd hk (habs k)
          · intro _
            exact ⟨hnp, by simp only [finishFree, Bool.false_eq_true, if_false]⟩
      · have hnk : (s.pc.spans nx).numPages = key := hinv.pages key nx hnF
        obtain ⟨fs1, spans1, Lrem, hsearch, hsort1, hch1, hrem, hval, hout, hnx1⟩ :=
          hinv.search_found hnF
        rw [hsearch] at heq
        have hsF : ∀ k, span ∉ F k := hinv.heldFree span hr0
        have hs1 : spans1 span = s.pc.spans span := hout span (hsF key)
        obtain ⟨_, _, sn3, _⟩ := hinv.shape nx (Or.inr ⟨key, hnF⟩)
        have hsum : (n + key) % SIZE_MOD = n + key := by
          apply Nat.mod_eq_of_lt
          rw [hna, hnk, hP] at sn3
          have : 0 < a := by omega
          omega
        have hnp : ((finishFree s span nx (fs1, spans1, true)).pc.spans span).numPages
            = n + key := by
          simp only [finishFree, if_true, setSpan_same, hs1, hnx1, hrn, hnk, hsum]
        have hmg := @PcInv.free_merge s (finishFree s span nx (fs1, spans1, true))
          al F H hinv a n span nx key fs1 spans1 Lrem
          hr0 hra hrn hnF hna hsort1 hch1 hrem hval hout
          (by simp only [finishFree, if_true, setSpan_same, hs1, hnx1, hrn, hnk, hsum])
          (by simp only [finishFree, if_true, hnx1, hna])
          (by simp only [finishFree, if_true, setSpan_same, hs1, hnx1, hrn, hnk, hsum])
          rfl rfl
        refine ⟨_, _, _, heq, hmg, rfl, rfl, ?_, ?_⟩
        · rintro (h | h)
          · exact absurd h (by simp)
          · exact absurd h (by simp)
        · intro sp nx' hsp hnx'
          simp only [Option.some.injEq] at hsp hnx'
          subst hsp hnx'
          refine ⟨?_, ⟨Function.update F key Lrem (n + key), ?_⟩, ?_, ?_, ?_⟩
          · intro k hk
            rcases mem_update_push.1 hk with ⟨_, e⟩ | e
            · exact hsnx e.symm
            · by_cases hkk : k = key
              · subst hkk
                rw [Function.update_same] at e
                exact ((hrem nx).1 e).2 rfl
              · rw [Function.update_noteq hkk] at e
                exact hkk (hinv.free_key e hnF)
          · rw [hnp, Function.update_same]
          · simp only [finishFree, if_true, setSpan_same, hs1, hra]
          · intro _
            refine ⟨by rw [hnp, hnk], ?_⟩
            have : (finishFree s span nx (fs1, spans1, true)).pc.spanMap
                = mapErase s.pc.spanMap (a + n * PAGE_SIZE) := by
              simp only [finishFree, if_true, hnx1, hna]
            rw [this, mapFind_mapErase hinv.sortedM]
            simp
          · intro habs
            exact absurd hnF (habs key)

/-! ## Reachable states of the page cache -/

theorem OsFits.sublist {l l' : List (Nat × Nat)} (hs : l.Sublist l') (h : OsFits l') :
    OsFits l :=
  ⟨List.Pairwise.sublist hs h.1, fun reg hreg => h.2 reg (hs.subset hreg)⟩

theorem deallocateSpan_os {s s' : State} {a n : Nat}
    (h : PageCache.deallocateSpan s a n = some s') : s'.os = s.os := by
  unfold PageCache.deallocateSpan at h
  dsimp only at h
  split at h
  · simp only [Option.some.injEq] at h
    rw [← h]
  · split at h
    · simp only [Option.some.injEq] at h
      rw [← h]
    · split at h
      · exact absurd h (by simp)
      · split at h
        · exact absurd h (by simp)
        · simp only [Option.some.injEq] at h
          rw [← h]

/-- Every reachable state of the page cache, with mappings that are pairwise
disjoint and inside the address space, satisfies the invariant. -/
theorem pcReachable_inv {m0 : Mem} {pending : List Nat} {s : State} {al : List (Nat × Nat)}
    (hr : PcReachable m0 pending s al) :
    OsFits s.os.mapped → ∃ F H, PcInv s al F H := by
  induction hr with
  | init => exact fun _ => ⟨_, _, PcInv.at_start m0 pending⟩
  | alloc _ hn1 hnb he ha ih =>
    intro hos
    obtain ⟨F, H, hinv⟩ := ih (hos.sublist (allocateSpan_mapped he))
    obtain ⟨F', H', hinv', _⟩ := (hinv.allocateSpan hn1 hnb he hos).2 ha
    exact ⟨F', H', hinv'⟩
  | allocNull _ hn1 hnb he ih =>
    intro hos
    obtain ⟨F, H, hinv⟩ := ih (hos.sublist (allocateSpan_mapped he))
    exact ⟨F, H, (hinv.allocateSpan hn1 hnb he hos).1 rfl⟩
  | free _ hmem he ih =>
    intro hos
    have hoseq := deallocateSpan_os he
    obtain ⟨F, H, hinv⟩ := ih (by rw [← hoseq]; exact hos)
    obtain ⟨s'', F', H', e, hinv', _⟩ := hinv.deallocateSpan hmem
    rw [he] at e
    simp only [Option.some.injEq] at e
    subst e
    exact ⟨F', H', hinv'⟩
  | write _ ih =>
    intro hos
    obtain ⟨F, H, hinv⟩ := ih hos
    exact ⟨F, H, hinv.of_same_pc rfl rfl⟩

/-- C13, with the page counts limited to those whose byte size fits `size_t`. In
every state reached from the fresh one by `allocateSpan` calls for such page
counts and `deallocateSpan` calls on spans the clients hold, with mappings that
are pairwise disjoint and inside the address space: if `allocateSpan(numPages)`
returns a non-null address `a`, the record taken starts at `a` and has exactly
`numPages` pages, any record the span map has under `a` is that record, it is on
no free list, and the range `[a, a + numPages * PAGE_SIZE)` is disjoint from the
range of every span on a free list. -/
theorem allocateSpan_exact_span {m0 : Mem} {pending : List Nat} {s : State}
    {al : List (Nat × Nat)} (hr : PcReachable m0 pending s al) (numPages a : Nat) (s' : State)
    (hn1 : 1 ≤ numPages) (hnb : numPages * PAGE_SIZE < SIZE_MOD)
    (h : PageCache.allocateSpan s numPages = some (a, s')) (ha : a ≠ 0)
    (hfit : OsFits s'.os.mapped) :
    (s'.pc.spans (takenSpan s numPages)).pageAddr = a ∧
    (s'.pc.spans (takenSpan s numPages)).numPages = numPages ∧
    (∀ r, mapFind s'.pc.spanMap a = some r → r = takenSpan s numPages) ∧
    ¬ OnFreeList s' (takenSpan s numPages) ∧
    ∀ f, OnFreeList s' f →
      a + numPages * PAGE_SIZE ≤ (s'.pc.spans f).pageAddr ∨
      (s'.pc.spans f).pageAddr + (s'.pc.spans f).numPages * PAGE_SIZE ≤ a := by
  obtain ⟨F, H, hinv⟩ := pcReachable_inv hr (hfit.sublist (allocateSpan_mapped h))
  obtain ⟨F', H', hinv', hH, hta, htn⟩ := (hinv.allocateSpan hn1 hnb h hfit).2 ha
  refine ⟨hta, htn, ?_, ?_, ?_⟩
  · intro r hr'
    obtain ⟨hO, hra⟩ := hinv'.reg a r hr'
    exact hinv'.addr_inj hO (Or.inl hH) (hra.trans hta.symm)
  · rw [hinv'.onFreeList_iff]
    rintro ⟨k, hk⟩
    exact hinv'.heldFree _ hH k hk
  · intro f hf
    obtain ⟨k, hk⟩ := (hinv'.onFreeList_iff f).1 hf
    have hne : takenSpan s numPages ≠ f := fun e => hinv'.heldFree _ hH k (e ▸ hk)
    have := hinv'.geom _ f (Or.inl hH) (Or.inr ⟨k, hk⟩) hne
    unfold SpanDisj at this
    rw [hta, htn] at this
    exact this

theorem pcLowerFreed_reachable :
    PcReachable (fun _ => 0) [0x10000, 0x18000] pcLowerFreed [(0x18000, 8)] :=
  have h1 : PcReachable (fun _ => 0) [0x10000, 0x18000]
      ((PageCache.allocateSpan (fresh (fun _ => 0) [0x10000, 0x18000]) 8).getD
        (0, fresh (fun _ => 0) [])).2 [(0x10000, 8)] :=
    PcReachable.alloc PcReachable.init (by decide) (by decide) rfl (by decide)
  have h2 : PcReachable (fun _ => 0) [0x10000, 0x18000] pcTwoSpans
      [(0x18000, 8), (0x10000, 8)] :=
    PcReachable.alloc h1 (by decide) (by decide) rfl (by decide)
  PcReachable.free h2 (List.mem_cons_of_mem _ (List.mem_cons_self _ _)) rfl

theorem allocateSpan_exact_span_witness :
    PcReachable (fun _ => 0) [0x10000, 0x18000] pcLowerFreed [(0x18000, 8)] ∧
    PageCache.allocateSpan pcLowerFreed 3 = some (0x10000, pcSplit) ∧
    OsFits pcSplit.os.mapped ∧
    (pcSplit.pc.spans (takenSpan pcLowerFreed 3)).pageAddr = 0x10000 ∧
    (pcSplit.pc.spans (takenSpan pcLowerFreed 3)).numPages = 3 ∧
    (∀ r, mapFind pcSplit.pc.spanMap 0x10000 = some r → r = takenSpan pcLowerFreed 3) ∧
    ¬ OnFreeList pcSplit (takenSpan pcLowerFreed 3) ∧
    ∀ f, OnFreeList pcSplit f →
      0x10000 + 3 * PAGE_SIZE ≤ (pcSplit.pc.spans f).pageAddr ∨
      (pcSplit.pc.spans f).pageAddr + (pcSplit.pc.spans f).numPages * PAGE_SIZE ≤ 0x10000 :=
  have hfit : OsFits pcSplit.os.mapped := by
    show OsFits [(0x18000, 32768), (0x10000, 32768)]
    refine ⟨?_, ?_⟩
    · show List.Pairwise _ [(0x18000, 32768), (0x10000, 32768)]
      simp
    · intro reg hreg
      simp only [List.mem_cons, List.mem_singleton, List.not_mem_nil, or_false] at hreg
      rcases hreg with e | e <;> (rw [e]; decide)
  ⟨pcLowerFreed_reachable, rfl, hfit,
    allocateSpan_exact_span pcLowerFreed_reachable 3 0x10000 pcSplit (by decide) (by decide)
      rfl (by decide) hfit⟩

/-- C18 as the code has it: only the right neighbour of the span being freed is
looked at. In every state reached from the fresh one by `allocateSpan` calls and
`deallocateSpan` calls on spans the clients hold (mappings pairwise disjoint and
inside the address space), `deallocateSpan(a, n)` of a span a client holds
returns; and when the span map has the record `sp` under `a` and the record `nx`
under `a + n * PAGE_SIZE`, then afterwards `nx` is on no free list and `sp`, still
starting at `a`, is the head of the free list of its page count: if `nx` was on a
free list it has been absorbed (`sp` has `n` pages more than `nx` had, and the
entry of `nx` is gone from the span map), otherwise `sp` keeps its `n` pages. -/
theorem deallocateSpan_right_coalesce {m0 : Mem} {pending : List Nat} {s : State}
    {al : List (Nat × Nat)} (hr : PcReachable m0 pending s al) (hfit : OsFits s.os.mapped)
    (a n : Nat) (hmem : (a, n) ∈ al) :
    ∃ s', PageCache.deallocateSpan s a n = some s' ∧
      ∀ sp nx, mapFind s.pc.spanMap a = some sp →
        mapFind s.pc.spanMap (a + n * PAGE_SIZE) = some nx →
        ¬ OnFreeList s' nx ∧
        (freeListOf s' (s'.pc.spans sp).numPages).head? = some sp ∧
        (s'.pc.spans sp).pageAddr = a ∧
        (OnFreeList s nx →
          (s'.pc.spans sp).numPages = n + (s.pc.spans nx).numPages ∧
          mapFind s'.pc.spanMap (a + n * PAGE_SIZE) = none) ∧
        (¬ OnFreeList s nx → (s'.pc.spans sp).numPages = n) := by
  obtain ⟨F, H, hinv⟩ := pcReachable_inv hr hfit
  obtain ⟨s', F', H', e, hinv', _, _, _, hfacts⟩ := hinv.deallocateSpan hmem
  refine ⟨s', e, ?_⟩
  intro sp nx hsp hnx
  obtain ⟨f1, ⟨tl, f2⟩, f3, f4, f5⟩ := hfacts sp nx hsp hnx
  refine ⟨?_, ?_, f3, ?_, ?_⟩
  · rw [hinv'.onFreeList_iff]
    rintro ⟨k, hk⟩
    exact f1 k hk
  · rw [hinv'.freeListOf_eq, f2]
    rfl
  · intro hon
    exact f4 ((hinv.onFreeList_iff nx).1 hon)
  · intro hoff
    refine (f5 ?_).1
    intro k hk
    exact hoff ((hinv.onFreeList_iff nx).2 ⟨k, hk⟩)

theorem pcMidFreed_reachable :
    PcReachable (fun _ => 0) [0x10000, 0x18000, 0x20000] pcMidFreed
      [(0x20000, 8), (0x10000, 8)] :=
  have h1 : PcReachable (fun _ => 0) [0x10000, 0x18000, 0x20000]
      ((pcRun [PcCall.alloc 8] (fresh (fun _ => 0) [0x10000, 0x18000, 0x20000])).getD
        ([], fresh (fun _ => 0) [])).2 [(0x10000, 8)] :=
    PcReachable.alloc PcReachable.init (by decide) (by decide) rfl (by decide)
  have h2 : PcReachable (fun _ => 0) [0x10000, 0x18000, 0x20000]
      ((pcRun [PcCall.alloc 8, PcCall.alloc 8]
        (fresh (fun _ => 0) [0x10000, 0x18000, 0x20000])).getD
        ([], fresh (fun _ => 0) [])).2 [(0x18000, 8), (0x10000, 8)] :=
    PcReachable.alloc h1 (by decide) (by decide) rfl (by decide)
  have h3 : PcReachable (fun _ => 0) [0x10000, 0x18000, 0x20000]
      ((pcRun [PcCall.alloc 8, PcCall.alloc 8, PcCall.alloc 8]
        (fresh (fun _ => 0) [0x10000, 0x18000, 0x20000])).getD
        ([], fresh (fun _ => 0) [])).2 [(0x20000, 8), (0x18000, 8), (0x10000, 8)] :=
    PcReachable.alloc h2 (by decide) (by decide) rfl (by decide)
  PcReachable.free h3 (List.mem_cons_of_mem _ (List.mem_cons_self _ _)) rfl

theorem deallocateSpan_right_coalesce_witness :
    PcReachable (fun _ => 0) [0x10000, 0x18000, 0x20000] pcMidFreed
      [(0x20000, 8), (0x10000, 8)] ∧
    OsFits pcMidFreed.os.mapped ∧
    ∃ s', PageCache.deallocateSpan pcMidFreed 0x10000 8 = some s' ∧
      ∀ sp nx, mapFind pcMidFreed.pc.spanMap 0x10000 = some sp →
        mapFind pcMidFreed.pc.spanMap (0x10000 + 8 * PAGE_SIZE) = some nx →
        ¬ OnFreeList s' nx ∧
        (freeListOf s' (s'.pc.spans sp).numPages).head? = some sp ∧
        (s'.pc.spans sp).pageAddr = 0x10000 ∧
        (OnFreeList pcMidFreed nx →
          (s'.pc.spans sp).numPages = 8 + (pcMidFreed.pc.spans nx).numPages ∧
          mapFind s'.pc.spanMap (0x10000 + 8 * PAGE_SIZE) = none) ∧
        (¬ OnFreeList pcMidFreed nx → (s'.pc.spans sp).numPages = 8) :=
  have hfit : OsFits pcMidFreed.os.mapped := by
    show OsFits [(0x20000, 32768), (0x18000, 32768), (0x10000, 32768)]
    refine ⟨?_, ?_⟩
    · show List.Pairwise _ [(0x20000, 32768), (0x18000, 32768), (0x10000, 32768)]
      simp
    · intro reg hreg
      simp only [List.mem_cons, List.mem_singleton, List.not_mem_nil, or_false] at hreg
      rcases hreg with e | e | e <;> (rw [e]; decide)
  ⟨pcMidFreed_reachable, hfit,
    deallocateSpan_right_coalesce pcMidFreed_reachable hfit 0x10000 8
      (List.mem_cons_of_mem _ (List.mem_cons_self _ _))⟩

/-! ## The batch size -/

/-- C22. For every block size `size ≥ 1`, `getBatchNum size` is the batch size of the
specification, `max(1, min(baseNum, 4096 / size))` with `baseNum` 64, 32, 16, 8, 4,
2 for `size` up to 32, 64, 128, 256, 512, 1024 and 1 otherwise; it is at least 1,
and for `size ≤ 1024` a batch has at most 2048 bytes. -/
theorem getBatchNum_spec (size : Nat) (h1 : 1 ≤ size) :
    ThreadCache.getBatchNum size = batchNumSpec size ∧
    ThreadCache.getBatchNum size = max 1 (min (baseNumSpec size) (4096 / size)) ∧
    1 ≤ ThreadCache.getBatchNum size ∧
    (size ≤ 1024 → ThreadCache.getBatchNum size * size ≤ 2048) := by
  have hq : ∀ c, c * size ≤ 4096 → c ≤ 4096 / size := by
    intro c hc
    exact (Nat.le_div_iff_mul_le (by omega)).2 hc
  unfold batchNumSpec baseNumSpec ThreadCache.getBatchNum
  simp only [show 4 * 1024 = 4096 from rfl]
  by_cases c1 : size ≤ 32
  · have := hq 64 (by omega)
    simp only [c1, if_true]
    refine ⟨by omega, by omega, by omega, fun _ => ?_⟩
    have e : max 1 (min (max 1 (4096 / size)) 64) = 64 := by omega
    rw [e]; omega
  · by_cases c2 : size ≤ 64
    · have := hq 32 (by omega)
      simp only [c1, c2, if_true, if_false]
      refine ⟨by omega, by omega, by omega, fun _ => ?_⟩
      have e : max 1 (min (max 1 (4096 / size)) 32) = 32 := by omega
      rw [e]; omega
    · by_cases c3 : size ≤ 128
      · have := hq 16 (by omega)
        simp only [c1, c2, c3, if_true, if_false]
        refine ⟨by omega, by omega, by omega, fun _ => ?_⟩
        have e : max 1 (min (max 1 (4096 / size)) 16) = 16 := by omega
        rw [e]; omega
      · by_cases c4 : size ≤ 256
        · have := hq 8 (by omega)
          simp only [c1, c2, c3, c4, if_true, if_false]
          refine ⟨by omega, by omega, by omega, fun _ => ?_⟩
          have e : max 1 (min (max 1 (4096 / size)) 8) = 8 := by omega
          rw [e]; omega
        · by_cases c5 : size ≤ 512
          · have := hq 4 (by omega)
            simp only [c1, c2, c3, c4, c5, if_true, if_false]
            refine ⟨by omega, by omega, by omega, fun _ => ?_⟩
            have e : max 1 (min (max 1 (4096 / size)) 4) = 4 := by omega
            rw [e]; omega
          · by_cases c6 : size ≤ 1024
            · have := hq 2 (by omega)
              simp only [c1, c2, c3, c4, c5, c6, if_true, if_false]
              refine ⟨by omega, by omega, by omega, fun _ => ?_⟩
              have e : max 1 (min (max 1 (4096 / size)) 2) = 2 := by omega
              rw [e]; omega
            · simp only [c1, c2, c3, c4, c5, c6, if_false]
              refine ⟨by omega, by omega, by omega, ?_⟩
              intro h
              first | exact absurd h c6 | exact h.elim

theorem getBatchNum_spec_witness :
    ThreadCache.getBatchNum 100 = batchNumSpec 100 ∧
    ThreadCache.getBatchNum 100 = max 1 (min (baseNumSpec 100) (4096 / 100)) ∧
    1 ≤ ThreadCache.getBatchNum 100 ∧
    (100 ≤ 1024 → ThreadCache.getBatchNum 100 * 100 ≤ 2048) :=
  getBatchNum_spec 100 (by decide)

/-! ## The free-spans map in reachable states -/

/-- In a reachable state of the page cache every record on the free list of the key
`k` has exactly `k` pages. -/
theorem free_list_pages {m0 : Mem} {pending : List Nat} {s : State} {al : List (Nat × Nat)}
    (hr : PcReachable m0 pending s al) (hfit : OsFits s.os.mapped) (k r : Nat)
    (hmem : r ∈ freeListOf s k) : (s.pc.spans r).numPages = k := by
  obtain ⟨F, H, hinv⟩ := pcReachable_inv hr hfit
  rw [hinv.freeListOf_eq k] at hmem
  exact hinv.pages k r hmem

/-- In a reachable state of the page cache a `lower_bound` hit whose list head is
not null yields a record with at least the pages asked for. -/
theorem lower_bound_hit_pages {m0 : Mem} {pending : List Nat} {s : State}
    {al : List (Nat × Nat)} (hr : PcReachable m0 pending s al) (hfit : OsFits s.os.mapped)
    (numPages key h : Nat) (hlb : mapLowerBound s.pc.freeSpans numPages = some (key, h))
    (h0 : h ≠ 0) : numPages ≤ (s.pc.spans h).numPages := by
  obtain ⟨F, H, hinv⟩ := pcReachable_inv hr hfit
  obtain ⟨hle, _, hcons⟩ := hinv.hit hlb
  obtain ⟨_, _, hpg⟩ := hcons h0
  omega

/-! ## Version 1.0: `padPointer` -/

theorem padPointer_lt (p align : Nat) (ha : 0 < align) :
    V1.MemoryPool.padPointer p align < align :=
  Nat.mod_lt _ ha

/-- Without a wrap-around (`p ≤ align`) the padding aligns the pointer. -/
theorem padPointer_small (p align : Nat) (ha : 0 < align) (hp : p ≤ align)
    (hal : align < SIZE_MOD) : (p + V1.MemoryPool.padPointer p align) % align = 0 := by
  unfold V1.MemoryPool.padPointer
  have hS : SIZE_MOD = 2 ^ 64 := rfl
  rw [Nat.mod_eq_of_lt hal, Nat.mod_eq_of_lt (by omega : p < SIZE_MOD)]
  have e : (align + SIZE_MOD - p) % SIZE_MOD = align - p := by
    have : align + SIZE_MOD - p = (align - p) + SIZE_MOD := by omega
    rw [this, Nat.add_mod_right]
    exact Nat.mod_eq_of_lt (by omega)
  rw [e, Nat.add_mod, Nat.mod_mod, ← Nat.add_mod]
  have : p + (align - p) = align := by omega
  rw [this, Nat.mod_self]

/-- With a wrap-around (`align < p`, every pointer into a heap block) the padded
pointer is congruent to `2^64` modulo `align`. -/
theorem padPointer_wrapped (p align : Nat) (ha : 0 < align) (hp : align < p)
    (hpS : p < SIZE_MOD) :
    (p + V1.MemoryPool.padPointer p align) % align = SIZE_MOD % align := by
  unfold V1.MemoryPool.padPointer
  rw [Nat.mod_eq_of_lt (by omega : align < SIZE_MOD), Nat.mod_eq_of_lt hpS,
    Nat.mod_eq_of_lt (by omega : align + SIZE_MOD - p < SIZE_MOD),
    Nat.add_mod, Nat.mod_mod, ← Nat.add_mod]
  have : p + (align + SIZE_MOD - p) = align + SIZE_MOD := by omega
  rw [this, Nat.add_mod_left]

/-- Among the slot sizes `initMemoryPool` configures, the powers of two are those
that divide `2^64`. -/
theorem slotSizes_dividing :
    ∀ align ∈ V1.slotSizes,
      (SIZE_MOD % align = 0 ↔ align ∈ [8, 16, 32, 64, 128, 256, 512]) := by
  decide

/-- For a pointer above the slot size, `padPointer` aligns it exactly when the slot
size is one of the powers of two 8, 16, ..., 512. -/
theorem padPointer_aligns_iff (p align : Nat) (hmem : align ∈ V1.slotSizes)
    (hp : align < p) (hpS : p < SIZE_MOD) :
    (p + V1.MemoryPool.padPointer p align) % align = 0 ↔
      align ∈ [8, 16, 32, 64, 128, 256, 512] := by
  have ha : 0 < align := by
    unfold V1.slotSizes at hmem
    obtain ⟨i, _, rfl⟩ := List.mem_map.1 hmem
    unfold V1.slotSize V1.SLOT_BASE_SIZE
    omega
  rw [padPointer_wrapped p align ha hp hpS]
  exact slotSizes_dividing align hmem

/-- C24 fails for the slot size 24 that `initMemoryPool` gives the third pool. The
body of a block at `0x1000` starts at `0x1008`, which is a multiple of 24 already;
`padPointer(0x1008, 24)` computes `(24 - 0x1008) mod 2^64 mod 24 = 16`, below 24
as claimed, but `0x1008 + 16 = 0x1018` leaves the remainder 16 modulo 24:
`allocateNewBlock` sets `curSlot_` to a pointer that is not a multiple of the
slot size. -/
theorem padPointer_misaligns :
    24 ∈ V1.slotSizes ∧ V1.slotSize 2 = 24 ∧
    0x1008 % 24 = 0 ∧
    V1.MemoryPool.padPointer 0x1008 24 = 16 ∧
    (0x1008 + V1.MemoryPool.padPointer 0x1008 24) % 24 = 16 ∧
    V1.MemoryPool.firstSlot 0x1000 24 = 0x1018 ∧
    V1.MemoryPool.firstSlot 0x1000 24 % 24 = 16 := by
  decide

/-! ## Concrete runs -/

/-- C5. The counter drifts away from the list length. After 33 calls
`allocate(992)` from the fresh state (batch size 2, 33 blocks per span) the
last refill got a chain of one block from the central cache but counted two:
`freeListSize_[123] = 1` while `freeList_[123]` is empty. And when the very first
`allocate(8)` fails because the operating system refuses the mapping, it returns
null with `freeListSize_[0]` wrapped around to `2^64 - 1` and the list empty. -/
theorem freeListSize_drifts :
    (allocMany 992 33 (fresh (fun _ => 0) [0x10000])).map
        (fun r => (r.2.tc.freeListSize 123, r.2.tc.freeList 123,
          chainList r.2.mem 64 (r.2.tc.freeList 123)))
      = some (1, 0, []) ∧
    (MemoryPool.allocate (fresh (fun _ => 0) []) 8).map
        (fun r => (r.1, r.2.tc.freeListSize 0, r.2.tc.freeList 0))
      = some (0, 2 ^ 64 - 1, 0) := by
  decide!

/-- C6, as stated, fails: in the scenario the 34th free, not the 65th, is the
only one that triggers return-to-central (the thread cache still holds 31
blocks of the last batch when the frees begin), and the final state has 47
blocks on the thread cache's class-7 list, with the counter at 47, and 465 on
the central cache's class-7 list, not 16 and 49. -/
theorem scenario65_outcome :
    scenario65.map (fun r =>
        ((List.range 65).filter (fun k => r.1.getD k false),
          r.2.tc.freeListSize 7,
          (chainList r.2.mem 600 (r.2.tc.freeList 7)).length,
          (chainList r.2.mem 600 (r.2.cc.centralFreeList 7)).length))
      = some ([33], 47, 47, 465) := by
  decide!


/-! ## Concrete runs of the page cache -/

/-- C13, the claim at a page count whose byte size wraps. A client holds the span
at `0x28000`, the span at `0x20000` (8 pages) is free; `allocateSpan(2^52 + 1)`
asks the operating system for `(2^52 + 1) * 4096 mod 2^64 = 4096` bytes, gets
them at `0x10000`, and returns that address with a record of `2^52 + 1` pages:
the range `[0x10000, 0x10000 + (2^52 + 1) * 4096)` contains the free span. -/
theorem allocateSpan_wrapped_request :
    (pcRun [PcCall.alloc 8, PcCall.alloc 8, PcCall.free 0x20000 8, PcCall.alloc (2 ^ 52 + 1)]
        (fresh (fun _ => 0) [0x20000, 0x28000, 0x10000])).map
      (fun r => (r.1, r.2.os.mapped.head?, freeListOf r.2 8, spanTable r.2))
      = some ([0x20000, 0x28000, 0x10000], some (0x10000, 4096), [1],
          [[1, 0x20000, 8, 0], [2, 0x28000, 8, 0], [3, 0x10000, 2 ^ 52 + 1, 0]]) ∧
    ¬ (0x10000 + (2 ^ 52 + 1) * PAGE_SIZE ≤ 0x20000 ∨ 0x20000 + 8 * PAGE_SIZE ≤ 0x10000) := by
  refine ⟨by decide!, by decide⟩

/-- C14 fails on a reachable state. A client takes 8 pages at `0x10000` and 5 pages
at `0x18000` and gives back the first span: `deallocateSpan` evaluates
`freeSpans_[5]` while looking for the right neighbour, which leaves the key 5
with a null head next to the key 8 that holds the free span. Now a free span of
8 pages exists, but `allocateSpan(3)` hits the key 5 and dereferences the null
head. -/
theorem allocateSpan_null_head :
    (pcRun [PcCall.alloc 8, PcCall.alloc 5, PcCall.free 0x10000 8]
        (fresh (fun _ => 0) [0x10000, 0x18000])).map
      (fun r => (r.1, r.2.pc.freeSpans, spanTable r.2))
      = some ([0x10000, 0x18000], [(5, 0), (8, 1)],
          [[1, 0x10000, 8, 0], [2, 0x18000, 5, 0]]) ∧
    (pcRun [PcCall.alloc 8, PcCall.alloc 5, PcCall.free 0x10000 8]
        (fresh (fun _ => 0) [0x10000, 0x18000])).map
      (fun r => (freeListOf r.2 8, mapLowerBound r.2.pc.freeSpans 3))
      = some ([1], some (5, 0)) ∧
    (pcRun [PcCall.alloc 8, PcCall.alloc 5, PcCall.free 0x10000 8, PcCall.alloc 3]
        (fresh (fun _ => 0) [0x10000, 0x18000])).isNone = true := by
  decide!

/-- C15 fails when no span is registered right behind the one given back. After
`allocateSpan(8)` returned `0x10000` the span map holds that address, but
`deallocateSpan(0x10000, 8)` leaves the free-spans map empty: the span is not
put on any free list. -/
theorem deallocateSpan_no_neighbour :
    (pcRun [PcCall.alloc 8] (fresh (fun _ => 0) [0x10000])).map
      (fun r => (r.1, r.2.pc.spanMap, mapFind r.2.pc.spanMap (0x10000 + 8 * PAGE_SIZE)))
      = some ([0x10000], [(0x10000, 1)], none) ∧
    (pcRun [PcCall.alloc 8, PcCall.free 0x10000 8] (fresh (fun _ => 0) [0x10000])).map
      (fun r => (r.2.pc.freeSpans, freeListOf r.2 8, r.2.pc.spanMap, spanTable r.2))
      = some ([], [], [(0x10000, 1)], [[1, 0x10000, 8, 0]]) := by
  decide!

/-- C16 fails. In the state `pcLowerFreed` the free-spans map holds exactly one
span, of 8 pages at `0x10000`, registered in the span map. `allocateSpan(3)`
returns `0x10000` and leaves a free 5-page span at `0x13000`; but the following
`deallocateSpan(0x10000, 3)` changes nothing, because the 5-page span is not in
the span map: the only free span is still the 5-page one, and the span at
`0x10000` has 3 pages and is on no free list. -/
theorem split_free_no_round_trip :
    (pcLowerFreed.pc.freeSpans, freeListOf pcLowerFreed 8, pcLowerFreed.pc.spanMap)
      = ([(8, 1)], [1], [(0x10000, 1), (0x18000, 2)]) ∧
    spanTable pcLowerFreed = [[1, 0x10000, 8, 0], [2, 0x18000, 8, 0]] ∧
    (pcRun [PcCall.alloc 3] pcLowerFreed).map
      (fun r => (r.1, r.2.pc.freeSpans, freeListOf r.2 5))
      = some ([0x10000], [(5, 3)], [3]) ∧
    (pcRun [PcCall.alloc 3] pcLowerFreed).map (fun r => spanTable r.2)
      = some [[1, 0x10000, 3, 0], [2, 0x18000, 8, 0], [3, 0x13000, 5, 0]] ∧
    (pcRun [PcCall.alloc 3, PcCall.free 0x10000 3] pcLowerFreed).map
      (fun r => (r.2.pc.freeSpans, freeListOf r.2 5, freeListOf r.2 8))
      = some ([(5, 3)], [3], []) ∧
    (pcRun [PcCall.alloc 3, PcCall.free 0x10000 3] pcLowerFreed).map
      (fun r => (spanTable r.2, mapFind r.2.pc.spanMap 0x13000))
      = some ([[1, 0x10000, 3, 0], [2, 0x18000, 8, 0], [3, 0x13000, 5, 0]], none) := by
  decide!

/-- C17 fails after a split. From the fresh state: `allocateSpan(8)` twice (mapped
at `0x10000` and `0x18000`), `deallocateSpan(0x10000, 8)`, `allocateSpan(3)`. The
record 3 of the 5-page tail at `0x13000` is on the free list of key 5, and the
span map has no entry under `0x13000`. -/
theorem split_tail_not_registered :
    (pcRun [PcCall.alloc 8, PcCall.alloc 8, PcCall.free 0x10000 8, PcCall.alloc 3]
        (fresh (fun _ => 0) [0x10000, 0x18000])).map
      (fun r => (r.1, freeListOf r.2 5, r.2.pc.spanMap))
      = some ([0x10000, 0x18000, 0x10000], [3], [(0x10000, 1), (0x18000, 2)]) ∧
    (pcRun [PcCall.alloc 8, PcCall.alloc 8, PcCall.free 0x10000 8, PcCall.alloc 3]
        (fresh (fun _ => 0) [0x10000, 0x18000])).map
      (fun r => ((r.2.pc.spans 3).pageAddr, (r.2.pc.spans 3).numPages,
        mapFind r.2.pc.spanMap (r.2.pc.spans 3).pageAddr))
      = some (0x13000, 5, none) := by
  decide!

/-- C18 fails when the lower of two neighbours is given back first. Three 8-page
spans are mapped back to back at `0x10000`, `0x18000`, `0x20000` and held by a
client; after `deallocateSpan(0x10000, 8)` and `deallocateSpan(0x18000, 8)` the
free list of key 8 holds the record at `0x18000` and the record at `0x10000`:
the free span at `0x10000` ends where the free span at `0x18000` starts. -/
theorem free_neighbours_not_coalesced :
    (pcRun [PcCall.alloc 8, PcCall.alloc 8, PcCall.alloc 8,
          PcCall.free 0x10000 8, PcCall.free 0x18000 8]
        (fresh (fun _ => 0) [0x10000, 0x18000, 0x20000])).map
      (fun r => (r.1, freeListOf r.2 8, spanTable r.2))
      = some ([0x10000, 0x18000, 0x20000], [2, 1],
          [[1, 0x10000, 8, 0], [2, 0x18000, 8, 1], [3, 0x20000, 8, 0]]) ∧
    0x10000 + 8 * PAGE_SIZE = 0x18000 := by
  refine ⟨by decide!, by decide⟩

/-- C23 fails: `deallocateSpan` leaves keys with a null head in the free-spans map.
First run: three 8-page spans mapped back to back at `0x10000`, `0x18000`,
`0x20000` are taken, the middle one is given back and then the lowest, which
absorbs the middle one; unlinking the only record of the list of key 8 leaves
the key 8 with a null head beside the key 16. Second run: a 4-page span at
`0x10000` and a 2-page span at `0x14000` are taken and the first is given back;
evaluating `freeSpans_[2]` for the right neighbour inserts the key 2 with a null
head. In both states the next `allocateSpan` whose `lower_bound` hits the null
head dereferences it. -/
theorem free_spans_null_heads :
    (pcRun [PcCall.alloc 8, PcCall.alloc 8, PcCall.alloc 8, PcCall.free 0x18000 8,
          PcCall.free 0x10000 8]
        (fresh (fun _ => 0) [0x10000, 0x18000, 0x20000])).map
      (fun r => (r.1, r.2.pc.freeSpans, mapLowerBound r.2.pc.freeSpans 8))
      = some ([0x10000, 0x18000, 0x20000], [(8, 0), (16, 1)], some (8, 0)) ∧
    (pcRun [PcCall.alloc 8, PcCall.alloc 8, PcCall.alloc 8, PcCall.free 0x18000 8,
          PcCall.free 0x10000 8, PcCall.alloc 8]
        (fresh (fun _ => 0) [0x10000, 0x18000, 0x20000])).isNone = true ∧
    (pcRun [PcCall.alloc 4, PcCall.alloc 2, PcCall.free 0x10000 4]
        (fresh (fun _ => 0) [0x10000, 0x14000])).map
      (fun r => (r.1, r.2.pc.freeSpans, mapLowerBound r.2.pc.freeSpans 1))
      = some ([0x10000, 0x14000], [(2, 0), (4, 1)], some (2, 0)) ∧
    (pcRun [PcCall.alloc 4, PcCall.alloc 2, PcCall.free 0x10000 4, PcCall.alloc 1]
        (fresh (fun _ => 0) [0x10000, 0x14000])).isNone = true := by
  decide!

end MyMemoryPool
